import Mathlib

/-
Verification of the CPM scheduling engine in nd.py.

The program is embedded shallowly: the node list of a Plan is a Lean list,
predecessor/successor references are indices into that list (Python stores
object references; since every node lives in the single list plan.nodes,
an index is the same information), and every mutating method becomes a
function from state to state.  Python integers become Int.  The value None
of prev_nodes/next_nodes is represented by the empty list: the code only
ever tests these fields for truthiness, which identifies None and [].
The recursive graph walks (calculate_forward_from_node and
calculate_child_node_levels) take a fuel argument; the callers pass the
node-list length, which is shown to be sufficient for every well-formed
plan because successor indices strictly increase along any walk.
-/

namespace ND

/-- Errors raised by the program: DiagramError carrying its message, and
the AttributeError that Python raises in create_node when find_node
returns None and the code calls add_next_node on it. -/
inductive PyError where
  | diagramError (message : String)
  | attributeError
deriving DecidableEq, Repr

/-- A task, mirroring class Node of nd.py.  prev and next hold indices of
predecessor and successor nodes in the plan node list. -/
structure Node where
  id : Nat
  name : String
  duration : Int
  prev : List Nat
  next : List Nat
  free_float : Int
  total_float : Int
  early_start_time : Int
  early_finish_time : Int
  late_start_time : Int
  late_finish_time : Int
  level : Int
deriving DecidableEq, Repr

instance : Inhabited Node :=
  ⟨{ id := 0, name := "", duration := 0, prev := [], next := [],
     free_float := 0, total_float := 0, early_start_time := 0,
     early_finish_time := 0, late_start_time := 0, late_finish_time := 0,
     level := 0 }⟩

/-- Node.__init__ : all numeric fields start at zero, no links. -/
def mkNode (name : String) (duration : Int) : Node :=
  { (default : Node) with name := name, duration := duration }

/-- A Python dict used with d.get(k, dflt), modelled as an association
list in key insertion order. -/
def dictGet {α : Type} (d : List (Int × α)) (k : Int) (dflt : α) : α :=
  match d.find? (fun kv => kv.1 == k) with
  | some kv => kv.2
  | none => dflt

/-- dict assignment d[k] = v : replace the value of an existing key in
place, or append the new key. -/
def dictSet {α : Type} (d : List (Int × α)) (k : Int) (v : α) : List (Int × α) :=
  match d with
  | [] => [(k, v)]
  | kv :: rest => if kv.1 == k then (k, v) :: rest else kv :: dictSet rest k v

/-- class Plan of nd.py. -/
structure Plan where
  nodes : List Node
  critical_path_nodes : List Nat
  node_id : Nat
  nodes_per_level : List (Int × Nat)
  level_nodes : List (Int × List Nat)
  max_node_level : Int
deriving DecidableEq, Repr

/-- Plan.__init__. -/
def Plan.empty : Plan :=
  { nodes := [], critical_path_nodes := [], node_id := 0,
    nodes_per_level := [], level_nodes := [], max_node_level := 0 }

/-- Read the node at an index (total, defaulting outside the list; the
program never reads outside). -/
def nth (ns : List Node) (i : Nat) : Node := ns.getD i default

/-- Mutate the node at an index. -/
def modifyIdx : List Node → Nat → (Node → Node) → List Node
  | [], _, _ => []
  | a :: l, 0, f => f a :: l
  | a :: l, Nat.succ n, f => a :: modifyIdx l n f

/-- Plan.find_node: index of the first node with the given name. -/
def find_node_from : List Node → String → Nat → Option Nat
  | [], _, _ => none
  | n :: rest, nm, i => if n.name == nm then some i else find_node_from rest nm (i + 1)

def find_node (ns : List Node) (nm : String) : Option Nat :=
  find_node_from ns nm 0

/-- The loop of Plan._create_node over preceding_node_names.  For a found
name the new node records the predecessor index and the predecessor gains
the index the new node will occupy (newIdx).  For a missing name Python
evaluates pn.add_next_node with pn = None and raises AttributeError,
leaving the mutations made so far in place: the error value carries the
mutated node list. -/
def create_node_loop : List String → List Node → Nat → List Nat →
    Except (PyError × List Node) (List Node × List Nat)
  | [], ns, _, prevAcc => .ok (ns, prevAcc)
  | nm :: rest, ns, newIdx, prevAcc =>
    match find_node ns nm with
    | some p =>
        create_node_loop rest
          (modifyIdx ns p (fun n => { n with next := n.next ++ [newIdx] }))
          newIdx (prevAcc ++ [p])
    | none => .error (.attributeError, ns)

/-- Plan._create_node. -/
def create_node (p : Plan) (name : String) (duration : Int)
    (preceding : List String) : Except (PyError × Plan) (Plan × Node) :=
  match create_node_loop preceding p.nodes p.nodes.length [] with
  | .error (e, ns) => .error (e, { p with nodes := ns })
  | .ok (ns, prevs) =>
      .ok ({ p with nodes := ns, node_id := p.node_id + 1 },
           { mkNode name duration with prev := prevs, id := p.node_id + 1 })

/-- Plan.add_node.  On an error the plan state reached so far is returned
alongside the raised error. -/
def add_node (p : Plan) (name : String) (duration : Int)
    (preceding : List String) : Except (PyError × Plan) Plan :=
  if name ∈ preceding then
    .error (.diagramError ("Node \"" ++ name ++ "\" is its own predecessor."), p)
  else
    match find_node p.nodes name with
    | some _ => .error (.diagramError ("Node \"" ++ name ++ "\" already defined."), p)
    | none =>
      if duration ≤ 0 then
        .error (.diagramError ("Duration of node " ++ name ++ " <= 0."), p)
      else
        match create_node p name duration preceding with
        | .error e => .error e
        | .ok (p', node) => .ok { p' with nodes := p'.nodes ++ [node] }

/-- A sequence of add_node calls on a plan, as create_plan_from_table
performs for the parsed rows (name, duration, predecessor names). -/
def add_rows : Plan → List (String × Int × List String) → Except (PyError × Plan) Plan
  | p, [] => .ok p
  | p, (name, duration, preds) :: rest =>
    match add_node p name duration preds with
    | .ok p' => add_rows p' rest
    | .error e => .error e

/-- The parent loop of calculate_forward_from_node: each parent has its
early finish recomputed from its current early start, and the running
maximum is updated. -/
def fwd_parents_loop : List Node → List Nat → Int → List Node × Int
  | ns, [], m => (ns, m)
  | ns, p :: rest, m =>
    let ns' := modifyIdx ns p
      (fun pn => { pn with early_finish_time := pn.early_start_time + pn.duration })
    let ef := (nth ns' p).early_finish_time
    fwd_parents_loop ns' rest (if ef > m then ef else m)

/-- The body of calculate_forward_from_node before the recursion into the
successors (lines 90 to 100 of nd.py). -/
def fwd_root (ns : List Node) (i : Nat) : List Node :=
  let ns1 := modifyIdx ns i
    (fun n => { n with early_finish_time := n.early_start_time + n.duration })
  let ns2 := modifyIdx ns1 i (fun n => { n with early_start_time := 0 })
  if (nth ns2 i).prev = [] then ns2
  else
    let r := fwd_parents_loop ns2 (nth ns2 i).prev 0
    let ns3 := modifyIdx r.1 i (fun n => { n with early_start_time := r.2 })
    modifyIdx ns3 i
      (fun n => { n with early_finish_time := n.early_start_time + n.duration })

/-- Plan.calculate_forward_from_node.  The recursion follows successor
edges, whose indices strictly increase in a well-formed plan, so fuel
equal to the list length never runs out there. -/
def calculate_forward_from_node : Nat → List Node → Nat → List Node
  | 0, ns, _ => ns
  | Nat.succ fuel, ns, i =>
    let ns' := fwd_root ns i
    if (nth ns' i).next = [] then ns'
    else (nth ns' i).next.foldl (fun acc c => calculate_forward_from_node fuel acc c) ns'

/-- Plan.calculate_forward. -/
def calculate_forward (ns : List Node) : List Node :=
  (List.range ns.length).foldl (fun acc i => calculate_forward_from_node acc.length acc i) ns

/-- Plan.calculate_backward_from_node. -/
def calculate_backward_from_node (ns : List Node) (i : Nat) : List Node :=
  let ns1 := modifyIdx ns i
    (fun n => { n with late_finish_time := n.early_finish_time,
                       late_start_time := n.early_finish_time - n.duration })
  match (nth ns1 i).next with
  | [] => ns1
  | c :: _ =>
    let seed := (nth ns1 c).late_start_time
    let m := (nth ns1 i).next.foldl
      (fun a j => if a > (nth ns1 j).late_start_time then (nth ns1 j).late_start_time else a)
      seed
    modifyIdx ns1 i (fun n => { n with late_finish_time := m, late_start_time := m - n.duration })

/-- Plan.calculate_backward: reverse insertion order. -/
def calculate_backward (ns : List Node) : List Node :=
  (List.range ns.length).reverse.foldl (fun acc i => calculate_backward_from_node acc i) ns

/-- Plan.get_min_early_start_time. -/
def get_min_early_start_time (ns : List Node) (l : List Nat) : Int :=
  match l with
  | [] => 0
  | c :: _ =>
    l.foldl
      (fun a j => if a > (nth ns j).early_start_time then (nth ns j).early_start_time else a)
      ((nth ns c).early_start_time)

/-- Plan.calculate_buffers. -/
def calculate_buffers (ns : List Node) : List Node :=
  (List.range ns.length).foldl (fun acc i =>
    let acc1 := modifyIdx acc i
      (fun n => { n with total_float := n.late_start_time - n.early_start_time })
    if (nth acc1 i).next = [] then
      modifyIdx acc1 i (fun n => { n with free_float := 0 })
    else
      modifyIdx acc1 i
        (fun n => { n with free_float :=
          get_min_early_start_time acc1 (nth acc1 i).next - n.early_finish_time })) ns

/-- Plan.calculate_child_node_levels, carrying max_node_level alongside
the node list.  As in the source the walk continues into every child with
level + 1 whether or not the child level was raised. -/
def calculate_child_node_levels : Nat → List Node → Int → Nat → Int → List Node × Int
  | 0, ns, mx, _, _ => (ns, mx)
  | Nat.succ fuel, ns, mx, p, level =>
    match (nth ns p).next with
    | [] => (ns, mx)
    | _ :: _ =>
      (nth ns p).next.foldl (fun st c =>
        let ns1 := if (nth st.1 c).level < level
          then modifyIdx st.1 c (fun n => { n with level := level }) else st.1
        let mx1 := if st.2 < (nth ns1 c).level then (nth ns1 c).level else st.2
        calculate_child_node_levels fuel ns1 mx1 c (level + 1)) (ns, mx)

/-- Plan.calculate_node_levels. -/
def calculate_node_levels (ns : List Node) (mx : Int) : List Node × Int :=
  (List.range ns.length).foldl (fun st i =>
    if (nth st.1 i).prev = [] then
      let ns1 := modifyIdx st.1 i (fun n => { n with level := 0 })
      calculate_child_node_levels ns1.length ns1 st.2 i 1
    else st) (ns, mx)

/-- Plan.collect_level_nodes.  Note: the two dicts are appended to, never
reset. -/
def collect_level_nodes (p : Plan) : Plan :=
  (List.range p.nodes.length).foldl (fun q i =>
    let lv := (nth q.nodes i).level
    let l := dictGet q.level_nodes lv []
    { q with
      level_nodes := dictSet q.level_nodes lv (l ++ [i]),
      nodes_per_level := dictSet q.nodes_per_level lv (dictGet q.nodes_per_level lv 0 + 1) }) p

/-- Insert an index into a list already sorted by node level, after every
entry whose level is less than or equal to its own. -/
def insert_by_level (ns : List Node) (i : Nat) : List Nat → List Nat
  | [] => [i]
  | j :: l =>
    if (nth ns i).level < (nth ns j).level then i :: j :: l
    else j :: insert_by_level ns i l

/-- list.sort(key root level) of Python is a stable sort; a stable sort by
a key has exactly one possible output, and inserting each element in turn
after existing equal-level entries computes it. -/
def sort_by_level (ns : List Node) (l : List Nat) : List Nat :=
  l.foldl (fun acc i => insert_by_level ns i acc) []

/-- Plan.collect_critical_path_nodes: filter total_float == 0, then sort
by level. -/
def collect_critical_path_nodes (p : Plan) : Plan :=
  let base := (List.range p.nodes.length).foldl
    (fun acc i => if (nth p.nodes i).total_float = 0 then acc ++ [i] else acc) []
  { p with critical_path_nodes := sort_by_level p.nodes base }

/-- Plan.build. -/
def build (p : Plan) : Plan :=
  let p1 := { p with nodes := calculate_forward p.nodes }
  let p2 := { p1 with nodes := calculate_backward p1.nodes }
  let p3 := { p2 with nodes := calculate_buffers p2.nodes }
  let st := calculate_node_levels p3.nodes p3.max_node_level
  let p4 := { p3 with nodes := st.1, max_node_level := st.2 }
  let p5 := collect_level_nodes p4
  collect_critical_path_nodes p5

end ND

namespace ND

/- Basic facts about nth and modifyIdx. -/

theorem length_modifyIdx (ns : List Node) (i : Nat) (f : Node → Node) :
    (modifyIdx ns i f).length = ns.length := by
  induction ns generalizing i with
  | nil => rfl
  | cons a l ih =>
    cases i with
    | zero => rfl
    | succ n => simp only [modifyIdx, List.length_cons, ih]

theorem nth_nil (i : Nat) : nth [] i = default := rfl

theorem nth_cons_zero (a : Node) (l : List Node) : nth (a :: l) 0 = a := rfl

theorem nth_cons_succ (a : Node) (l : List Node) (i : Nat) :
    nth (a :: l) (i + 1) = nth l i := rfl

theorem nth_oob (ns : List Node) (i : Nat) (h : ns.length ≤ i) : nth ns i = default := by
  induction ns generalizing i with
  | nil => rfl
  | cons a l ih =>
    cases i with
    | zero => exact absurd h (by simp)
    | succ n => exact ih n (by simpa using h)

theorem nth_modifyIdx_self (ns : List Node) (i : Nat) (f : Node → Node)
    (h : i < ns.length) : nth (modifyIdx ns i f) i = f (nth ns i) := by
  induction ns generalizing i with
  | nil => exact absurd h (by simp)
  | cons a l ih =>
    cases i with
    | zero => rfl
    | succ n => exact ih n (by simpa using h)

theorem nth_modifyIdx_ne (ns : List Node) (i j : Nat) (f : Node → Node)
    (h : j ≠ i) : nth (modifyIdx ns i f) j = nth ns j := by
  induction ns generalizing i j with
  | nil => rfl
  | cons a l ih =>
    cases i with
    | zero =>
      cases j with
      | zero => exact absurd rfl h
      | succ m => rfl
    | succ n =>
      cases j with
      | zero => rfl
      | succ m => exact ih n m (fun hc => h (by rw [hc]))

theorem modifyIdx_oob (ns : List Node) (i : Nat) (f : Node → Node)
    (h : ns.length ≤ i) : modifyIdx ns i f = ns := by
  induction ns generalizing i with
  | nil => rfl
  | cons a l ih =>
    cases i with
    | zero => exact absurd h (by simp)
    | succ n => simp only [modifyIdx]; rw [ih n (by simpa using h)]

theorem modifyIdx_id (ns : List Node) (i : Nat) (f : Node → Node)
    (h : f (nth ns i) = nth ns i) : modifyIdx ns i f = ns := by
  induction ns generalizing i with
  | nil => rfl
  | cons a l ih =>
    cases i with
    | zero => simp only [modifyIdx]; rw [show f a = a from h]
    | succ n => simp only [modifyIdx]; rw [ih n h]

theorem nth_append_lt (ns ms : List Node) (i : Nat) (h : i < ns.length) :
    nth (ns ++ ms) i = nth ns i := by
  induction ns generalizing i with
  | nil => exact absurd h (by simp)
  | cons a l ih =>
    cases i with
    | zero => rfl
    | succ n => exact ih n (by simpa using h)

theorem nth_append_self (ns : List Node) (x : Node) :
    nth (ns ++ [x]) ns.length = x := by
  induction ns with
  | nil => rfl
  | cons a l ih => simpa using ih

theorem list_node_ext (ns ms : List Node) (hlen : ns.length = ms.length)
    (h : ∀ i, i < ns.length → nth ns i = nth ms i) : ns = ms := by
  induction ns generalizing ms with
  | nil => cases ms with
    | nil => rfl
    | cons b m => exact absurd hlen (by simp)
  | cons a l ih =>
    cases ms with
    | nil => exact absurd hlen (by simp)
    | cons b m =>
      have h0 : a = b := h 0 (by simp)
      have ht : l = m := by
        refine ih m (by simpa using hlen) (fun i hi => ?_)
        exact h (i + 1) (by simpa using hi)
      rw [h0, ht]

/- Folded maxima and minima over Int values indexed by a list. -/

theorem if_gt_eq_max (a v : Int) : (if v > a then v else a) = max a v := by
  by_cases h : a < v
  · simp only [gt_iff_lt, h, if_true, max_eq_right h.le]
  · simp only [gt_iff_lt, h, if_false, max_eq_left (not_lt.mp h)]

theorem if_gt_eq_min (a v : Int) : (if a > v then v else a) = min a v := by
  by_cases h : v < a
  · simp only [gt_iff_lt, h, if_true, min_eq_right (le_of_lt h)]
  · simp only [gt_iff_lt, h, if_false, min_eq_left (not_lt.mp h)]

def foldMax (f : Nat → Int) (l : List Nat) (s : Int) : Int :=
  l.foldl (fun a x => max a (f x)) s

def foldMin (f : Nat → Int) (l : List Nat) (s : Int) : Int :=
  l.foldl (fun a x => min a (f x)) s

theorem foldMax_nil (f : Nat → Int) (s : Int) : foldMax f [] s = s := rfl

theorem foldMax_cons (f : Nat → Int) (x : Nat) (l : List Nat) (s : Int) :
    foldMax f (x :: l) s = foldMax f l (max s (f x)) := rfl

theorem foldMax_ge_seed (f : Nat → Int) (l : List Nat) (s : Int) :
    s ≤ foldMax f l s := by
  induction l generalizing s with
  | nil => exact le_refl s
  | cons x t ih => exact le_trans (le_max_left s (f x)) (ih (max s (f x)))

theorem foldMax_ge_mem (f : Nat → Int) (l : List Nat) (s : Int) (x : Nat)
    (h : x ∈ l) : f x ≤ foldMax f l s := by
  induction l generalizing s with
  | nil => cases h
  | cons y t ih =>
    rcases List.mem_cons.mp h with h1 | h2
    · subst h1
      exact le_trans (le_max_right s (f x)) (foldMax_ge_seed f t (max s (f x)))
    · exact ih (max s (f y)) h2

theorem foldMax_cases (f : Nat → Int) (l : List Nat) (s : Int) :
    foldMax f l s = s ∨ ∃ x ∈ l, foldMax f l s = f x := by
  induction l generalizing s with
  | nil => exact Or.inl rfl
  | cons y t ih =>
    rcases ih (max s (f y)) with h | ⟨x, hx, hex⟩
    · rw [foldMax_cons, h]
      rcases max_choice s (f y) with hc | hc
      · exact Or.inl hc
      · exact Or.inr ⟨y, List.mem_cons_self y t, hc⟩
    · exact Or.inr ⟨x, List.mem_cons_of_mem y hx, by rw [foldMax_cons]; exact hex⟩

theorem foldMax_le (f : Nat → Int) (l : List Nat) (s b : Int)
    (hs : s ≤ b) (h : ∀ x ∈ l, f x ≤ b) : foldMax f l s ≤ b := by
  rcases foldMax_cases f l s with hc | ⟨x, hx, hex⟩
  · rw [hc]; exact hs
  · rw [hex]; exact h x hx

theorem foldMax_congr (f g : Nat → Int) (l : List Nat) (s : Int)
    (h : ∀ x ∈ l, f x = g x) : foldMax f l s = foldMax g l s := by
  induction l generalizing s with
  | nil => rfl
  | cons y t ih =>
    rw [foldMax_cons, foldMax_cons, h y (List.mem_cons_self y t)]
    exact ih (max s (g y)) (fun x hx => h x (List.mem_cons_of_mem y hx))

theorem foldMin_nil (f : Nat → Int) (s : Int) : foldMin f [] s = s := rfl

theorem foldMin_cons (f : Nat → Int) (x : Nat) (l : List Nat) (s : Int) :
    foldMin f (x :: l) s = foldMin f l (min s (f x)) := rfl

theorem foldMin_le_seed (f : Nat → Int) (l : List Nat) (s : Int) :
    foldMin f l s ≤ s := by
  induction l generalizing s with
  | nil => exact le_refl s
  | cons x t ih => exact le_trans (ih (min s (f x))) (min_le_left s (f x))

theorem foldMin_le_mem (f : Nat → Int) (l : List Nat) (s : Int) (x : Nat)
    (h : x ∈ l) : foldMin f l s ≤ f x := by
  induction l generalizing s with
  | nil => cases h
  | cons y t ih =>
    rcases List.mem_cons.mp h with h1 | h2
    · subst h1
      exact le_trans (foldMin_le_seed f t (min s (f x))) (min_le_right s (f x))
    · exact ih (min s (f y)) h2

theorem foldMin_cases (f : Nat → Int) (l : List Nat) (s : Int) :
    foldMin f l s = s ∨ ∃ x ∈ l, foldMin f l s = f x := by
  induction l generalizing s with
  | nil => exact Or.inl rfl
  | cons y t ih =>
    rcases ih (min s (f y)) with h | ⟨x, hx, hex⟩
    · rw [foldMin_cons, h]
      rcases min_choice s (f y) with hc | hc
      · exact Or.inl hc
      · exact Or.inr ⟨y, List.mem_cons_self y t, hc⟩
    · exact Or.inr ⟨x, List.mem_cons_of_mem y hx, by rw [foldMin_cons]; exact hex⟩

theorem foldMin_ge (f : Nat → Int) (l : List Nat) (s b : Int)
    (hs : b ≤ s) (h : ∀ x ∈ l, b ≤ f x) : b ≤ foldMin f l s := by
  rcases foldMin_cases f l s with hc | ⟨x, hx, hex⟩
  · rw [hc]; exact hs
  · rw [hex]; exact h x hx

theorem foldMin_congr (f g : Nat → Int) (l : List Nat) (s : Int)
    (h : ∀ x ∈ l, f x = g x) : foldMin f l s = foldMin g l s := by
  induction l generalizing s with
  | nil => rfl
  | cons y t ih =>
    rw [foldMin_cons, foldMin_cons, h y (List.mem_cons_self y t)]
    exact ih (min s (g y)) (fun x hx => h x (List.mem_cons_of_mem y hx))

end ND

namespace ND

/- The static structure of a node list: names, durations, edges and ids.
Every build phase only rewrites the scheduling fields, so the static
structure is preserved; well-formedness transfers along it. -/

def SameStatic (a b : Node) : Prop :=
  a.name = b.name ∧ a.duration = b.duration ∧ a.prev = b.prev ∧
  a.next = b.next ∧ a.id = b.id

theorem sameStatic_refl (a : Node) : SameStatic a a := ⟨rfl, rfl, rfl, rfl, rfl⟩

theorem sameStatic_trans {a b c : Node} (h1 : SameStatic a b) (h2 : SameStatic b c) :
    SameStatic a c :=
  ⟨h1.1.trans h2.1, h1.2.1.trans h2.2.1, h1.2.2.1.trans h2.2.2.1,
   h1.2.2.2.1.trans h2.2.2.2.1, h1.2.2.2.2.trans h2.2.2.2.2⟩

def StaticEq (ns ms : List Node) : Prop :=
  ns.length = ms.length ∧ ∀ i, SameStatic (nth ns i) (nth ms i)

theorem staticEq_refl (ns : List Node) : StaticEq ns ns :=
  ⟨rfl, fun i => sameStatic_refl (nth ns i)⟩

theorem staticEq_trans {ns ms ks : List Node} (h1 : StaticEq ns ms)
    (h2 : StaticEq ms ks) : StaticEq ns ks :=
  ⟨h1.1.trans h2.1, fun i => sameStatic_trans (h1.2 i) (h2.2 i)⟩

theorem StaticEq.len {ns ms : List Node} (h : StaticEq ns ms) :
    ns.length = ms.length := h.1

theorem StaticEq.name_eq {ns ms : List Node} (h : StaticEq ns ms) (i : Nat) :
    (nth ms i).name = (nth ns i).name := ((h.2 i).1).symm

theorem StaticEq.duration_eq {ns ms : List Node} (h : StaticEq ns ms) (i : Nat) :
    (nth ms i).duration = (nth ns i).duration := ((h.2 i).2.1).symm

theorem StaticEq.prev_eq {ns ms : List Node} (h : StaticEq ns ms) (i : Nat) :
    (nth ms i).prev = (nth ns i).prev := ((h.2 i).2.2.1).symm

theorem StaticEq.next_eq {ns ms : List Node} (h : StaticEq ns ms) (i : Nat) :
    (nth ms i).next = (nth ns i).next := ((h.2 i).2.2.2.1).symm

theorem StaticEq.id_eq {ns ms : List Node} (h : StaticEq ns ms) (i : Nat) :
    (nth ms i).id = (nth ns i).id := ((h.2 i).2.2.2.2).symm

theorem staticEq_modifyIdx (ns : List Node) (i : Nat) (f : Node → Node)
    (hf : ∀ n, SameStatic n (f n)) : StaticEq ns (modifyIdx ns i f) := by
  refine ⟨(length_modifyIdx ns i f).symm, fun j => ?_⟩
  by_cases h : j = i
  · subst h
    by_cases hl : j < ns.length
    · rw [nth_modifyIdx_self ns j f hl]; exact hf (nth ns j)
    · rw [modifyIdx_oob ns j f (not_lt.mp hl)]; exact sameStatic_refl _
  · rw [nth_modifyIdx_ne ns i j f h]; exact sameStatic_refl _

theorem staticEq_foldl (g : List Node → Nat → List Node) (l : List Nat)
    (ns : List Node) (hg : ∀ ms x, StaticEq ms (g ms x)) :
    StaticEq ns (l.foldl g ns) := by
  induction l generalizing ns with
  | nil => exact staticEq_refl ns
  | cons a t ih => exact staticEq_trans (hg ns a) (ih (g ns a))

theorem staticEq_foldl_pair (g : List Node × Int → Nat → List Node × Int)
    (l : List Nat) (st : List Node × Int)
    (hg : ∀ ms x, StaticEq ms.1 (g ms x).1) :
    StaticEq st.1 (l.foldl g st).1 := by
  induction l generalizing st with
  | nil => exact staticEq_refl st.1
  | cons a t ih => exact staticEq_trans (hg st a) (ih (g st a))

theorem staticEq_step {ns ms : List Node} {i : Nat} {f : Node → Node}
    (h : StaticEq ns ms) (hf : ∀ n, SameStatic n (f n)) :
    StaticEq ns (modifyIdx ms i f) :=
  staticEq_trans h (staticEq_modifyIdx ms i f hf)

theorem staticEq_fwd_parents_loop (ps : List Nat) (ns : List Node) (m : Int) :
    StaticEq ns (fwd_parents_loop ns ps m).1 := by
  induction ps generalizing ns m with
  | nil => exact staticEq_refl ns
  | cons p t ih =>
    exact staticEq_trans
      (staticEq_step (staticEq_refl ns) (by exact fun n => ⟨rfl, rfl, rfl, rfl, rfl⟩))
      (ih _ _)

theorem staticEq_step_loop {ns ms : List Node} {ps : List Nat} {m : Int}
    (h : StaticEq ns ms) : StaticEq ns (fwd_parents_loop ms ps m).1 :=
  staticEq_trans h (staticEq_fwd_parents_loop ps ms m)

theorem staticEq_fwd_root (ns : List Node) (i : Nat) : StaticEq ns (fwd_root ns i) := by
  simp only [fwd_root]
  split
  · exact staticEq_step
      (staticEq_step (staticEq_refl ns) (by exact fun n => ⟨rfl, rfl, rfl, rfl, rfl⟩))
      (by exact fun n => ⟨rfl, rfl, rfl, rfl, rfl⟩)
  · exact staticEq_step (staticEq_step (staticEq_step_loop (staticEq_step
      (staticEq_step (staticEq_refl ns)
        (by exact fun n => ⟨rfl, rfl, rfl, rfl, rfl⟩))
        (by exact fun n => ⟨rfl, rfl, rfl, rfl, rfl⟩)))
        (by exact fun n => ⟨rfl, rfl, rfl, rfl, rfl⟩))
        (by exact fun n => ⟨rfl, rfl, rfl, rfl, rfl⟩)

theorem staticEq_calculate_forward_from_node (fuel : Nat) (ns : List Node) (i : Nat) :
    StaticEq ns (calculate_forward_from_node fuel ns i) := by
  induction fuel generalizing ns i with
  | zero => exact staticEq_refl ns
  | succ fuel ih =>
    simp only [calculate_forward_from_node]
    split
    · exact staticEq_fwd_root ns i
    · exact staticEq_trans (staticEq_fwd_root ns i)
        (staticEq_foldl _ _ _ (fun ms x => ih ms x))

theorem staticEq_calculate_forward (ns : List Node) :
    StaticEq ns (calculate_forward ns) :=
  staticEq_foldl _ _ _ (fun ms x => staticEq_calculate_forward_from_node ms.length ms x)

theorem staticEq_calculate_backward_from_node (ns : List Node) (i : Nat) :
    StaticEq ns (calculate_backward_from_node ns i) := by
  simp only [calculate_backward_from_node]
  split
  · exact staticEq_step (staticEq_refl ns) (by exact fun n => ⟨rfl, rfl, rfl, rfl, rfl⟩)
  · exact staticEq_step
      (staticEq_step (staticEq_refl ns) (by exact fun n => ⟨rfl, rfl, rfl, rfl, rfl⟩))
      (by exact fun n => ⟨rfl, rfl, rfl, rfl, rfl⟩)

theorem staticEq_calculate_backward (ns : List Node) :
    StaticEq ns (calculate_backward ns) :=
  staticEq_foldl _ _ _ (fun ms x => staticEq_calculate_backward_from_node ms x)

theorem staticEq_calculate_buffers (ns : List Node) :
    StaticEq ns (calculate_buffers ns) := by
  refine staticEq_foldl _ _ _ (fun ms x => ?_)
  dsimp only
  split
  · exact staticEq_step
      (staticEq_step (staticEq_refl ms) (by exact fun n => ⟨rfl, rfl, rfl, rfl, rfl⟩))
      (by exact fun n => ⟨rfl, rfl, rfl, rfl, rfl⟩)
  · exact staticEq_step
      (staticEq_step (staticEq_refl ms) (by exact fun n => ⟨rfl, rfl, rfl, rfl, rfl⟩))
      (by exact fun n => ⟨rfl, rfl, rfl, rfl, rfl⟩)

theorem staticEq_calculate_child_node_levels (fuel : Nat) (ns : List Node)
    (mx : Int) (p : Nat) (level : Int) :
    StaticEq ns (calculate_child_node_levels fuel ns mx p level).1 := by
  induction fuel generalizing ns mx p level with
  | zero => exact staticEq_refl ns
  | succ fuel ih =>
    simp only [calculate_child_node_levels]
    split
    · exact staticEq_refl ns
    · refine staticEq_foldl_pair _ _ (ns, mx) (fun ms x => ?_)
      dsimp only
      refine staticEq_trans ?_ (ih _ _ _ _)
      split
      · exact staticEq_step (staticEq_refl ms.1)
          (by exact fun n => ⟨rfl, rfl, rfl, rfl, rfl⟩)
      · exact staticEq_refl ms.1

theorem staticEq_calculate_node_levels (ns : List Node) (mx : Int) :
    StaticEq ns (calculate_node_levels ns mx).1 := by
  refine staticEq_foldl_pair _ _ (ns, mx) (fun ms x => ?_)
  dsimp only
  split
  · refine staticEq_trans ?_ (staticEq_calculate_child_node_levels _ _ _ _ _)
    exact staticEq_step (staticEq_refl ms.1) (by exact fun n => ⟨rfl, rfl, rfl, rfl, rfl⟩)
  · exact staticEq_refl ms.1

/- Well-formedness of the static structure: predecessor indices precede
the node, successor indices follow it and stay in range, the two edge
lists are mutual, and durations are positive.  It is established by
add_node and preserved by every build phase. -/

def WF (ns : List Node) : Prop :=
  ∀ i, i < ns.length →
    (∀ p ∈ (nth ns i).prev, p < i) ∧
    (∀ c ∈ (nth ns i).next, i < c ∧ c < ns.length) ∧
    (∀ p ∈ (nth ns i).prev, i ∈ (nth ns p).next) ∧
    (∀ c ∈ (nth ns i).next, i ∈ (nth ns c).prev) ∧
    0 < (nth ns i).duration

theorem wf_staticEq {ns ms : List Node} (h : StaticEq ns ms) (hwf : WF ns) : WF ms := by
  intro i hi
  have hi' : i < ns.length := by rw [h.len]; exact hi
  obtain ⟨h1, h2, h3, h4, h5⟩ := hwf i hi'
  rw [h.prev_eq i, h.next_eq i]
  refine ⟨h1, fun c hc => ⟨(h2 c hc).1, by rw [← h.len]; exact (h2 c hc).2⟩,
    fun p hp => ?_, fun c hc => ?_, ?_⟩
  · rw [h.next_eq p]; exact h3 p hp
  · rw [h.prev_eq c]; exact h4 c hc
  · rw [h.duration_eq i]; exact h5

/- Characterisation of graph construction: a successful add_node appends
one node and adds its index to the next lists of its resolved
predecessors, and nothing else changes. -/

theorem find_node_from_lt (ns : List Node) (nm : String) (base p : Nat)
    (h : find_node_from ns nm base = some p) : p < base + ns.length := by
  induction ns generalizing base with
  | nil => exact absurd h (by simp [find_node_from])
  | cons a l ih =>
    simp only [find_node_from] at h
    by_cases hb : a.name == nm
    · rw [if_pos hb] at h
      have : base = p := by exact Option.some.inj h
      subst this
      simp only [List.length_cons]
      omega
    · rw [if_neg hb] at h
      have := ih (base + 1) h
      simp only [List.length_cons]
      omega

theorem find_node_lt (ns : List Node) (nm : String) (p : Nat)
    (h : find_node ns nm = some p) : p < ns.length := by
  have := find_node_from_lt ns nm 0 p h
  omega

/-- Equality of every node field except the successor list. -/
def SameExceptNext (a b : Node) : Prop :=
  a.id = b.id ∧ a.name = b.name ∧ a.duration = b.duration ∧ a.prev = b.prev ∧
  a.free_float = b.free_float ∧ a.total_float = b.total_float ∧
  a.early_start_time = b.early_start_time ∧ a.early_finish_time = b.early_finish_time ∧
  a.late_start_time = b.late_start_time ∧ a.late_finish_time = b.late_finish_time ∧
  a.level = b.level

theorem sameExceptNext_refl (a : Node) : SameExceptNext a a :=
  ⟨rfl, rfl, rfl, rfl, rfl, rfl, rfl, rfl, rfl, rfl, rfl⟩

theorem sameExceptNext_trans {a b c : Node} (h1 : SameExceptNext a b)
    (h2 : SameExceptNext b c) : SameExceptNext a c := by
  obtain ⟨e1, e2, e3, e4, e5, e6, e7, e8, e9, e10, e11⟩ := h1
  obtain ⟨f1, f2, f3, f4, f5, f6, f7, f8, f9, f10, f11⟩ := h2
  exact ⟨e1.trans f1, e2.trans f2, e3.trans f3, e4.trans f4, e5.trans f5,
    e6.trans f6, e7.trans f7, e8.trans f8, e9.trans f9, e10.trans f10, e11.trans f11⟩

theorem create_node_loop_ok (names : List String) (ns : List Node)
    (newIdx : Nat) (acc : List Nat) (res : List Node × List Nat)
    (h : create_node_loop names ns newIdx acc = .ok res) :
    ∃ delta : List Nat,
      res.2 = acc ++ delta ∧
      (∀ q ∈ delta, q < ns.length) ∧
      res.1.length = ns.length ∧
      (∀ i, SameExceptNext (nth ns i) (nth res.1 i)) ∧
      (∀ i c, c ∈ (nth res.1 i).next ↔
        (c ∈ (nth ns i).next ∨ (c = newIdx ∧ i ∈ delta))) := by
  induction names generalizing ns acc with
  | nil =>
    refine ⟨[], ?_, by simp, ?_, ?_, ?_⟩
    · have : res = (ns, acc) := by
        simpa [create_node_loop] using h.symm
      rw [this]; simp
    · have : res = (ns, acc) := by simpa [create_node_loop] using h.symm
      rw [this]
    · have : res = (ns, acc) := by simpa [create_node_loop] using h.symm
      rw [this]; exact fun i => sameExceptNext_refl _
    · have : res = (ns, acc) := by simpa [create_node_loop] using h.symm
      rw [this]; simp
  | cons nm rest ih =>
    simp only [create_node_loop] at h
    cases hf : find_node ns nm with
    | none => rw [hf] at h; exact absurd h (by simp)
    | some p =>
      rw [hf] at h
      have hp : p < ns.length := find_node_lt ns nm p hf
      set ns1 := modifyIdx ns p (fun n => { n with next := n.next ++ [newIdx] }) with hns1
      obtain ⟨delta, hd1, hd2, hd3, hd4, hd5⟩ := ih ns1 (acc ++ [p]) h
      have hlen1 : ns1.length = ns.length := length_modifyIdx ns p _
      refine ⟨p :: delta, by rw [hd1]; simp, ?_, by rw [hd3, hlen1], ?_, ?_⟩
      · intro q hq
        rcases List.mem_cons.mp hq with rfl | hq2
        · exact hp
        · rw [← hlen1]; exact hd2 q hq2
      · intro i
        refine sameExceptNext_trans (b := nth ns1 i) ?_ (hd4 i)
        by_cases hip : i = p
        · subst hip
          rw [hns1, nth_modifyIdx_self ns i _ hp]
          exact ⟨rfl, rfl, rfl, rfl, rfl, rfl, rfl, rfl, rfl, rfl, rfl⟩
        · rw [hns1, nth_modifyIdx_ne ns p i _ hip]
          exact sameExceptNext_refl _
      · intro i c
        rw [hd5 i c]
        by_cases hip : i = p
        · subst hip
          rw [hns1, nth_modifyIdx_self ns i _ hp]
          constructor
          · intro hc
            rcases hc with hc | hc
            · rcases List.mem_append.mp hc with hc2 | hc2
              · exact Or.inl hc2
              · exact Or.inr ⟨List.mem_singleton.mp hc2, List.mem_cons_self i delta⟩
            · exact Or.inr ⟨hc.1, List.mem_cons_self i delta⟩
          · intro hc
            rcases hc with hc | hc
            · exact Or.inl (List.mem_append.mpr (Or.inl hc))
            · exact Or.inl (List.mem_append.mpr (Or.inr (by simp [hc.1])))
        · rw [hns1, nth_modifyIdx_ne ns p i _ hip]
          constructor
          · intro hc
            rcases hc with hc | hc
            · exact Or.inl hc
            · exact Or.inr ⟨hc.1, List.mem_cons_of_mem p hc.2⟩
          · intro hc
            rcases hc with hc | hc
            · exact Or.inl hc
            · rcases List.mem_cons.mp hc.2 with he | he
              · exact absurd he hip
              · exact Or.inr ⟨hc.1, he⟩

theorem mkNode_next (nm : String) (d : Int) : (mkNode nm d).next = [] := rfl

theorem add_node_ok (p : Plan) (name : String) (duration : Int)
    (preceding : List String) (p' : Plan)
    (h : add_node p name duration preceding = .ok p') :
    ∃ delta : List Nat,
      (∀ q ∈ delta, q < p.nodes.length) ∧
      p'.nodes.length = p.nodes.length + 1 ∧
      (∀ i, i < p.nodes.length → SameExceptNext (nth p.nodes i) (nth p'.nodes i)) ∧
      (∀ i c, i < p.nodes.length →
        (c ∈ (nth p'.nodes i).next ↔
          (c ∈ (nth p.nodes i).next ∨ (c = p.nodes.length ∧ i ∈ delta)))) ∧
      nth p'.nodes p.nodes.length =
        { mkNode name duration with prev := delta, id := p.node_id + 1 } ∧
      0 < duration ∧
      p'.max_node_level = p.max_node_level ∧
      p'.node_id = p.node_id + 1 ∧
      p'.level_nodes = p.level_nodes ∧
      p'.nodes_per_level = p.nodes_per_level ∧
      p'.critical_path_nodes = p.critical_path_nodes := by
  simp only [add_node] at h
  split at h
  · exact absurd h (by simp)
  · split at h
    · exact absurd h (by simp)
    · rename_i hfind
      split at h
      · exact absurd h (by simp)
      · rename_i hdur
        split at h
        · exact absurd h (by simp)
        · rename_i p1 node1 hc
          simp only [create_node] at hc
          split at hc
          · exact absurd hc (by simp)
          · rename_i ns prevs hloop
            have hpair := Except.ok.inj hc
            cases hpair
            obtain ⟨delta, hd1, hd2, hd3, hd4, hd5⟩ :=
              create_node_loop_ok preceding p.nodes p.nodes.length [] (ns, prevs) hloop
            simp only at hd1 hd2 hd3 hd4 hd5
            have hdelta : delta = prevs := by simpa using hd1.symm
            subst hdelta
            have hp' : p' = { p with
                nodes := ns ++ [{ mkNode name duration with prev := delta, id := p.node_id + 1 }],
                node_id := p.node_id + 1 } := (Except.ok.inj h).symm
            subst hp'
            refine ⟨delta, hd2, ?_, ?_, ?_, ?_, by omega, rfl, rfl, rfl, rfl, rfl⟩
            · simp [hd3]
            · intro i hi
              have heq : nth (ns ++ [{ mkNode name duration with prev := delta, id := p.node_id + 1 }]) i
                  = nth ns i := nth_append_lt ns _ i (by rw [hd3]; exact hi)
              simp only [heq]
              exact hd4 i
            · intro i c hi
              have heq : nth (ns ++ [{ mkNode name duration with prev := delta, id := p.node_id + 1 }]) i
                  = nth ns i := nth_append_lt ns _ i (by rw [hd3]; exact hi)
              simp only [heq]
              exact hd5 i c
            · have heq := nth_append_self ns
                { mkNode name duration with prev := delta, id := p.node_id + 1 }
              rw [← hd3]
              exact heq

def Inv0 (p : Plan) : Prop :=
  WF p.nodes ∧
  (∀ i, i < p.nodes.length →
    (nth p.nodes i).early_start_time = 0 ∧ (nth p.nodes i).level = 0) ∧
  p.max_node_level = 0

theorem inv0_empty : Inv0 Plan.empty := by
  refine ⟨?_, ?_, rfl⟩ <;> intro i hi <;> simp [Plan.empty] at hi

theorem add_node_inv0 (p : Plan) (name : String) (duration : Int)
    (preceding : List String) (p' : Plan)
    (h : add_node p name duration preceding = .ok p') (hp : Inv0 p) : Inv0 p' := by
  obtain ⟨delta, hq, hlen, hsame, hnext, hnew, hdur, hmx, _, _, _, _⟩ :=
    add_node_ok p name duration preceding p' h
  obtain ⟨hwf, hdyn, hm0⟩ := hp
  have hnewprev : (nth p'.nodes p.nodes.length).prev = delta := by rw [hnew]
  have hnewnext : (nth p'.nodes p.nodes.length).next = [] := by rw [hnew]; rfl
  refine ⟨?_, ?_, by rw [hmx]; exact hm0⟩
  · intro i hi
    rw [hlen] at hi
    by_cases hiL : i < p.nodes.length
    · obtain ⟨w1, w2, w3, w4, w5⟩ := hwf i hiL
      have hprev : (nth p'.nodes i).prev = (nth p.nodes i).prev :=
        ((hsame i hiL).2.2.2.1).symm
      have hdur2 : (nth p'.nodes i).duration = (nth p.nodes i).duration :=
        ((hsame i hiL).2.2.1).symm
      refine ⟨?_, ?_, ?_, ?_, ?_⟩
      · rw [hprev]; exact w1
      · intro c hc
        rcases (hnext i c hiL).mp hc with hc2 | hc2
        · exact ⟨(w2 c hc2).1, by rw [hlen]; have := (w2 c hc2).2; omega⟩
        · rw [hc2.1]; exact ⟨hiL, by rw [hlen]; omega⟩
      · intro q hqp
        rw [hprev] at hqp
        have hqa : q < i := w1 q hqp
        have hql : q < p.nodes.length := lt_trans hqa hiL
        exact (hnext q i hql).mpr (Or.inl (w3 q hqp))
      · intro c hc
        rcases (hnext i c hiL).mp hc with hc2 | hc2
        · have hcl : c < p.nodes.length := (w2 c hc2).2
          have : (nth p'.nodes c).prev = (nth p.nodes c).prev :=
            ((hsame c hcl).2.2.2.1).symm
          rw [this]
          exact w4 c hc2
        · rw [hc2.1, hnewprev]
          exact hc2.2
      · rw [hdur2]; exact w5
    · have hiL2 : i = p.nodes.length := by omega
      subst hiL2
      refine ⟨?_, ?_, ?_, ?_, ?_⟩
      · rw [hnewprev]; intro q hqd; exact hq q hqd
      · rw [hnewnext]; intro c hc; cases hc
      · rw [hnewprev]
        intro q hqd
        have hql : q < p.nodes.length := hq q hqd
        exact (hnext q p.nodes.length hql).mpr (Or.inr ⟨rfl, hqd⟩)
      · rw [hnewnext]; intro c hc; cases hc
      · rw [hnew]; exact hdur
  · intro i hi
    rw [hlen] at hi
    by_cases hiL : i < p.nodes.length
    · obtain ⟨d1, d2⟩ := hdyn i hiL
      have hes : (nth p'.nodes i).early_start_time = (nth p.nodes i).early_start_time :=
        ((hsame i hiL).2.2.2.2.2.2.1).symm
      have hlv : (nth p'.nodes i).level = (nth p.nodes i).level :=
        ((hsame i hiL).2.2.2.2.2.2.2.2.2.2).symm
      exact ⟨by rw [hes]; exact d1, by rw [hlv]; exact d2⟩
    · have hiL2 : i = p.nodes.length := by omega
      subst hiL2
      rw [hnew]
      exact ⟨rfl, rfl⟩

theorem add_rows_inv0 (rows : List (String × Int × List String)) (q p : Plan)
    (h : add_rows q rows = .ok p) (hq : Inv0 q) : Inv0 p := by
  induction rows generalizing q with
  | nil =>
    have : q = p := by simpa [add_rows] using h
    rw [← this]; exact hq
  | cons r rest ih =>
    simp only [add_rows] at h
    split at h
    · rename_i p1 hadd
      exact ih p1 h (add_node_inv0 q r.1 r.2.1 r.2.2 p1 hadd hq)
    · exact absurd h (by simp)

theorem built_inv0 (rows : List (String × Int × List String)) (p : Plan)
    (h : add_rows Plan.empty rows = .ok p) : Inv0 p :=
  add_rows_inv0 rows Plan.empty p h inv0_empty

/- Forward pass.  The specification relation: each node's early start is
the folded maximum (seeded with 0) of its predecessors' early finish
times, and its early finish is early start plus duration.  The loop of
calculate_forward visits the nodes in insertion order, which is a
topological order, so when node i is processed its predecessors already
satisfy the relation and are rewritten identically; the recursion into
successors only touches nodes with larger indices and is overwritten by
their own later root visits. -/

def maxEF (ns : List Node) (ps : List Nat) (s : Int) : Int :=
  foldMax (fun p => (nth ns p).early_finish_time) ps s

def FwdRel (ns : List Node) (i : Nat) : Prop :=
  (nth ns i).early_start_time = maxEF ns (nth ns i).prev 0 ∧
  (nth ns i).early_finish_time = (nth ns i).early_start_time + (nth ns i).duration

def SourcesZero (ns : List Node) : Prop :=
  ∀ j, j < ns.length → (nth ns j).prev = [] → (nth ns j).early_start_time = 0

def FwdInv (K : Nat) (ns : List Node) : Prop :=
  (∀ j, j < K → FwdRel ns j) ∧ SourcesZero ns

theorem fwdRel_transport {ns ns' : List Node} (j : Nat)
    (hnode : nth ns' j = nth ns j)
    (hEF : ∀ q ∈ (nth ns j).prev,
      (nth ns' q).early_finish_time = (nth ns q).early_finish_time)
    (h : FwdRel ns j) : FwdRel ns' j := by
  obtain ⟨h1, h2⟩ := h
  constructor
  · rw [hnode, h1]
    exact (foldMax_congr _ _ _ _ (fun q hq => hEF q hq)).symm
  · rw [hnode]; exact h2

theorem parent_write_id (ns : List Node) (p : Nat) (h : FwdRel ns p) :
    modifyIdx ns p
      (fun pn => { pn with early_finish_time := pn.early_start_time + pn.duration }) = ns := by
  apply modifyIdx_id
  show { nth ns p with
    early_finish_time := (nth ns p).early_start_time + (nth ns p).duration } = nth ns p
  rw [← h.2]

theorem fwd_parents_loop_done (ps : List Nat) (ns : List Node) (m : Int)
    (h : ∀ p ∈ ps, FwdRel ns p) :
    fwd_parents_loop ns ps m = (ns, maxEF ns ps m) := by
  induction ps generalizing m with
  | nil => rfl
  | cons p t ih =>
    have hid := parent_write_id ns p (h p (List.mem_cons_self p t))
    show fwd_parents_loop (modifyIdx ns p _) t _ = _
    rw [hid]
    rw [show (if (nth ns p).early_finish_time > m then (nth ns p).early_finish_time else m)
        = max m ((nth ns p).early_finish_time) from if_gt_eq_max m _]
    rw [ih (max m ((nth ns p).early_finish_time))
      (fun q hq => h q (List.mem_cons_of_mem p hq))]
    rfl

theorem sourcesZero_modify (ns : List Node) (p : Nat) (f : Node → Node)
    (hf : ∀ n, (f n).prev = n.prev ∧
      ((f n).early_start_time = n.early_start_time ∨
       (n.prev = [] → (f n).early_start_time = 0)))
    (h : SourcesZero ns) : SourcesZero (modifyIdx ns p f) := by
  intro j hj hp
  rw [length_modifyIdx] at hj
  by_cases hjp : j = p
  · subst hjp
    by_cases hl : j < ns.length
    · rw [nth_modifyIdx_self ns j f hl] at hp ⊢
      have hprev : (nth ns j).prev = [] := by rw [← (hf _).1]; exact hp
      rcases (hf (nth ns j)).2 with he | he
      · rw [he]; exact h j hj hprev
      · exact he hprev
    · exact absurd hj hl
  · rw [nth_modifyIdx_ne ns p j f hjp] at hp ⊢
    exact h j hj hp

theorem sourcesZero_write_nonsource (ns : List Node) (p : Nat) (f : Node → Node)
    (hf : ∀ n, (f n).prev = n.prev) (hp : (nth ns p).prev ≠ [])
    (h : SourcesZero ns) : SourcesZero (modifyIdx ns p f) := by
  intro j hj hpr
  rw [length_modifyIdx] at hj
  by_cases hjp : j = p
  · subst hjp
    by_cases hl : j < ns.length
    · rw [nth_modifyIdx_self ns j f hl, hf _] at hpr
      exact absurd hpr hp
    · exact absurd hj hl
  · rw [nth_modifyIdx_ne ns p j f hjp] at hpr ⊢
    exact h j hj hpr

theorem fwdRel_modify_ge (ns : List Node) (i K : Nat) (f : Node → Node)
    (hwf : WF ns) (hK : K ≤ ns.length) (hiK : K ≤ i)
    (h : ∀ j, j < K → FwdRel ns j) : ∀ j, j < K → FwdRel (modifyIdx ns i f) j := by
  intro j hj
  refine fwdRel_transport j (nth_modifyIdx_ne ns i j f (by omega)) ?_ (h j hj)
  intro q hq
  have hqj : q < j := (hwf j (lt_of_lt_of_le hj hK)).1 q hq
  rw [nth_modifyIdx_ne ns i q f (by omega)]

theorem fwdInv_write_parent (ns : List Node) (p K : Nat)
    (hwf : WF ns) (hK : K ≤ ns.length) (hinv : FwdInv K ns) :
    FwdInv K (modifyIdx ns p
      (fun pn => { pn with early_finish_time := pn.early_start_time + pn.duration })) := by
  by_cases hpK : p < K
  · rw [parent_write_id ns p (hinv.1 p hpK)]
    exact hinv
  · constructor
    · exact fwdRel_modify_ge ns p K _ hwf hK (by omega) hinv.1
    · exact sourcesZero_modify ns p _ (fun n => ⟨rfl, Or.inl rfl⟩) hinv.2

theorem fwd_parents_loop_inv (ps : List Nat) :
    ∀ (ns : List Node) (m : Int) (K : Nat), WF ns → K ≤ ns.length → FwdInv K ns →
    FwdInv K (fwd_parents_loop ns ps m).1 := by
  induction ps with
  | nil => intro ns m K _ _ hinv; exact hinv
  | cons p t ih =>
    intro ns m K hwf hK hinv
    show FwdInv K (fwd_parents_loop (modifyIdx ns p
      (fun pn => { pn with early_finish_time := pn.early_start_time + pn.duration })) t _).1
    have hst : StaticEq ns (modifyIdx ns p
        (fun pn => { pn with early_finish_time := pn.early_start_time + pn.duration })) :=
      staticEq_step (staticEq_refl ns) (by exact fun n => ⟨rfl, rfl, rfl, rfl, rfl⟩)
    exact ih _ _ K (wf_staticEq hst hwf) (by rw [length_modifyIdx]; exact hK)
      (fwdInv_write_parent ns p K hwf hK hinv)

theorem fwd_root_preserves (ns : List Node) (i K : Nat) (hwf : WF ns)
    (hK : K ≤ ns.length) (hiK : K ≤ i) (hinv : FwdInv K ns) :
    FwdInv K (fwd_root ns i) := by
  have hinv1 : FwdInv K (modifyIdx ns i
      (fun n => { n with early_finish_time := n.early_start_time + n.duration })) :=
    fwdInv_write_parent ns i K hwf hK hinv
  have hst1 : StaticEq ns (modifyIdx ns i
      (fun n => { n with early_finish_time := n.early_start_time + n.duration })) :=
    staticEq_step (staticEq_refl ns) (by exact fun n => ⟨rfl, rfl, rfl, rfl, rfl⟩)
  have hwf1 := wf_staticEq hst1 hwf
  have hK1 : K ≤ (modifyIdx ns i
      (fun n => { n with early_finish_time := n.early_start_time + n.duration })).length := by
    rw [length_modifyIdx]; exact hK
  have hinv2 : FwdInv K (modifyIdx (modifyIdx ns i
      (fun n => { n with early_finish_time := n.early_start_time + n.duration })) i
      (fun n => { n with early_start_time := 0 })) := by
    constructor
    · exact fwdRel_modify_ge _ i K _ hwf1 hK1 hiK hinv1.1
    · exact sourcesZero_modify _ i _ (fun n => ⟨rfl, Or.inr (fun _ => rfl)⟩) hinv1.2
  have hst2 : StaticEq ns (modifyIdx (modifyIdx ns i
      (fun n => { n with early_finish_time := n.early_start_time + n.duration })) i
      (fun n => { n with early_start_time := 0 })) :=
    staticEq_step hst1 (by exact fun n => ⟨rfl, rfl, rfl, rfl, rfl⟩)
  have hwf2 := wf_staticEq hst2 hwf
  have hK2 : K ≤ (modifyIdx (modifyIdx ns i
      (fun n => { n with early_finish_time := n.early_start_time + n.duration })) i
      (fun n => { n with early_start_time := 0 })).length := by
    rw [length_modifyIdx, length_modifyIdx]; exact hK
  simp only [fwd_root]
  split
  · exact hinv2
  · rename_i hprevne
    set ns2 := modifyIdx (modifyIdx ns i
      (fun n => { n with early_finish_time := n.early_start_time + n.duration })) i
      (fun n => { n with early_start_time := 0 }) with hns2
    have hinv3 : FwdInv K (fwd_parents_loop ns2 ((nth ns2 i).prev) 0).1 :=
      fwd_parents_loop_inv _ ns2 0 K hwf2 hK2 hinv2
    have hst3 : StaticEq ns2 (fwd_parents_loop ns2 ((nth ns2 i).prev) 0).1 :=
      staticEq_fwd_parents_loop _ ns2 0
    have hwf3 := wf_staticEq hst3 hwf2
    have hK3 : K ≤ (fwd_parents_loop ns2 ((nth ns2 i).prev) 0).1.length := by
      rw [← hst3.len]; exact hK2
    have hprev3 : (nth (fwd_parents_loop ns2 ((nth ns2 i).prev) 0).1 i).prev
        = (nth ns2 i).prev := hst3.prev_eq i
    have hinv4 : FwdInv K (modifyIdx (fwd_parents_loop ns2 ((nth ns2 i).prev) 0).1 i
        (fun n => { n with early_start_time := (fwd_parents_loop ns2 ((nth ns2 i).prev) 0).2 })) := by
      constructor
      · exact fwdRel_modify_ge _ i K _ hwf3 hK3 hiK hinv3.1
      · exact sourcesZero_write_nonsource _ i _ (fun n => rfl)
          (by rw [hprev3]; exact hprevne) hinv3.2
    have hwf4 : WF (modifyIdx (fwd_parents_loop ns2 ((nth ns2 i).prev) 0).1 i
        (fun n => { n with early_start_time := (fwd_parents_loop ns2 ((nth ns2 i).prev) 0).2 })) :=
      wf_staticEq (staticEq_step (staticEq_refl _)
        (by exact fun n => ⟨rfl, rfl, rfl, rfl, rfl⟩)) hwf3
    have hK4 : K ≤ (modifyIdx (fwd_parents_loop ns2 ((nth ns2 i).prev) 0).1 i
        (fun n => { n with early_start_time := (fwd_parents_loop ns2 ((nth ns2 i).prev) 0).2 })).length := by
      rw [length_modifyIdx]; exact hK3
    exact fwdInv_write_parent _ i K hwf4 hK4 hinv4

theorem fwd_root_establishes (ns : List Node) (i : Nat) (hwf : WF ns)
    (hi : i < ns.length) (hinv : FwdInv i ns) :
    FwdInv (i + 1) (fwd_root ns i) := by
  have hiK : i ≤ ns.length := le_of_lt hi
  simp only [fwd_root]
  set ns2 := modifyIdx (modifyIdx ns i
      (fun n => { n with early_finish_time := n.early_start_time + n.duration })) i
      (fun n => { n with early_start_time := 0 }) with hns2
  have hst1 : StaticEq ns (modifyIdx ns i
      (fun n => { n with early_finish_time := n.early_start_time + n.duration })) :=
    staticEq_step (staticEq_refl ns) (by exact fun n => ⟨rfl, rfl, rfl, rfl, rfl⟩)
  have hst2 : StaticEq ns ns2 :=
    staticEq_step hst1 (by exact fun n => ⟨rfl, rfl, rfl, rfl, rfl⟩)
  have hwf1 := wf_staticEq hst1 hwf
  have hwf2 := wf_staticEq hst2 hwf
  have hlen2 : ns2.length = ns.length := hst2.len.symm
  have hi2 : i < ns2.length := by rw [hlen2]; exact hi
  have hi1 : i < (modifyIdx ns i
      (fun n => { n with early_finish_time := n.early_start_time + n.duration })).length := by
    rw [length_modifyIdx]; exact hi
  have hnode2 : nth ns2 i = { nth ns i with
      early_finish_time := (nth ns i).early_start_time + (nth ns i).duration,
      early_start_time := 0 } := by
    rw [hns2, nth_modifyIdx_self _ i _ hi1, nth_modifyIdx_self ns i _ hi]
  have hprev2 : (nth ns2 i).prev = (nth ns i).prev := by rw [hnode2]
  have hES2 : (nth ns2 i).early_start_time = 0 := by rw [hnode2]
  have hEF2 : (nth ns2 i).early_finish_time
      = (nth ns i).early_start_time + (nth ns i).duration := by rw [hnode2]
  have hdur2 : (nth ns2 i).duration = (nth ns i).duration := by rw [hnode2]
  have hne2 : ∀ j, j ≠ i → nth ns2 j = nth ns j := by
    intro j hj
    rw [hns2, nth_modifyIdx_ne _ i j _ hj, nth_modifyIdx_ne ns i j _ hj]
  have hrel2 : ∀ j, j < i → FwdRel ns2 j := by
    intro j hj
    refine fwdRel_modify_ge _ i i _ hwf1 (by rw [length_modifyIdx]; exact hiK)
      (le_refl i) ?_ j hj
    exact fwdRel_modify_ge ns i i _ hwf hiK (le_refl i) hinv.1
  have hsrc2 : SourcesZero ns2 := by
    refine sourcesZero_modify _ i _ (fun n => ⟨rfl, Or.inr (fun _ => rfl)⟩) ?_
    exact sourcesZero_modify ns i _ (fun n => ⟨rfl, Or.inl rfl⟩) hinv.2
  split
  · rename_i hp
    constructor
    · intro j hj
      by_cases hji : j = i
      · subst hji
        constructor
        · rw [hp, hES2]; rfl
        · rw [hEF2, hES2, hdur2, hinv.2 j hi (by rw [← hprev2]; exact hp)]
      · exact hrel2 j (by omega)
    · exact hsrc2
  · rename_i hp
    have hpar : ∀ q ∈ (nth ns2 i).prev, FwdRel ns2 q := by
      intro q hq
      rw [hprev2] at hq
      exact hrel2 q ((hwf i hi).1 q hq)
    rw [fwd_parents_loop_done _ ns2 0 hpar]
    set m := maxEF ns2 ((nth ns2 i).prev) 0 with hm
    set ns3 := modifyIdx ns2 i (fun n => { n with early_start_time := m }) with hns3
    have hst3 : StaticEq ns ns3 :=
      staticEq_step hst2 (by exact fun n => ⟨rfl, rfl, rfl, rfl, rfl⟩)
    have hwf3 := wf_staticEq hst3 hwf
    have hi3 : i < ns3.length := by rw [← hst3.len]; exact hi
    have hnode3 : nth ns3 i = { nth ns2 i with early_start_time := m } := by
      rw [hns3, nth_modifyIdx_self ns2 i _ hi2]
    have hne3 : ∀ j, j ≠ i → nth ns3 j = nth ns2 j := by
      intro j hj
      rw [hns3, nth_modifyIdx_ne ns2 i j _ hj]
    set ns4 := modifyIdx ns3 i
      (fun n => { n with early_finish_time := n.early_start_time + n.duration }) with hns4
    have hnode4 : nth ns4 i = { nth ns3 i with
        early_finish_time := (nth ns3 i).early_start_time + (nth ns3 i).duration } := by
      rw [hns4, nth_modifyIdx_self ns3 i _ hi3]
    have hne4 : ∀ j, j ≠ i → nth ns4 j = nth ns3 j := by
      intro j hj
      rw [hns4, nth_modifyIdx_ne ns3 i j _ hj]
    have hES4 : (nth ns4 i).early_start_time = m := by rw [hnode4, hnode3]
    have hprev4 : (nth ns4 i).prev = (nth ns i).prev := by
      rw [hnode4, hnode3]
      exact hprev2
    have hdur4 : (nth ns4 i).duration = (nth ns i).duration := by
      rw [hnode4, hnode3]
      exact hdur2
    have hEF4 : (nth ns4 i).early_finish_time = m + (nth ns i).duration := by
      rw [hnode4]
      have h1 : (nth ns3 i).early_start_time = m := by rw [hnode3]
      have h2 : (nth ns3 i).duration = (nth ns i).duration := by rw [hnode3]; exact hdur2
      simp only [h1, h2]
    have hq4 : ∀ q ∈ (nth ns i).prev,
        (nth ns4 q).early_finish_time = (nth ns2 q).early_finish_time := by
      intro q hq
      have hqi : q ≠ i := by
        have := (hwf i hi).1 q hq
        omega
      rw [hne4 q hqi, hne3 q hqi]
    constructor
    · intro j hj
      by_cases hji : j = i
      · subst hji
        constructor
        · rw [hES4]
          have : maxEF ns4 ((nth ns4 j).prev) 0 = maxEF ns2 ((nth ns2 j).prev) 0 := by
            rw [hprev4, ← hprev2]
            exact foldMax_congr _ _ _ _ (fun q hq => hq4 q (by rw [← hprev2]; exact hq))
          rw [this, hm]
        · rw [hEF4, hES4, hdur4]
      · have hji2 : j < i := by omega
        refine fwdRel_transport j ?_ ?_ (hrel2 j hji2)
        · rw [hne4 j hji, hne3 j hji]
        · intro q hq
          have hqj : q < j := (hwf2 j (by rw [hlen2]; omega)).1 q hq
          have hqi : q ≠ i := by omega
          rw [hne4 q hqi, hne3 q hqi]
    · refine sourcesZero_modify _ i _ (fun n => ⟨rfl, Or.inl rfl⟩) ?_
      exact sourcesZero_write_nonsource ns2 i _ (fun n => rfl) hp hsrc2

theorem cffn_preserves (fuel : Nat) : ∀ (ns : List Node) (i K : Nat), WF ns →
    K ≤ ns.length → K ≤ i → FwdInv K ns →
    FwdInv K (calculate_forward_from_node fuel ns i) := by
  induction fuel with
  | zero => intro ns i K _ _ _ hinv; exact hinv
  | succ fuel ih =>
    intro ns i K hwf hK hiK hinv
    have hroot := fwd_root_preserves ns i K hwf hK hiK hinv
    have hst := staticEq_fwd_root ns i
    have hwf2 := wf_staticEq hst hwf
    have hK2 : K ≤ (fwd_root ns i).length := by rw [← hst.len]; exact hK
    simp only [calculate_forward_from_node]
    split
    · exact hroot
    · rename_i hcne
      by_cases hil : i < ns.length
      · have hcK : ∀ c ∈ (nth (fwd_root ns i) i).next, K ≤ c := by
          intro c hc
          rw [hst.next_eq i] at hc
          have := ((hwf i hil).2.1 c hc).1
          omega
        clear hcne
        generalize (nth (fwd_root ns i) i).next = l at hcK
        revert hroot hwf2 hK2 hcK
        generalize fwd_root ns i = ms
        intro hroot hwf2 hK2 hcK
        induction l generalizing ms with
        | nil => exact hroot
        | cons c t ihl =>
          have hstc := staticEq_calculate_forward_from_node fuel ms c
          refine ihl _ (ih ms c K hwf2 hK2 (hcK c (List.mem_cons_self c t)) hroot)
            (wf_staticEq hstc hwf2)
            (show K ≤ (calculate_forward_from_node fuel ms c).length from
              by rw [← hstc.len]; exact hK2)
            (fun d hd => hcK d (List.mem_cons_of_mem c hd))
      · refine absurd ?_ hcne
        rw [hst.next_eq i, nth_oob ns i (by omega)]
        rfl

theorem cffn_establishes (fuel : Nat) (ns : List Node) (i : Nat) (hwf : WF ns)
    (hi : i < ns.length) (hinv : FwdInv i ns) :
    FwdInv (i + 1) (calculate_forward_from_node (fuel + 1) ns i) := by
  have hroot := fwd_root_establishes ns i hwf hi hinv
  have hst := staticEq_fwd_root ns i
  have hwf2 := wf_staticEq hst hwf
  have hK2 : i + 1 ≤ (fwd_root ns i).length := by rw [← hst.len]; omega
  simp only [calculate_forward_from_node]
  split
  · exact hroot
  · have hcK : ∀ c ∈ (nth (fwd_root ns i) i).next, i + 1 ≤ c := by
      intro c hc
      rw [hst.next_eq i] at hc
      have := ((hwf i hi).2.1 c hc).1
      omega
    generalize (nth (fwd_root ns i) i).next = l at hcK
    revert hroot hwf2 hK2 hcK
    generalize fwd_root ns i = ms
    intro hroot hwf2 hK2 hcK
    induction l generalizing ms with
    | nil => exact hroot
    | cons c t ihl =>
      have hstc := staticEq_calculate_forward_from_node fuel ms c
      refine ihl _
        (cffn_preserves fuel ms c (i + 1) hwf2 hK2 (hcK c (List.mem_cons_self c t)) hroot)
        (wf_staticEq hstc hwf2)
        (show i + 1 ≤ (calculate_forward_from_node fuel ms c).length from
          by rw [← hstc.len]; exact hK2)
        (fun d hd => hcK d (List.mem_cons_of_mem c hd))

theorem calculate_forward_loop (ns : List Node) (hwf : WF ns) (hsz : SourcesZero ns) :
    ∀ n, n ≤ ns.length →
    StaticEq ns ((List.range n).foldl
      (fun acc i => calculate_forward_from_node acc.length acc i) ns) ∧
    FwdInv n ((List.range n).foldl
      (fun acc i => calculate_forward_from_node acc.length acc i) ns) := by
  intro n
  induction n with
  | zero =>
    intro _
    simp only [List.range_zero, List.foldl_nil]
    exact ⟨staticEq_refl ns, fun j hj => absurd hj (by omega), hsz⟩
  | succ n ih =>
    intro hn1
    obtain ⟨hst, hinv⟩ := ih (by omega)
    rw [List.range_succ, List.foldl_append, List.foldl_cons, List.foldl_nil]
    set S := (List.range n).foldl
      (fun acc i => calculate_forward_from_node acc.length acc i) ns with hS
    have hwfS := wf_staticEq hst hwf
    have hlenS : S.length = ns.length := hst.len.symm
    have hnS : n < S.length := by rw [hlenS]; omega
    obtain ⟨f, hf⟩ : ∃ f, S.length = f + 1 := ⟨S.length - 1, by omega⟩
    have hstep : FwdInv (n + 1) (calculate_forward_from_node S.length S n) := by
      rw [hf]
      exact cffn_establishes f S n hwfS hnS hinv
    exact ⟨staticEq_trans hst (staticEq_calculate_forward_from_node S.length S n), hstep⟩

theorem calculate_forward_spec (ns : List Node) (hwf : WF ns) (hsz : SourcesZero ns) :
    StaticEq ns (calculate_forward ns) ∧
    (∀ j, j < ns.length → FwdRel (calculate_forward ns) j) ∧
    SourcesZero (calculate_forward ns) := by
  obtain ⟨hst, hinv⟩ := calculate_forward_loop ns hwf hsz ns.length (le_refl _)
  exact ⟨hst, hinv.1, hinv.2⟩

/- Backward pass.  Each node is written exactly once, in reverse
insertion order, reading its successors, which carry larger indices and
are already final. -/

def minLS (ns : List Node) (cs : List Nat) (s : Int) : Int :=
  foldMin (fun c => (nth ns c).late_start_time) cs s

def BwdRel (ns : List Node) (i : Nat) : Prop :=
  ((nth ns i).next = [] →
    (nth ns i).late_finish_time = (nth ns i).early_finish_time ∧
    (nth ns i).late_start_time = (nth ns i).early_finish_time - (nth ns i).duration) ∧
  (∀ c t, (nth ns i).next = c :: t →
    (nth ns i).late_finish_time
      = minLS ns ((nth ns i).next) ((nth ns c).late_start_time) ∧
    (nth ns i).late_start_time
      = (nth ns i).late_finish_time - (nth ns i).duration)

structure SameExceptLate (a b : Node) : Prop where
  ids : a.id = b.id
  names : a.name = b.name
  durations : a.duration = b.duration
  prevs : a.prev = b.prev
  nexts : a.next = b.next
  ffs : a.free_float = b.free_float
  tfs : a.total_float = b.total_float
  ess : a.early_start_time = b.early_start_time
  efs : a.early_finish_time = b.early_finish_time
  levels : a.level = b.level

theorem sameExceptLate_refl (a : Node) : SameExceptLate a a :=
  ⟨rfl, rfl, rfl, rfl, rfl, rfl, rfl, rfl, rfl, rfl⟩

theorem sameExceptLate_trans {a b c : Node} (h1 : SameExceptLate a b)
    (h2 : SameExceptLate b c) : SameExceptLate a c :=
  ⟨h1.ids.trans h2.ids, h1.names.trans h2.names, h1.durations.trans h2.durations,
   h1.prevs.trans h2.prevs, h1.nexts.trans h2.nexts, h1.ffs.trans h2.ffs,
   h1.tfs.trans h2.tfs, h1.ess.trans h2.ess, h1.efs.trans h2.efs,
   h1.levels.trans h2.levels⟩

theorem sameExceptLate_modify (ns : List Node) (p : Nat) (f : Node → Node)
    (hf : ∀ n, SameExceptLate n (f n)) (j : Nat) :
    SameExceptLate (nth ns j) (nth (modifyIdx ns p f) j) := by
  by_cases hjp : j = p
  · subst hjp
    by_cases hl : j < ns.length
    · rw [nth_modifyIdx_self ns j f hl]; exact hf _
    · rw [modifyIdx_oob ns j f (by omega)]; exact sameExceptLate_refl _
  · rw [nth_modifyIdx_ne ns p j f hjp]; exact sameExceptLate_refl _

theorem fwdRel_congr {ns ns' : List Node} (j : Nat)
    (hes : (nth ns' j).early_start_time = (nth ns j).early_start_time)
    (hef : (nth ns' j).early_finish_time = (nth ns j).early_finish_time)
    (hprev : (nth ns' j).prev = (nth ns j).prev)
    (hdur : (nth ns' j).duration = (nth ns j).duration)
    (hEFq : ∀ q ∈ (nth ns j).prev,
      (nth ns' q).early_finish_time = (nth ns q).early_finish_time)
    (h : FwdRel ns j) : FwdRel ns' j := by
  obtain ⟨h1, h2⟩ := h
  constructor
  · rw [hes, hprev, h1]
    exact (foldMax_congr _ _ _ _ hEFq).symm
  · rw [hes, hef, hdur]; exact h2

theorem fwdRel_sameExceptLate {ns ns' : List Node}
    (hs : ∀ j, SameExceptLate (nth ns j) (nth ns' j)) (j : Nat)
    (h : FwdRel ns j) : FwdRel ns' j :=
  fwdRel_congr j (hs j).ess.symm (hs j).efs.symm (hs j).prevs.symm
    (hs j).durations.symm (fun q _ => (hs q).efs.symm) h

theorem bwdRel_congr {ns ns' : List Node} (j : Nat)
    (hnext : (nth ns' j).next = (nth ns j).next)
    (hlf : (nth ns' j).late_finish_time = (nth ns j).late_finish_time)
    (hls : (nth ns' j).late_start_time = (nth ns j).late_start_time)
    (hef : (nth ns' j).early_finish_time = (nth ns j).early_finish_time)
    (hdur : (nth ns' j).duration = (nth ns j).duration)
    (hLSq : ∀ c ∈ (nth ns j).next,
      (nth ns' c).late_start_time = (nth ns c).late_start_time)
    (h : BwdRel ns j) : BwdRel ns' j := by
  obtain ⟨h1, h2⟩ := h
  constructor
  · intro hn
    rw [hnext] at hn
    rw [hlf, hls, hef, hdur]
    exact h1 hn
  · intro c t hct
    rw [hnext] at hct
    obtain ⟨e1, e2⟩ := h2 c t hct
    refine ⟨?_, by rw [hls, hlf, hdur]; exact e2⟩
    rw [hlf, hnext, e1,
      hLSq c (by rw [hct]; exact List.mem_cons_self c t)]
    exact (foldMin_congr _ _ _ _ (fun q hq => hLSq q hq)).symm

theorem cbn_same (ns : List Node) (i : Nat) (j : Nat) :
    SameExceptLate (nth ns j) (nth (calculate_backward_from_node ns i) j) := by
  simp only [calculate_backward_from_node]
  split
  · exact sameExceptLate_modify ns i _
      (by exact fun n => ⟨rfl, rfl, rfl, rfl, rfl, rfl, rfl, rfl, rfl, rfl⟩) j
  · refine sameExceptLate_trans
      (b := nth (modifyIdx ns i (fun n => { n with
        late_finish_time := n.early_finish_time,
        late_start_time := n.early_finish_time - n.duration })) j) ?_ ?_
    · exact sameExceptLate_modify ns i _
        (by exact fun n => ⟨rfl, rfl, rfl, rfl, rfl, rfl, rfl, rfl, rfl, rfl⟩) j
    · exact sameExceptLate_modify _ i _
        (by exact fun n => ⟨rfl, rfl, rfl, rfl, rfl, rfl, rfl, rfl, rfl, rfl⟩) j

theorem cbn_establishes (ns : List Node) (i : Nat) (hwf : WF ns) (hi : i < ns.length)
    (hrel : ∀ j, i < j → j < ns.length → BwdRel ns j) :
    BwdRel (calculate_backward_from_node ns i) i ∧
    (∀ j, i < j → j < ns.length → BwdRel (calculate_backward_from_node ns i) j) := by
  simp only [calculate_backward_from_node]
  set ns1 := modifyIdx ns i (fun n => { n with
    late_finish_time := n.early_finish_time,
    late_start_time := n.early_finish_time - n.duration }) with hns1
  have hi1 : i < ns1.length := by rw [hns1, length_modifyIdx]; exact hi
  have hnode1 : nth ns1 i = { nth ns i with
      late_finish_time := (nth ns i).early_finish_time,
      late_start_time := (nth ns i).early_finish_time - (nth ns i).duration } := by
    rw [hns1, nth_modifyIdx_self ns i _ hi]
  have hne1 : ∀ j, j ≠ i → nth ns1 j = nth ns j := by
    intro j hj
    rw [hns1, nth_modifyIdx_ne ns i j _ hj]
  have hnext1 : (nth ns1 i).next = (nth ns i).next := by rw [hnode1]
  have hkeep1 : ∀ j, i < j → j < ns.length → BwdRel ns1 j := by
    intro j hij hjl
    refine bwdRel_congr j ?_ ?_ ?_ ?_ ?_ ?_ (hrel j hij hjl)
    · rw [hne1 j (by omega)]
    · rw [hne1 j (by omega)]
    · rw [hne1 j (by omega)]
    · rw [hne1 j (by omega)]
    · rw [hne1 j (by omega)]
    · intro c hc
      have hcj : j < c := ((hwf j hjl).2.1 c hc).1
      rw [hne1 c (by omega)]
  split
  · rename_i hnx
    constructor
    · constructor
      · intro _
        rw [hnode1]
        exact ⟨rfl, rfl⟩
      · intro c t hct
        rw [hnx] at hct
        exact absurd hct (by simp)
    · exact hkeep1
  · rename_i c t hnx
    have hm : (List.foldl (fun a j =>
        if a > (nth ns1 j).late_start_time then (nth ns1 j).late_start_time else a)
        ((nth ns1 c).late_start_time) ((nth ns1 i).next))
        = minLS ns1 ((nth ns1 i).next) ((nth ns1 c).late_start_time) := by
      simp only [if_gt_eq_min]
      rfl
    set m := (List.foldl (fun a j =>
        if a > (nth ns1 j).late_start_time then (nth ns1 j).late_start_time else a)
        ((nth ns1 c).late_start_time) ((nth ns1 i).next)) with hmdef
    set ns2 := modifyIdx ns1 i
      (fun n => { n with late_finish_time := m, late_start_time := m - n.duration }) with hns2
    have hnode2 : nth ns2 i = { nth ns1 i with
        late_finish_time := m, late_start_time := m - (nth ns1 i).duration } := by
      rw [hns2, nth_modifyIdx_self ns1 i _ hi1]
    have hne2 : ∀ j, j ≠ i → nth ns2 j = nth ns1 j := by
      intro j hj
      rw [hns2, nth_modifyIdx_ne ns1 i j _ hj]
    have hnext2 : (nth ns2 i).next = (nth ns i).next := by
      rw [hnode2, hnext1]
    have hchild : ∀ q ∈ (nth ns1 i).next, i < q ∧ q < ns.length := by
      intro q hq
      rw [hnext1] at hq
      exact (hwf i hi).2.1 q hq
    constructor
    · constructor
      · intro hn
        rw [hnext2, ← hnext1, hnx] at hn
        exact absurd hn (by simp)
      · intro c' t' hct
        rw [hnext2, ← hnext1, hnx] at hct
        have hc : c' = c := (List.cons.inj hct).1.symm
        subst hc
        constructor
        · have e1 : (nth ns2 i).late_finish_time = m := by rw [hnode2]
          rw [e1, hm]
          have hcq : c' ≠ i := by
            have := hchild c' (by rw [hnx]; exact List.mem_cons_self c' t)
            omega
          have hseed : (nth ns2 c').late_start_time = (nth ns1 c').late_start_time := by
            rw [hne2 c' hcq]
          rw [hseed]
          have hlist : (nth ns2 i).next = (nth ns1 i).next := by rw [hnext2, hnext1]
          rw [hlist]
          refine foldMin_congr _ _ _ _ ?_
          intro q hq
          have hqi : q ≠ i := by have := hchild q hq; omega
          rw [hne2 q hqi]
        · rw [hnode2]
    · intro j hij hjl
      refine bwdRel_congr j ?_ ?_ ?_ ?_ ?_ ?_ (hkeep1 j hij hjl)
      · rw [hne2 j (by omega)]
      · rw [hne2 j (by omega)]
      · rw [hne2 j (by omega)]
      · rw [hne2 j (by omega)]
      · rw [hne2 j (by omega)]
      · intro q hq
        have hnj : (nth ns1 j).next = (nth ns j).next := by rw [hne1 j (by omega)]
        have hq1 : q ∈ (nth ns j).next := by rw [← hnj]; exact hq
        have hqj : j < q := ((hwf j hjl).2.1 q hq1).1
        rw [hne2 q (by omega)]

theorem calculate_backward_steps (K : Nat) : ∀ (ns : List Node), WF ns → K ≤ ns.length →
    (∀ j, K ≤ j → j < ns.length → BwdRel ns j) →
    (∀ j, SameExceptLate (nth ns j)
      (nth ((List.range K).reverse.foldl
        (fun acc i => calculate_backward_from_node acc i) ns) j)) ∧
    (∀ j, j < ns.length →
      BwdRel ((List.range K).reverse.foldl
        (fun acc i => calculate_backward_from_node acc i) ns) j) := by
  induction K with
  | zero =>
    intro ns hwf _ hrel
    simp only [List.range_zero, List.reverse_nil, List.foldl_nil]
    exact ⟨fun j => sameExceptLate_refl _, fun j hj => hrel j (by omega) hj⟩
  | succ K ih =>
    intro ns hwf hK hrel
    rw [List.range_succ, List.reverse_append]
    simp only [List.reverse_cons, List.reverse_nil, List.nil_append, List.singleton_append,
      List.foldl_cons]
    have hKlt : K < ns.length := by omega
    have hst := staticEq_calculate_backward_from_node ns K
    have hwf2 := wf_staticEq hst hwf
    have hlen2 : (calculate_backward_from_node ns K).length = ns.length := hst.len.symm
    have hest := cbn_establishes ns K hwf hKlt (fun j hj hjl => hrel j (by omega) hjl)
    have hrel2 : ∀ j, K ≤ j → j < (calculate_backward_from_node ns K).length →
        BwdRel (calculate_backward_from_node ns K) j := by
      intro j hj hjl
      rw [hlen2] at hjl
      rcases Nat.eq_or_lt_of_le hj with he | hlt
      · rw [← he]; exact hest.1
      · exact hest.2 j hlt hjl
    obtain ⟨hs, hb⟩ := ih (calculate_backward_from_node ns K) hwf2
      (by rw [hlen2]; omega) hrel2
    constructor
    · intro j
      exact sameExceptLate_trans (cbn_same ns K j) (hs j)
    · intro j hjl
      exact hb j (by rw [hlen2]; exact hjl)

theorem calculate_backward_spec (ns : List Node) (hwf : WF ns) :
    (∀ j, SameExceptLate (nth ns j) (nth (calculate_backward ns) j)) ∧
    (∀ j, j < ns.length → BwdRel (calculate_backward ns) j) :=
  calculate_backward_steps ns.length ns hwf (le_refl _)
    (fun j hj hjl => absurd hjl (by omega))

/- Float computation.  Each node is written once; total and free float
read only fields that the phase never writes. -/

def minES (ns : List Node) (cs : List Nat) (s : Int) : Int :=
  foldMin (fun c => (nth ns c).early_start_time) cs s

def BufRel (ns : List Node) (i : Nat) : Prop :=
  (nth ns i).total_float = (nth ns i).late_start_time - (nth ns i).early_start_time ∧
  ((nth ns i).next = [] → (nth ns i).free_float = 0) ∧
  (∀ c t, (nth ns i).next = c :: t →
    (nth ns i).free_float
      = minES ns ((nth ns i).next) ((nth ns c).early_start_time)
        - (nth ns i).early_finish_time)

structure SameExceptFloat (a b : Node) : Prop where
  ids : a.id = b.id
  names : a.name = b.name
  durations : a.duration = b.duration
  prevs : a.prev = b.prev
  nexts : a.next = b.next
  ess : a.early_start_time = b.early_start_time
  efs : a.early_finish_time = b.early_finish_time
  lss : a.late_start_time = b.late_start_time
  lfs : a.late_finish_time = b.late_finish_time
  levels : a.level = b.level

theorem sameExceptFloat_refl (a : Node) : SameExceptFloat a a :=
  ⟨rfl, rfl, rfl, rfl, rfl, rfl, rfl, rfl, rfl, rfl⟩

theorem sameExceptFloat_trans {a b c : Node} (h1 : SameExceptFloat a b)
    (h2 : SameExceptFloat b c) : SameExceptFloat a c :=
  ⟨h1.ids.trans h2.ids, h1.names.trans h2.names, h1.durations.trans h2.durations,
   h1.prevs.trans h2.prevs, h1.nexts.trans h2.nexts, h1.ess.trans h2.ess,
   h1.efs.trans h2.efs, h1.lss.trans h2.lss, h1.lfs.trans h2.lfs,
   h1.levels.trans h2.levels⟩

theorem sameExceptFloat_modify (ns : List Node) (p : Nat) (f : Node → Node)
    (hf : ∀ n, SameExceptFloat n (f n)) (j : Nat) :
    SameExceptFloat (nth ns j) (nth (modifyIdx ns p f) j) := by
  by_cases hjp : j = p
  · subst hjp
    by_cases hl : j < ns.length
    · rw [nth_modifyIdx_self ns j f hl]; exact hf _
    · rw [modifyIdx_oob ns j f (by omega)]; exact sameExceptFloat_refl _
  · rw [nth_modifyIdx_ne ns p j f hjp]; exact sameExceptFloat_refl _

theorem staticEq_of_sameExceptFloat {ns ms : List Node}
    (hlen : ns.length = ms.length)
    (h : ∀ j, SameExceptFloat (nth ns j) (nth ms j)) : StaticEq ns ms :=
  ⟨hlen, fun j => ⟨(h j).names, (h j).durations, (h j).prevs, (h j).nexts, (h j).ids⟩⟩

theorem bufRel_congr {ns ns' : List Node} (j : Nat)
    (hnode : nth ns' j = nth ns j)
    (hESq : ∀ c ∈ (nth ns j).next,
      (nth ns' c).early_start_time = (nth ns c).early_start_time)
    (h : BufRel ns j) : BufRel ns' j := by
  obtain ⟨h1, h2, h3⟩ := h
  refine ⟨by rw [hnode]; exact h1, by rw [hnode]; exact h2, ?_⟩
  intro c t hct
  rw [hnode] at hct ⊢
  rw [(h3 c t hct),
    hESq c (by rw [hct]; exact List.mem_cons_self c t)]
  have : minES ns' ((nth ns j).next) ((nth ns c).early_start_time)
      = minES ns ((nth ns j).next) ((nth ns c).early_start_time) :=
    foldMin_congr _ _ _ _ (fun q hq => hESq q hq)
  rw [this]

/-- The loop body of calculate_buffers, named for the proofs. -/
def buffers_step (acc : List Node) (i : Nat) : List Node :=
  let acc1 := modifyIdx acc i
    (fun n => { n with total_float := n.late_start_time - n.early_start_time })
  if (nth acc1 i).next = [] then
    modifyIdx acc1 i (fun n => { n with free_float := 0 })
  else
    modifyIdx acc1 i
      (fun n => { n with free_float :=
        get_min_early_start_time acc1 (nth acc1 i).next - n.early_finish_time })

theorem calculate_buffers_eq (ns : List Node) :
    calculate_buffers ns = (List.range ns.length).foldl buffers_step ns := rfl

theorem buffers_step_same (ms : List Node) (i : Nat) (j : Nat) :
    SameExceptFloat (nth ms j) (nth (buffers_step ms i) j) := by
  simp only [buffers_step]
  split
  · refine sameExceptFloat_trans
      (b := nth (modifyIdx ms i (fun n =>
        { n with total_float := n.late_start_time - n.early_start_time })) j) ?_ ?_
    · exact sameExceptFloat_modify ms i _
        (by exact fun n => ⟨rfl, rfl, rfl, rfl, rfl, rfl, rfl, rfl, rfl, rfl⟩) j
    · exact sameExceptFloat_modify _ i _
        (by exact fun n => ⟨rfl, rfl, rfl, rfl, rfl, rfl, rfl, rfl, rfl, rfl⟩) j
  · refine sameExceptFloat_trans
      (b := nth (modifyIdx ms i (fun n =>
        { n with total_float := n.late_start_time - n.early_start_time })) j) ?_ ?_
    · exact sameExceptFloat_modify ms i _
        (by exact fun n => ⟨rfl, rfl, rfl, rfl, rfl, rfl, rfl, rfl, rfl, rfl⟩) j
    · exact sameExceptFloat_modify _ i _
        (by exact fun n => ⟨rfl, rfl, rfl, rfl, rfl, rfl, rfl, rfl, rfl, rfl⟩) j

theorem buffers_step_ne (ms : List Node) (i j : Nat) (hj : j ≠ i) :
    nth (buffers_step ms i) j = nth ms j := by
  simp only [buffers_step]
  split
  · rw [nth_modifyIdx_ne _ i j _ hj, nth_modifyIdx_ne ms i j _ hj]
  · rw [nth_modifyIdx_ne _ i j _ hj, nth_modifyIdx_ne ms i j _ hj]

theorem length_buffers_step (ms : List Node) (i : Nat) :
    (buffers_step ms i).length = ms.length := by
  simp only [buffers_step]
  split
  · rw [length_modifyIdx, length_modifyIdx]
  · rw [length_modifyIdx, length_modifyIdx]

theorem buffers_step_establishes (ms : List Node) (i : Nat) (hwf : WF ms)
    (hi : i < ms.length) : BufRel (buffers_step ms i) i := by
  simp only [buffers_step]
  set ms1 := modifyIdx ms i
    (fun n => { n with total_float := n.late_start_time - n.early_start_time }) with hms1
  have hi1 : i < ms1.length := by rw [hms1, length_modifyIdx]; exact hi
  have hnode1 : nth ms1 i = { nth ms i with
      total_float := (nth ms i).late_start_time - (nth ms i).early_start_time } := by
    rw [hms1, nth_modifyIdx_self ms i _ hi]
  have hne1 : ∀ j, j ≠ i → nth ms1 j = nth ms j := by
    intro j hj
    rw [hms1, nth_modifyIdx_ne ms i j _ hj]
  have hnext1 : (nth ms1 i).next = (nth ms i).next := by rw [hnode1]
  split
  · rename_i hnx
    have hnode2 : nth (modifyIdx ms1 i (fun n => { n with free_float := 0 })) i
        = { nth ms1 i with free_float := 0 } := nth_modifyIdx_self ms1 i _ hi1
    refine ⟨?_, ?_, ?_⟩
    · rw [hnode2, hnode1]
    · intro _
      rw [hnode2]
    · intro c t hct
      rw [hnode2] at hct
      have : (nth ms1 i).next = c :: t := hct
      rw [hnx] at this
      exact absurd this (by simp)
  · rename_i hnx
    rcases List.exists_cons_of_ne_nil hnx with ⟨c, t, hct⟩
    set gm := get_min_early_start_time ms1 ((nth ms1 i).next) with hgm
    set res := modifyIdx ms1 i
      (fun n => { n with free_float := gm - n.early_finish_time }) with hres
    have hnode2 : nth res i = { nth ms1 i with
        free_float := gm - (nth ms1 i).early_finish_time } := by
      rw [hres, nth_modifyIdx_self ms1 i _ hi1]
    have hne2 : ∀ j, j ≠ i → nth res j = nth ms1 j := by
      intro j hj
      rw [hres, nth_modifyIdx_ne ms1 i j _ hj]
    have hchild : ∀ q ∈ (nth ms1 i).next, i < q := by
      intro q hq
      rw [hnext1] at hq
      exact ((hwf i hi).2.1 q hq).1
    refine ⟨?_, ?_, ?_⟩
    · rw [hnode2, hnode1]
    · intro hn
      rw [hnode2] at hn
      exact absurd (show (nth ms1 i).next = [] from hn) hnx
    · intro c' t' hct'
      have hlist : (nth res i).next = (nth ms1 i).next := by rw [hnode2]
      rw [hlist] at hct'
      have hff : (nth res i).free_float = gm - (nth ms1 i).early_finish_time := by
        rw [hnode2]
      have hef : (nth res i).early_finish_time = (nth ms1 i).early_finish_time := by
        rw [hnode2]
      rw [hff, hlist, hef]
      have hgm2 : gm = minES res ((nth ms1 i).next) ((nth res c').early_start_time) := by
        rw [hgm, hct']
        simp only [get_min_early_start_time]
        rw [show (nth ms1 c').early_start_time = (nth res c').early_start_time from by
          rw [hne2 c' (by have := hchild c' (by rw [hct']; exact List.mem_cons_self c' t'); omega)]]
        simp only [if_gt_eq_min]
        show foldMin (fun q => (nth ms1 q).early_start_time) (c' :: t') _ = _
        refine foldMin_congr _ _ _ _ ?_
        intro q hq
        rw [hne2 q (by
          have := hchild q (by rw [hct']; exact hq)
          omega)]
      rw [← hgm2]

theorem calculate_buffers_loop (ns : List Node) (hwf : WF ns) :
    ∀ n, n ≤ ns.length →
    (∀ j, SameExceptFloat (nth ns j) (nth ((List.range n).foldl buffers_step ns) j)) ∧
    ((List.range n).foldl buffers_step ns).length = ns.length ∧
    (∀ j, j < n → BufRel ((List.range n).foldl buffers_step ns) j) := by
  intro n
  induction n with
  | zero =>
    intro _
    simp only [List.range_zero, List.foldl_nil]
    exact ⟨fun j => sameExceptFloat_refl _, by trivial, fun j hj => absurd hj (by omega)⟩
  | succ n ih =>
    intro hn1
    obtain ⟨hsame, hlen, hrel⟩ := ih (by omega)
    rw [List.range_succ, List.foldl_append, List.foldl_cons, List.foldl_nil]
    set S := (List.range n).foldl buffers_step ns with hS
    have hnS : n < S.length := by rw [hlen]; omega
    have hwfS : WF S := wf_staticEq (staticEq_of_sameExceptFloat hlen.symm hsame) hwf
    refine ⟨?_, ?_, ?_⟩
    · intro j
      exact sameExceptFloat_trans (hsame j) (buffers_step_same S n j)
    · rw [length_buffers_step, hlen]
    · intro j hj
      by_cases hjn : j = n
      · subst hjn
        exact buffers_step_establishes S j hwfS hnS
      · have hjlt : j < n := by omega
        refine bufRel_congr j (buffers_step_ne S n j hjn) ?_ (hrel j hjlt)
        intro c hc
        exact ((buffers_step_same S n c).ess).symm

theorem calculate_buffers_spec (ns : List Node) (hwf : WF ns) :
    (∀ j, SameExceptFloat (nth ns j) (nth (calculate_buffers ns) j)) ∧
    (∀ j, j < ns.length → BufRel (calculate_buffers ns) j) := by
  obtain ⟨hs, _, hr⟩ := calculate_buffers_loop ns hwf ns.length (le_refl _)
  rw [calculate_buffers_eq]
  exact ⟨hs, hr⟩

/- Level classification.  The specification value of a level is the
longest-path depth from any source, defined by recursion over predecessor
indices (they strictly precede the node in a well-formed plan; the filter
guard only serves termination and is the identity under WF). -/

theorem nat_foldl_max_ge_seed (l : List Nat) (s : Nat) : s ≤ l.foldl max s := by
  induction l generalizing s with
  | nil => exact le_refl s
  | cons x t ih => exact le_trans (le_max_left s x) (ih (max s x))

theorem nat_foldl_max_ge_mem (l : List Nat) (s x : Nat) (h : x ∈ l) :
    x ≤ l.foldl max s := by
  induction l generalizing s with
  | nil => cases h
  | cons y t ih =>
    rcases List.mem_cons.mp h with h1 | h2
    · subst h1
      exact le_trans (le_max_right s x) (nat_foldl_max_ge_seed t (max s x))
    · exact ih (max s y) h2

theorem nat_foldl_max_cases (l : List Nat) (s : Nat) :
    l.foldl max s = s ∨ l.foldl max s ∈ l := by
  induction l generalizing s with
  | nil => exact Or.inl rfl
  | cons y t ih =>
    rcases ih (max s y) with h | h
    · rcases max_choice s y with hc | hc
      · exact Or.inl (by rw [List.foldl_cons, h, hc])
      · exact Or.inr (by rw [List.foldl_cons, h, hc]; exact List.mem_cons_self y t)
    · exact Or.inr (List.mem_cons_of_mem y h)

def specLevel (ns : List Node) (i : Nat) : Nat :=
  if (nth ns i).prev = [] then 0
  else
    ((((nth ns i).prev.filter (fun p => decide (p < i))).attach).map
      (fun pp => specLevel ns pp.1 + 1)).foldl max 0
termination_by i
decreasing_by
  have hmem := pp.2
  rw [List.mem_filter] at hmem
  exact of_decide_eq_true hmem.2

theorem specLevel_source (ns : List Node) (i : Nat) (h : (nth ns i).prev = []) :
    specLevel ns i = 0 := by
  rw [specLevel.eq_def]
  exact if_pos h

theorem specLevel_rec (ns : List Node) (i : Nat) (h : ¬ (nth ns i).prev = [])
    (hlt : ∀ p ∈ (nth ns i).prev, p < i) :
    specLevel ns i = (((nth ns i).prev.map (fun p => specLevel ns p + 1)).foldl max 0) := by
  rw [specLevel.eq_def, if_neg h]
  have hmap : (((nth ns i).prev.filter (fun p => decide (p < i))).attach.map
      (fun pp => specLevel ns pp.1 + 1))
      = ((nth ns i).prev.filter (fun p => decide (p < i))).map
        (fun p => specLevel ns p + 1) :=
    List.attach_map_val _ (fun p => specLevel ns p + 1)
  rw [hmap, List.filter_eq_self.mpr (fun a ha => decide_eq_true (hlt a ha))]

theorem specLevel_ub (ns : List Node) (i : Nat)
    (hlt : ∀ p ∈ (nth ns i).prev, p < i) (p : Nat) (hp : p ∈ (nth ns i).prev) :
    specLevel ns p + 1 ≤ specLevel ns i := by
  rw [specLevel_rec ns i (List.ne_nil_of_mem hp) hlt]
  exact nat_foldl_max_ge_mem _ 0 _ (List.mem_map_of_mem _ hp)

theorem specLevel_attained (ns : List Node) (i : Nat)
    (h : ¬ (nth ns i).prev = []) (hlt : ∀ p ∈ (nth ns i).prev, p < i) :
    ∃ p ∈ (nth ns i).prev, specLevel ns i = specLevel ns p + 1 := by
  rw [specLevel_rec ns i h hlt]
  rcases nat_foldl_max_cases ((nth ns i).prev.map (fun p => specLevel ns p + 1)) 0 with hc | hc
  · exfalso
    rcases List.exists_cons_of_ne_nil h with ⟨p, t, hpt⟩
    have hm : specLevel ns p + 1 ∈ (nth ns i).prev.map (fun p => specLevel ns p + 1) :=
      List.mem_map_of_mem _ (by rw [hpt]; exact List.mem_cons_self p t)
    have := nat_foldl_max_ge_mem _ 0 _ hm
    omega
  · rcases List.mem_map.mp hc with ⟨p, hp, he⟩
    exact ⟨p, hp, he.symm⟩

theorem specLevel_pos (ns : List Node) (i : Nat)
    (h : ¬ (nth ns i).prev = []) (hlt : ∀ p ∈ (nth ns i).prev, p < i) :
    1 ≤ specLevel ns i := by
  rcases specLevel_attained ns i h hlt with ⟨p, _, he⟩
  omega

theorem specLevel_le_index (ns : List Node) (hwf : WF ns) :
    ∀ i, i < ns.length → specLevel ns i ≤ i := by
  intro i
  induction i using Nat.strong_induction_on with
  | _ i ih =>
    intro hi
    by_cases h : (nth ns i).prev = []
    · rw [specLevel_source ns i h]; omega
    · rcases specLevel_attained ns i h ((hwf i hi).1) with ⟨p, hp, he⟩
      have hpi : p < i := (hwf i hi).1 p hp
      have := ih p hpi (by omega)
      omega

theorem specLevel_congr {ns ms : List Node} (hst : StaticEq ns ms) :
    ∀ i, specLevel ns i = specLevel ms i := by
  intro i
  induction i using Nat.strong_induction_on with
  | _ i ih =>
    rw [specLevel.eq_def, specLevel.eq_def]
    rw [hst.prev_eq i]
    by_cases h : (nth ns i).prev = []
    · rw [if_pos h, if_pos h]
    · rw [if_neg h, if_neg h]
      have hmap1 : (((nth ns i).prev.filter (fun p => decide (p < i))).attach.map
          (fun pp => specLevel ns pp.1 + 1))
          = ((nth ns i).prev.filter (fun p => decide (p < i))).map
            (fun p => specLevel ns p + 1) :=
        List.attach_map_val _ (fun p => specLevel ns p + 1)
      have hmap2 : (((nth ns i).prev.filter (fun p => decide (p < i))).attach.map
          (fun pp => specLevel ms pp.1 + 1))
          = ((nth ns i).prev.filter (fun p => decide (p < i))).map
            (fun p => specLevel ms p + 1) :=
        List.attach_map_val _ (fun p => specLevel ms p + 1)
      rw [hmap1, hmap2]
      congr 1
      refine List.map_congr_left ?_
      intro p hp
      rw [List.mem_filter] at hp
      have hpi : p < i := of_decide_eq_true hp.2
      rw [ih p hpi]

theorem specLevel_edge (ns : List Node) (hwf : WF ns) (p c : Nat) (hp : p < ns.length)
    (hc : c ∈ (nth ns p).next) : specLevel ns p + 1 ≤ specLevel ns c := by
  have hcl : c < ns.length := ((hwf p hp).2.1 c hc).2
  have hpc : p ∈ (nth ns c).prev := (hwf p hp).2.2.2.1 c hc
  exact specLevel_ub ns c ((hwf c hcl).1) p hpc

def specMaxI (ns : List Node) : Int :=
  foldMax (fun i => (specLevel ns i : Int)) (List.range ns.length) 0

theorem specMaxI_nonneg (ns : List Node) : 0 ≤ specMaxI ns :=
  foldMax_ge_seed _ _ 0

theorem specLevel_le_specMaxI (ns : List Node) (i : Nat) (hi : i < ns.length) :
    (specLevel ns i : Int) ≤ specMaxI ns :=
  foldMax_ge_mem _ _ 0 i (List.mem_range.mpr hi)

theorem specMaxI_congr {ns ms : List Node} (hst : StaticEq ns ms) :
    specMaxI ns = specMaxI ms := by
  unfold specMaxI
  rw [hst.len]
  exact foldMax_congr _ _ _ _ (fun x _ => by rw [specLevel_congr hst x])

inductive NextPath (ns : List Node) : Nat → Nat → Nat → Prop where
  | refl (i : Nat) : NextPath ns i i 0
  | step {p c j k : Nat} : c ∈ (nth ns p).next → NextPath ns c j k →
      NextPath ns p j (k + 1)

inductive PrevChain (ns : List Node) : Nat → Nat → Prop where
  | src (i : Nat) : (nth ns i).prev = [] → PrevChain ns i 0
  | step {p i k : Nat} : PrevChain ns p k → p ∈ (nth ns i).prev → PrevChain ns i (k + 1)

theorem nextPath_snoc {ns : List Node} {s p i k : Nat} (h : NextPath ns s p k)
    (hc : i ∈ (nth ns p).next) : NextPath ns s i (k + 1) := by
  induction h with
  | refl j => exact NextPath.step hc (NextPath.refl i)
  | step hx _ ih => exact NextPath.step hx (ih hc)

theorem prevChain_le (ns : List Node) (hwf : WF ns) {i k : Nat}
    (h : PrevChain ns i k) (hi : i < ns.length) : k ≤ specLevel ns i := by
  induction h with
  | src j _ => omega
  | step hch hp ih =>
    rename_i p j k
    have hpj : p < j := (hwf j hi).1 p hp
    have hub := specLevel_ub ns j ((hwf j hi).1) p hp
    have := ih (by omega)
    omega

theorem prevChain_exists (ns : List Node) (hwf : WF ns) :
    ∀ i, i < ns.length → PrevChain ns i (specLevel ns i) := by
  intro i
  induction i using Nat.strong_induction_on with
  | _ i ih =>
    intro hi
    by_cases h : (nth ns i).prev = []
    · rw [specLevel_source ns i h]
      exact PrevChain.src i h
    · rcases specLevel_attained ns i h ((hwf i hi).1) with ⟨p, hp, he⟩
      have hpi : p < i := (hwf i hi).1 p hp
      rw [he]
      exact PrevChain.step (ih p hpi (by omega)) hp

theorem prevChain_nextPath (ns : List Node) (hwf : WF ns) {i k : Nat}
    (h : PrevChain ns i k) (hi : i < ns.length) :
    ∃ s, s < ns.length ∧ (nth ns s).prev = [] ∧ NextPath ns s i k := by
  induction h with
  | src j hj => exact ⟨j, hi, hj, NextPath.refl j⟩
  | step hch hp ih =>
    rename_i p j k
    have hpj : p < j := (hwf j hi).1 p hp
    rcases ih (by omega) with ⟨s, hs1, hs2, hs3⟩
    exact ⟨s, hs1, hs2, nextPath_snoc hs3 ((hwf j hi).2.2.1 p hp)⟩

theorem nextPath_congr {ns ms : List Node} (hst : StaticEq ns ms) {s i k : Nat}
    (h : NextPath ns s i k) : NextPath ms s i k := by
  induction h with
  | refl j => exact NextPath.refl j
  | step hx _ ih =>
    refine NextPath.step ?_ ih
    rw [hst.next_eq]
    exact hx

theorem prevChain_congr {ns ms : List Node} (hst : StaticEq ns ms) {i k : Nat}
    (h : PrevChain ns i k) : PrevChain ms i k := by
  induction h with
  | src j hj => exact PrevChain.src j (by rw [hst.prev_eq]; exact hj)
  | step hch hp ih =>
    exact PrevChain.step ih (by rw [hst.prev_eq]; exact hp)

structure SameExceptLevel (a b : Node) : Prop where
  ids : a.id = b.id
  names : a.name = b.name
  durations : a.duration = b.duration
  prevs : a.prev = b.prev
  nexts : a.next = b.next
  ffs : a.free_float = b.free_float
  tfs : a.total_float = b.total_float
  ess : a.early_start_time = b.early_start_time
  efs : a.early_finish_time = b.early_finish_time
  lss : a.late_start_time = b.late_start_time
  lfs : a.late_finish_time = b.late_finish_time

theorem sameExceptLevel_refl (a : Node) : SameExceptLevel a a :=
  ⟨rfl, rfl, rfl, rfl, rfl, rfl, rfl, rfl, rfl, rfl, rfl⟩

theorem sameExceptLevel_trans {a b c : Node} (h1 : SameExceptLevel a b)
    (h2 : SameExceptLevel b c) : SameExceptLevel a c :=
  ⟨h1.ids.trans h2.ids, h1.names.trans h2.names, h1.durations.trans h2.durations,
   h1.prevs.trans h2.prevs, h1.nexts.trans h2.nexts, h1.ffs.trans h2.ffs,
   h1.tfs.trans h2.tfs, h1.ess.trans h2.ess, h1.efs.trans h2.efs,
   h1.lss.trans h2.lss, h1.lfs.trans h2.lfs⟩

theorem sameExceptLevel_modify (ns : List Node) (p : Nat) (f : Node → Node)
    (hf : ∀ n, SameExceptLevel n (f n)) (j : Nat) :
    SameExceptLevel (nth ns j) (nth (modifyIdx ns p f) j) := by
  by_cases hjp : j = p
  · subst hjp
    by_cases hl : j < ns.length
    · rw [nth_modifyIdx_self ns j f hl]; exact hf _
    · rw [modifyIdx_oob ns j f (by omega)]; exact sameExceptLevel_refl _
  · rw [nth_modifyIdx_ne ns p j f hjp]; exact sameExceptLevel_refl _

def LvlMono (st st' : List Node × Int) : Prop :=
  (∀ j, (nth st.1 j).level ≤ (nth st'.1 j).level) ∧ st.2 ≤ st'.2

theorem lvlMono_refl (st : List Node × Int) : LvlMono st st :=
  ⟨fun _ => le_refl _, le_refl _⟩

theorem lvlMono_trans {a b c : List Node × Int} (h1 : LvlMono a b) (h2 : LvlMono b c) :
    LvlMono a c :=
  ⟨fun j => le_trans (h1.1 j) (h2.1 j), le_trans h1.2 h2.2⟩

theorem lvlMono_foldl (g : List Node × Int → Nat → List Node × Int) (l : List Nat)
    (hg : ∀ st x, LvlMono st (g st x)) : ∀ st, LvlMono st (l.foldl g st) := by
  induction l with
  | nil => exact fun st => lvlMono_refl st
  | cons x t ih => exact fun st => lvlMono_trans (hg st x) (ih (g st x))

theorem lvl_write_mono_ns (ns : List Node) (c : Nat) (level : Int) (j : Nat) :
    (nth ns j).level ≤ (nth (if (nth ns c).level < level
      then modifyIdx ns c (fun n => { n with level := level }) else ns) j).level := by
  split
  · rename_i hlt
    by_cases hjc : j = c
    · subst hjc
      by_cases hl : j < ns.length
      · rw [nth_modifyIdx_self ns j _ hl]; exact le_of_lt hlt
      · rw [modifyIdx_oob ns j _ (by omega)]
    · rw [nth_modifyIdx_ne ns c j _ hjc]
  · exact le_refl _

theorem if_lt_ge (mx x : Int) : mx ≤ (if mx < x then x else mx) := by
  split <;> omega

theorem ccnl_mono (fuel : Nat) : ∀ (ns : List Node) (mx : Int) (p : Nat) (lvl : Int),
    LvlMono (ns, mx) (calculate_child_node_levels fuel ns mx p lvl) := by
  induction fuel with
  | zero => exact fun ns mx p lvl => lvlMono_refl _
  | succ fuel ih =>
    intro ns mx p lvl
    simp only [calculate_child_node_levels]
    split
    · exact lvlMono_refl _
    · refine lvlMono_foldl _ _ (fun st c => ?_) (ns, mx)
      dsimp only
      have hmid : LvlMono st
          ((if (nth st.1 c).level < lvl
              then modifyIdx st.1 c (fun n => { n with level := lvl }) else st.1),
           (if st.2 < (nth (if (nth st.1 c).level < lvl
              then modifyIdx st.1 c (fun n => { n with level := lvl }) else st.1) c).level
            then (nth (if (nth st.1 c).level < lvl
              then modifyIdx st.1 c (fun n => { n with level := lvl }) else st.1) c).level
            else st.2)) :=
        ⟨fun j => lvl_write_mono_ns st.1 c lvl j, if_lt_ge st.2 _⟩
      exact lvlMono_trans hmid (ih _ _ _ _)

theorem ccnl_sameExceptLevel (fuel : Nat) :
    ∀ (ns : List Node) (mx : Int) (p : Nat) (lvl : Int) (j : Nat),
    SameExceptLevel (nth ns j) (nth (calculate_child_node_levels fuel ns mx p lvl).1 j) := by
  induction fuel with
  | zero => exact fun ns mx p lvl j => sameExceptLevel_refl _
  | succ fuel ih =>
    intro ns mx p lvl j
    simp only [calculate_child_node_levels]
    split
    · exact sameExceptLevel_refl _
    · rename_i c0 t0 heq
      have hfold : ∀ (l : List Nat) (st : List Node × Int),
          (∀ j', SameExceptLevel (nth ns j') (nth st.1 j')) →
          SameExceptLevel (nth ns j)
            (nth (l.foldl (fun (st : List Node × Int) (c : Nat) =>
              let ns1 := if (nth st.1 c).level < lvl
                then modifyIdx st.1 c (fun n => { n with level := lvl }) else st.1
              let mx1 := if st.2 < (nth ns1 c).level then (nth ns1 c).level else st.2
              calculate_child_node_levels fuel ns1 mx1 c (lvl + 1)) st).1 j) := by
        intro l
        induction l with
        | nil => intro st hst; exact hst j
        | cons c t ihl =>
          intro st hst
          refine ihl _ ?_
          intro j'
          dsimp only
          refine sameExceptLevel_trans (b := nth (if (nth st.1 c).level < lvl
            then modifyIdx st.1 c (fun n => { n with level := lvl }) else st.1) j') ?_ ?_
          · refine sameExceptLevel_trans (hst j') ?_
            split
            · exact sameExceptLevel_modify st.1 c _
                (by exact fun n => ⟨rfl, rfl, rfl, rfl, rfl, rfl, rfl, rfl, rfl, rfl, rfl⟩) j'
            · exact sameExceptLevel_refl _
          · exact ih _ _ _ _ j'
      exact hfold _ (ns, mx) (fun j' => sameExceptLevel_refl _)

theorem ccnl_step_bridge (ns0 : List Node) (fuel : Nat) (lvl : Int)
    (st : List Node × Int) (c : Nat)
    (h : ∀ j', SameExceptLevel (nth ns0 j') (nth st.1 j')) (j' : Nat) :
    SameExceptLevel (nth ns0 j')
      (nth (calculate_child_node_levels fuel
        (if (nth st.1 c).level < lvl
          then modifyIdx st.1 c (fun n => { n with level := lvl }) else st.1)
        (if st.2 < (nth (if (nth st.1 c).level < lvl
          then modifyIdx st.1 c (fun n => { n with level := lvl }) else st.1) c).level
         then (nth (if (nth st.1 c).level < lvl
          then modifyIdx st.1 c (fun n => { n with level := lvl }) else st.1) c).level
         else st.2)
        c (lvl + 1)).1 j') := by
  refine sameExceptLevel_trans (b := nth (if (nth st.1 c).level < lvl
    then modifyIdx st.1 c (fun n => { n with level := lvl }) else st.1) j') ?_ ?_
  · refine sameExceptLevel_trans (h j') ?_
    split
    · exact sameExceptLevel_modify st.1 c _
        (by exact fun n => ⟨rfl, rfl, rfl, rfl, rfl, rfl, rfl, rfl, rfl, rfl, rfl⟩) j'
    · exact sameExceptLevel_refl _
  · exact ccnl_sameExceptLevel fuel _ _ _ _ j'

theorem ccnl_length (fuel : Nat) : ∀ (ns : List Node) (mx : Int) (p : Nat) (lvl : Int),
    (calculate_child_node_levels fuel ns mx p lvl).1.length = ns.length :=
  fun ns mx p lvl => (staticEq_calculate_child_node_levels fuel ns mx p lvl).len.symm

theorem foldl_establish_levels (g : List Node × Int → Nat → List Node × Int)
    (Q : List Node × Int → Prop) (c j : Nat) (v : Int)
    (hQ : ∀ st x, Q st → Q (g st x))
    (hmono : ∀ st x, LvlMono st (g st x))
    (hest : ∀ st, Q st → v ≤ (nth (g st c).1 j).level ∧ v ≤ (g st c).2) :
    ∀ (l : List Nat), c ∈ l → ∀ st, Q st →
    v ≤ (nth (l.foldl g st).1 j).level ∧ v ≤ (l.foldl g st).2 := by
  intro l
  induction l with
  | nil => intro hc; cases hc
  | cons x t ih =>
    intro hc st hq
    rcases List.mem_cons.mp hc with he | hm
    · subst he
      have he2 := hest st hq
      have hmo := lvlMono_foldl g t hmono (g st c)
      exact ⟨le_trans he2.1 (hmo.1 j), le_trans he2.2 hmo.2⟩
    · exact ih hm (g st x) (hQ st x hq)

theorem ccnl_keeps_sources (ns0 : List Node) (hwf0 : WF ns0) (fuel : Nat) :
    ∀ (ns : List Node) (mx : Int) (p : Nat) (lvl : Int) (j : Nat),
    (∀ j', SameExceptLevel (nth ns0 j') (nth ns j')) →
    (nth ns0 j).prev = [] →
    (nth (calculate_child_node_levels fuel ns mx p lvl).1 j).level
      = (nth ns j).level := by
  induction fuel with
  | zero => intro ns mx p lvl j _ _; rfl
  | succ fuel ih =>
    intro ns mx p lvl j hbr hsrc
    simp only [calculate_child_node_levels]
    split
    · rfl
    · rename_i c0 t0 heq
      have hple : p < ns0.length := by
        by_contra hge
        have h0 : (nth ns0 p).next = [] := by
          rw [nth_oob ns0 p (by omega)]
          exact rfl
        have h2 : (nth ns p).next = [] := by rw [← (hbr p).nexts]; exact h0
        rw [heq] at h2
        exact absurd h2 (by simp)
      have hfold : ∀ (l : List Nat), (∀ c ∈ l, c ∈ (nth ns0 p).next) →
          ∀ (st : List Node × Int),
          (∀ j', SameExceptLevel (nth ns0 j') (nth st.1 j')) →
          (nth st.1 j).level = (nth ns j).level →
          (nth ((l.foldl (fun (st : List Node × Int) (c : Nat) =>
            let ns1 := if (nth st.1 c).level < lvl
              then modifyIdx st.1 c (fun n => { n with level := lvl }) else st.1
            let mx1 := if st.2 < (nth ns1 c).level then (nth ns1 c).level else st.2
            calculate_child_node_levels fuel ns1 mx1 c (lvl + 1)) st)).1 j).level
            = (nth ns j).level := by
        intro l
        induction l with
        | nil => intro _ st _ hlev; exact hlev
        | cons c t ihl =>
          intro hsub st hbrst hlev
          refine ihl (fun d hd => hsub d (List.mem_cons_of_mem c hd)) _ ?_ ?_
          · intro j'
            exact ccnl_step_bridge ns0 fuel lvl st c hbrst j'
          · dsimp only
            have hcj : c ≠ j := by
              intro hcontra
              subst hcontra
              have hpc : p ∈ (nth ns0 c).prev :=
                (hwf0 p hple).2.2.2.1 c (hsub c (List.mem_cons_self c t))
              rw [hsrc] at hpc
              cases hpc
            have hns1j : (nth (if (nth st.1 c).level < lvl
                then modifyIdx st.1 c (fun n => { n with level := lvl }) else st.1) j)
                = nth st.1 j := by
              split
              · exact nth_modifyIdx_ne st.1 c j _ (fun h => hcj h.symm)
              · rfl
            rw [ih _ _ _ _ j (fun j' => by
                refine sameExceptLevel_trans (hbrst j') ?_
                split
                · exact sameExceptLevel_modify st.1 c _
                    (by exact fun n =>
                      ⟨rfl, rfl, rfl, rfl, rfl, rfl, rfl, rfl, rfl, rfl, rfl⟩) j'
                · exact sameExceptLevel_refl _) hsrc]
            rw [hns1j]
            exact hlev
      exact hfold _ (fun c hc => by rw [(hbr p).nexts]; exact hc) (ns, mx) hbr rfl

theorem bridge_ite_write (ns0 : List Node) (st : List Node × Int) (c : Nat) (lvl : Int)
    (h : ∀ j', SameExceptLevel (nth ns0 j') (nth st.1 j')) (j' : Nat) :
    SameExceptLevel (nth ns0 j') (nth (if (nth st.1 c).level < lvl
      then modifyIdx st.1 c (fun n => { n with level := lvl }) else st.1) j') := by
  refine sameExceptLevel_trans (h j') ?_
  split
  · exact sameExceptLevel_modify st.1 c _
      (by exact fun n => ⟨rfl, rfl, rfl, rfl, rfl, rfl, rfl, rfl, rfl, rfl, rfl⟩) j'
  · exact sameExceptLevel_refl _

theorem ccnl_step_mono (fuel : Nat) (lvl : Int) (st : List Node × Int) (c : Nat) :
    LvlMono st (calculate_child_node_levels fuel
      (if (nth st.1 c).level < lvl
        then modifyIdx st.1 c (fun n => { n with level := lvl }) else st.1)
      (if st.2 < (nth (if (nth st.1 c).level < lvl
        then modifyIdx st.1 c (fun n => { n with level := lvl }) else st.1) c).level
       then (nth (if (nth st.1 c).level < lvl
        then modifyIdx st.1 c (fun n => { n with level := lvl }) else st.1) c).level
       else st.2)
      c (lvl + 1)) :=
  lvlMono_trans ⟨fun j => lvl_write_mono_ns st.1 c lvl j, if_lt_ge st.2 _⟩
    (ccnl_mono fuel _ _ _ _)

theorem ite_write_length (ns : List Node) (c : Nat) (lvl : Int) :
    (if (nth ns c).level < lvl
      then modifyIdx ns c (fun n => { n with level := lvl }) else ns).length
      = ns.length := by
  split
  · rw [length_modifyIdx]
  · rfl

theorem ccnl_step_bridge_len (ns0 : List Node) (fuel : Nat) (lvl : Int)
    (st : List Node × Int) (c : Nat)
    (h : (∀ j', SameExceptLevel (nth ns0 j') (nth st.1 j')) ∧ st.1.length = ns0.length) :
    (∀ j', SameExceptLevel (nth ns0 j')
      (nth (calculate_child_node_levels fuel
        (if (nth st.1 c).level < lvl
          then modifyIdx st.1 c (fun n => { n with level := lvl }) else st.1)
        (if st.2 < (nth (if (nth st.1 c).level < lvl
          then modifyIdx st.1 c (fun n => { n with level := lvl }) else st.1) c).level
         then (nth (if (nth st.1 c).level < lvl
          then modifyIdx st.1 c (fun n => { n with level := lvl }) else st.1) c).level
         else st.2)
        c (lvl + 1)).1 j')) ∧
    (calculate_child_node_levels fuel
        (if (nth st.1 c).level < lvl
          then modifyIdx st.1 c (fun n => { n with level := lvl }) else st.1)
        (if st.2 < (nth (if (nth st.1 c).level < lvl
          then modifyIdx st.1 c (fun n => { n with level := lvl }) else st.1) c).level
         then (nth (if (nth st.1 c).level < lvl
          then modifyIdx st.1 c (fun n => { n with level := lvl }) else st.1) c).level
         else st.2)
        c (lvl + 1)).1.length = ns0.length := by
  constructor
  · exact fun j' => ccnl_step_bridge ns0 fuel lvl st c h.1 j'
  · rw [ccnl_length, ite_write_length]
    exact h.2

theorem ccnl_descends (ns0 : List Node) (hwf0 : WF ns0) :
    ∀ (k fuel : Nat), k + 1 ≤ fuel →
    ∀ (ns : List Node) (mx : Int) (p : Nat) (lvl : Int) (j : Nat),
    (∀ j', SameExceptLevel (nth ns0 j') (nth ns j')) →
    ns.length = ns0.length →
    p < ns0.length →
    NextPath ns0 p j (k + 1) →
    lvl + (k : Int) ≤ (nth (calculate_child_node_levels fuel ns mx p lvl).1 j).level ∧
    lvl + (k : Int) ≤ (calculate_child_node_levels fuel ns mx p lvl).2 := by
  intro k
  induction k with
  | zero =>
    intro fuel hfuel ns mx p lvl j hbr hlen hp hpath
    obtain ⟨f, rfl⟩ : ∃ f, fuel = f + 1 := ⟨fuel - 1, by omega⟩
    simp only [Nat.cast_zero, add_zero]
    cases hpath with
    | step hc htail =>
      cases htail
      have hj2 : j ∈ (nth ns p).next := by
        rw [← (hbr p).nexts]
        exact hc
      have hjb := (hwf0 p hp).2.1 j hc
      simp only [calculate_child_node_levels]
      split
      · rename_i heq
        rw [heq] at hj2
        cases hj2
      · refine foldl_establish_levels _
          (fun st => (∀ j', SameExceptLevel (nth ns0 j') (nth st.1 j')) ∧
            st.1.length = ns0.length) j j lvl
          (fun st x hq => ccnl_step_bridge_len ns0 f lvl st x hq)
          (fun st x => ccnl_step_mono f lvl st x) ?_ _ hj2 (ns, mx) ⟨hbr, hlen⟩
        intro st hq
        dsimp only
        have hjlen : j < st.1.length := by rw [hq.2]; exact hjb.2
        have h1 : lvl ≤ (nth (if (nth st.1 j).level < lvl
            then modifyIdx st.1 j (fun n => { n with level := lvl }) else st.1) j).level := by
          split
          · rw [nth_modifyIdx_self st.1 j _ hjlen]
          · rename_i hnlt
            omega
        constructor
        · exact le_trans h1 ((ccnl_mono f _ _ _ _).1 j)
        · have h2gen : ∀ (m x : Int), lvl ≤ x → lvl ≤ (if m < x then x else m) := by
            intro m x hx
            split
            · exact hx
            · omega
          exact le_trans (h2gen st.2 _ h1) (ccnl_mono f _ _ _ _).2
  | succ k ihk =>
    intro fuel hfuel ns mx p lvl j hbr hlen hp hpath
    obtain ⟨f, rfl⟩ : ∃ f, fuel = f + 1 := ⟨fuel - 1, by omega⟩
    cases hpath with
    | step hc htail =>
      rename_i c
      have hc2 : c ∈ (nth ns p).next := by
        rw [← (hbr p).nexts]
        exact hc
      have hcb := (hwf0 p hp).2.1 c hc
      simp only [calculate_child_node_levels]
      split
      · rename_i heq
        rw [heq] at hc2
        cases hc2
      · refine foldl_establish_levels _
          (fun st => (∀ j', SameExceptLevel (nth ns0 j') (nth st.1 j')) ∧
            st.1.length = ns0.length) c j (lvl + ((k + 1 : Nat) : Int))
          (fun st x hq => ccnl_step_bridge_len ns0 f lvl st x hq)
          (fun st x => ccnl_step_mono f lvl st x) ?_ _ hc2 (ns, mx) ⟨hbr, hlen⟩
        intro st hq
        dsimp only
        set A := (if (nth st.1 c).level < lvl
          then modifyIdx st.1 c (fun n => { n with level := lvl }) else st.1) with hA
        set B := (if st.2 < (nth A c).level then (nth A c).level else st.2) with hB
        have hihk := ihk f (by omega) A B c (lvl + 1) j
          (fun j' => by rw [hA]; exact bridge_ite_write ns0 st c lvl hq.1 j')
          (by rw [hA, ite_write_length]; exact hq.2)
          hcb.2 htail
        constructor
        · have h1 := hihk.1
          omega
        · have h2 := hihk.2
          omega

theorem ccnl_upper (ns0 : List Node) (hwf0 : WF ns0) (B : Int)
    (hB : ∀ j, j < ns0.length → (specLevel ns0 j : Int) ≤ B) (fuel : Nat) :
    ∀ (ns : List Node) (mx : Int) (p : Nat) (lvl : Int),
    (∀ j', SameExceptLevel (nth ns0 j') (nth ns j')) →
    ns.length = ns0.length →
    (∀ j, j < ns0.length → (nth ns j).level ≤ (specLevel ns0 j : Int)) →
    mx ≤ B →
    p < ns0.length →
    lvl ≤ (specLevel ns0 p : Int) + 1 →
    (∀ j, j < ns0.length →
      (nth (calculate_child_node_levels fuel ns mx p lvl).1 j).level
        ≤ (specLevel ns0 j : Int)) ∧
    (calculate_child_node_levels fuel ns mx p lvl).2 ≤ B := by
  induction fuel with
  | zero => intro ns mx p lvl _ _ hle hmx _ _; exact ⟨hle, hmx⟩
  | succ fuel ih =>
    intro ns mx p lvl hbr hlen hle hmx hp hlvl
    simp only [calculate_child_node_levels]
    split
    · exact ⟨hle, hmx⟩
    · rename_i c0 t0 heq
      have hfold : ∀ (l : List Nat), (∀ c ∈ l, c ∈ (nth ns0 p).next) →
          ∀ (st : List Node × Int),
          (∀ j', SameExceptLevel (nth ns0 j') (nth st.1 j')) →
          st.1.length = ns0.length →
          (∀ j, j < ns0.length → (nth st.1 j).level ≤ (specLevel ns0 j : Int)) →
          st.2 ≤ B →
          (∀ j, j < ns0.length →
            (nth ((l.foldl (fun (st : List Node × Int) (c : Nat) =>
              let ns1 := if (nth st.1 c).level < lvl
                then modifyIdx st.1 c (fun n => { n with level := lvl }) else st.1
              let mx1 := if st.2 < (nth ns1 c).level then (nth ns1 c).level else st.2
              calculate_child_node_levels fuel ns1 mx1 c (lvl + 1)) st)).1 j).level
              ≤ (specLevel ns0 j : Int)) ∧
          ((l.foldl (fun (st : List Node × Int) (c : Nat) =>
              let ns1 := if (nth st.1 c).level < lvl
                then modifyIdx st.1 c (fun n => { n with level := lvl }) else st.1
              let mx1 := if st.2 < (nth ns1 c).level then (nth ns1 c).level else st.2
              calculate_child_node_levels fuel ns1 mx1 c (lvl + 1)) st)).2 ≤ B := by
        intro l
        induction l with
        | nil => intro _ st _ _ hle2 hmx2; exact ⟨hle2, hmx2⟩
        | cons c t ihl =>
          intro hsub st hbrst hlenst hlest hmxst
          have hcmem : c ∈ (nth ns0 p).next := hsub c (List.mem_cons_self c t)
          have hcb := (hwf0 p hp).2.1 c hcmem
          have hedge : specLevel ns0 p + 1 ≤ specLevel ns0 c :=
            specLevel_edge ns0 hwf0 p c hp hcmem
          refine ihl (fun d hd => hsub d (List.mem_cons_of_mem c hd)) _ ?_ ?_ ?_ ?_
          · intro j'
            exact ccnl_step_bridge ns0 fuel lvl st c hbrst j'
          · dsimp only
            rw [ccnl_length, ite_write_length]
            exact hlenst
          · dsimp only
            set A := (if (nth st.1 c).level < lvl
              then modifyIdx st.1 c (fun n => { n with level := lvl }) else st.1) with hA
            set B2 := (if st.2 < (nth A c).level then (nth A c).level else st.2) with hB2
            have hleA : ∀ j, j < ns0.length → (nth A j).level ≤ (specLevel ns0 j : Int) := by
              intro j hj
              rw [hA]
              split
              · by_cases hjc : j = c
                · subst hjc
                  rw [nth_modifyIdx_self st.1 j _ (by rw [hlenst]; exact hj)]
                  have : (specLevel ns0 p : Int) + 1 ≤ (specLevel ns0 j : Int) := by
                    exact_mod_cast hedge
                  calc (({ nth st.1 j with level := lvl } : Node)).level = lvl := rfl
                    _ ≤ (specLevel ns0 p : Int) + 1 := hlvl
                    _ ≤ (specLevel ns0 j : Int) := this
                · rw [nth_modifyIdx_ne st.1 c j _ hjc]
                  exact hlest j hj
              · exact hlest j hj
            have hmxB : B2 ≤ B := by
              rw [hB2]
              split
              · exact le_trans (hleA c hcb.2) (hB c hcb.2)
              · exact hmxst
            have hlvlc : lvl + 1 ≤ (specLevel ns0 c : Int) + 1 := by
              have : (specLevel ns0 p : Int) + 1 ≤ (specLevel ns0 c : Int) := by
                exact_mod_cast hedge
              omega
            exact (ih A B2 c (lvl + 1)
              (fun j' => by rw [hA]; exact bridge_ite_write ns0 st c lvl hbrst j')
              (by rw [hA, ite_write_length]; exact hlenst)
              hleA hmxB hcb.2 hlvlc).1
          · dsimp only
            set A := (if (nth st.1 c).level < lvl
              then modifyIdx st.1 c (fun n => { n with level := lvl }) else st.1) with hA
            set B2 := (if st.2 < (nth A c).level then (nth A c).level else st.2) with hB2
            have hleA : ∀ j, j < ns0.length → (nth A j).level ≤ (specLevel ns0 j : Int) := by
              intro j hj
              rw [hA]
              split
              · by_cases hjc : j = c
                · subst hjc
                  rw [nth_modifyIdx_self st.1 j _ (by rw [hlenst]; exact hj)]
                  have : (specLevel ns0 p : Int) + 1 ≤ (specLevel ns0 j : Int) := by
                    exact_mod_cast hedge
                  calc (({ nth st.1 j with level := lvl } : Node)).level = lvl := rfl
                    _ ≤ (specLevel ns0 p : Int) + 1 := hlvl
                    _ ≤ (specLevel ns0 j : Int) := this
                · rw [nth_modifyIdx_ne st.1 c j _ hjc]
                  exact hlest j hj
              · exact hlest j hj
            have hmxB : B2 ≤ B := by
              rw [hB2]
              split
              · exact le_trans (hleA c hcb.2) (hB c hcb.2)
              · exact hmxst
            have hlvlc : lvl + 1 ≤ (specLevel ns0 c : Int) + 1 := by
              have : (specLevel ns0 p : Int) + 1 ≤ (specLevel ns0 c : Int) := by
                exact_mod_cast hedge
              omega
            exact (ih A B2 c (lvl + 1)
              (fun j' => by rw [hA]; exact bridge_ite_write ns0 st c lvl hbrst j')
              (by rw [hA, ite_write_length]; exact hlenst)
              hleA hmxB hcb.2 hlvlc).2
      exact hfold _ (fun c hc => by rw [(hbr p).nexts]; exact hc) (ns, mx) hbr hlen hle hmx

/-- The loop body of calculate_node_levels, named for the proofs. -/
def levels_step (st : List Node × Int) (i : Nat) : List Node × Int :=
  if (nth st.1 i).prev = [] then
    let ns1 := modifyIdx st.1 i (fun n => { n with level := 0 })
    calculate_child_node_levels ns1.length ns1 st.2 i 1
  else st

theorem calculate_node_levels_eq (ns : List Node) (mx : Int) :
    calculate_node_levels ns mx = (List.range ns.length).foldl levels_step (ns, mx) := rfl

theorem pfx_succ (ns0 : List Node) (mx0 : Int) (n : Nat) :
    (List.range (n + 1)).foldl levels_step (ns0, mx0)
      = levels_step ((List.range n).foldl levels_step (ns0, mx0)) n := by
  rw [List.range_succ, List.foldl_append, List.foldl_cons, List.foldl_nil]

theorem levels_step_bridge (ns0 : List Node) (st : List Node × Int) (i : Nat)
    (h : ∀ j, SameExceptLevel (nth ns0 j) (nth st.1 j)) (j : Nat) :
    SameExceptLevel (nth ns0 j) (nth (levels_step st i).1 j) := by
  simp only [levels_step]
  split
  · refine sameExceptLevel_trans (b := nth (modifyIdx st.1 i
      (fun n => { n with level := 0 })) j) ?_ ?_
    · refine sameExceptLevel_trans (h j) ?_
      exact sameExceptLevel_modify st.1 i _
        (by exact fun n => ⟨rfl, rfl, rfl, rfl, rfl, rfl, rfl, rfl, rfl, rfl, rfl⟩) j
    · exact ccnl_sameExceptLevel _ _ _ _ _ j
  · exact h j

theorem levels_step_len (st : List Node × Int) (i : Nat) :
    (levels_step st i).1.length = st.1.length := by
  simp only [levels_step]
  split
  · rw [ccnl_length, length_modifyIdx]
  · rfl

theorem levels_step_mx_mono (st : List Node × Int) (i : Nat) :
    st.2 ≤ (levels_step st i).2 := by
  simp only [levels_step]
  split
  · exact (ccnl_mono _ _ _ _ _).2
  · exact le_refl _

theorem pfx_bridge (ns0 : List Node) (mx0 : Int) (n : Nat) :
    (∀ j, SameExceptLevel (nth ns0 j)
      (nth ((List.range n).foldl levels_step (ns0, mx0)).1 j)) ∧
    ((List.range n).foldl levels_step (ns0, mx0)).1.length = ns0.length := by
  induction n with
  | zero =>
    simp only [List.range_zero, List.foldl_nil]
    exact ⟨fun j => sameExceptLevel_refl _, by trivial⟩
  | succ n ih =>
    rw [pfx_succ]
    exact ⟨fun j => levels_step_bridge ns0 _ n ih.1 j,
      by rw [levels_step_len]; exact ih.2⟩

theorem pfx_mx_mono (ns0 : List Node) (mx0 : Int) :
    ∀ n, mx0 ≤ ((List.range n).foldl levels_step (ns0, mx0)).2 := by
  intro n
  induction n with
  | zero =>
    simp only [List.range_zero, List.foldl_nil]
    exact le_refl mx0
  | succ n ih =>
    rw [pfx_succ]
    exact le_trans ih (levels_step_mx_mono _ n)

theorem pfx_sources (ns0 : List Node) (hwf0 : WF ns0) (mx0 : Int) (s : Nat)
    (hs : s < ns0.length) (hsrc : (nth ns0 s).prev = []) :
    ∀ n, s < n →
    (nth ((List.range n).foldl levels_step (ns0, mx0)).1 s).level = 0 := by
  intro n
  induction n with
  | zero => intro h; omega
  | succ n ihn =>
    intro hlt
    rw [pfx_succ]
    have hbr := pfx_bridge ns0 mx0 n
    by_cases hn : s = n
    · subst hn
      simp only [levels_step]
      split
      · set S := (List.range s).foldl levels_step (ns0, mx0) with hS
        have hslen : s < S.1.length := by rw [hbr.2]; exact hs
        have hbr1 : ∀ j, SameExceptLevel (nth ns0 j)
            (nth (modifyIdx S.1 s (fun n => { n with level := 0 })) j) := by
          intro j
          refine sameExceptLevel_trans (hbr.1 j) ?_
          exact sameExceptLevel_modify S.1 s _
            (by exact fun n => ⟨rfl, rfl, rfl, rfl, rfl, rfl, rfl, rfl, rfl, rfl, rfl⟩) j
        rw [ccnl_keeps_sources ns0 hwf0 _ _ _ _ _ s hbr1 hsrc]
        rw [nth_modifyIdx_self S.1 s _ hslen]
      · rename_i hnp
        exact absurd (by rw [← (hbr.1 s).prevs]; exact hsrc) hnp
    · have hsn : s < n := by omega
      have hprev := ihn hsn
      simp only [levels_step]
      split
      · rename_i hup
        set S := (List.range n).foldl levels_step (ns0, mx0) with hS
        have hns : n ≠ s := fun h => hn h.symm
        have hbr1 : ∀ j, SameExceptLevel (nth ns0 j)
            (nth (modifyIdx S.1 n (fun m => { m with level := 0 })) j) := by
          intro j
          refine sameExceptLevel_trans (hbr.1 j) ?_
          exact sameExceptLevel_modify S.1 n _
            (by exact fun m => ⟨rfl, rfl, rfl, rfl, rfl, rfl, rfl, rfl, rfl, rfl, rfl⟩) j
        rw [ccnl_keeps_sources ns0 hwf0 _ _ _ _ _ s hbr1 hsrc]
        rw [nth_modifyIdx_ne S.1 n s _ hns.symm]
        exact hprev
      · exact hprev

theorem pfx_upper (ns0 : List Node) (hwf0 : WF ns0) (mx0 B : Int)
    (hB : ∀ j, j < ns0.length → (specLevel ns0 j : Int) ≤ B) (hmxB : mx0 ≤ B)
    (hle : ∀ j, j < ns0.length → (nth ns0 j).level ≤ (specLevel ns0 j : Int)) :
    ∀ n, n ≤ ns0.length →
    (∀ j, j < ns0.length →
      (nth ((List.range n).foldl levels_step (ns0, mx0)).1 j).level
        ≤ (specLevel ns0 j : Int)) ∧
    ((List.range n).foldl levels_step (ns0, mx0)).2 ≤ B := by
  intro n
  induction n with
  | zero =>
    intro _
    simp only [List.range_zero, List.foldl_nil]
    exact ⟨hle, hmxB⟩
  | succ n ih =>
    intro hn1
    obtain ⟨hlev, hmx⟩ := ih (by omega)
    have hbr := pfx_bridge ns0 mx0 n
    rw [pfx_succ]
    simp only [levels_step]
    split
    · set S := (List.range n).foldl levels_step (ns0, mx0) with hS
      have hnlen : n < ns0.length := by omega
      have hnlenS : n < S.1.length := by rw [hbr.2]; exact hnlen
      have hbr1 : ∀ j, SameExceptLevel (nth ns0 j)
          (nth (modifyIdx S.1 n (fun m => { m with level := 0 })) j) := by
        intro j
        refine sameExceptLevel_trans (hbr.1 j) ?_
        exact sameExceptLevel_modify S.1 n _
          (by exact fun m => ⟨rfl, rfl, rfl, rfl, rfl, rfl, rfl, rfl, rfl, rfl, rfl⟩) j
      have hle1 : ∀ j, j < ns0.length →
          (nth (modifyIdx S.1 n (fun m => { m with level := 0 })) j).level
            ≤ (specLevel ns0 j : Int) := by
        intro j hj
        by_cases hjn : j = n
        · subst hjn
          rw [nth_modifyIdx_self S.1 j _ hnlenS]
          show (0 : Int) ≤ (specLevel ns0 j : Int)
          exact_mod_cast Int.ofNat_nonneg (specLevel ns0 j)
        · rw [nth_modifyIdx_ne S.1 n j _ hjn]
          exact hlev j hj
      refine ccnl_upper ns0 hwf0 B hB _ _ _ n 1 hbr1
        (by rw [length_modifyIdx]; exact hbr.2) hle1 hmx hnlen ?_
      have := Int.ofNat_nonneg (specLevel ns0 n)
      omega
    · exact ⟨hlev, hmx⟩

theorem levels_step_keeps_level (ns0 : List Node) (st : List Node × Int) (i j : Nat)
    (hbr : ∀ j', SameExceptLevel (nth ns0 j') (nth st.1 j'))
    (hns : ¬ (nth ns0 j).prev = []) :
    (nth st.1 j).level ≤ (nth (levels_step st i).1 j).level := by
  simp only [levels_step]
  split
  · rename_i hsrc
    have hij : i ≠ j := by
      intro h
      subst h
      exact hns (by rw [(hbr i).prevs]; exact hsrc)
    have hkeep : nth (modifyIdx st.1 i (fun m => { m with level := 0 })) j = nth st.1 j :=
      nth_modifyIdx_ne st.1 i j _ (fun h => hij h.symm)
    refine le_trans (le_of_eq (congrArg Node.level hkeep.symm)) ?_
    exact (ccnl_mono _ _ _ _ _).1 j
  · exact le_refl _

theorem levels_step_keeps_mx_lb (st : List Node × Int) (i : Nat) (v : Int)
    (h : v ≤ st.2) : v ≤ (levels_step st i).2 :=
  le_trans h (levels_step_mx_mono st i)

theorem pfx_nonsource_lower (ns0 : List Node) (hwf0 : WF ns0) (mx0 : Int) (i : Nat)
    (hi : i < ns0.length) (hns : ¬ (nth ns0 i).prev = []) :
    (specLevel ns0 i : Int)
      ≤ (nth ((List.range ns0.length).foldl levels_step (ns0, mx0)).1 i).level ∧
    (specLevel ns0 i : Int)
      ≤ ((List.range ns0.length).foldl levels_step (ns0, mx0)).2 := by
  have hpos : 1 ≤ specLevel ns0 i := specLevel_pos ns0 i hns ((hwf0 i hi).1)
  have hidx : specLevel ns0 i ≤ i := specLevel_le_index ns0 hwf0 i hi
  obtain ⟨s, hs1, hs2, hs3⟩ :=
    prevChain_nextPath ns0 hwf0 (prevChain_exists ns0 hwf0 i hi) hi
  have hclaim : ∀ n, s < n → n ≤ ns0.length →
      (specLevel ns0 i : Int)
        ≤ (nth ((List.range n).foldl levels_step (ns0, mx0)).1 i).level ∧
      (specLevel ns0 i : Int)
        ≤ ((List.range n).foldl levels_step (ns0, mx0)).2 := by
    intro n
    induction n with
    | zero => intro h; omega
    | succ n ihn =>
      intro hlt hle
      have hbr := pfx_bridge ns0 mx0 n
      rw [pfx_succ]
      by_cases hn : s = n
      · subst hn
        simp only [levels_step]
        split
        · set S := (List.range s).foldl levels_step (ns0, mx0) with hS
          have hslenS : s < S.1.length := by rw [hbr.2]; omega
          have hbr1 : ∀ j, SameExceptLevel (nth ns0 j)
              (nth (modifyIdx S.1 s (fun m => { m with level := 0 })) j) := by
            intro j
            refine sameExceptLevel_trans (hbr.1 j) ?_
            exact sameExceptLevel_modify S.1 s _
              (by exact fun m => ⟨rfl, rfl, rfl, rfl, rfl, rfl, rfl, rfl, rfl, rfl, rfl⟩) j
          have hlen1 : (modifyIdx S.1 s (fun m => { m with level := 0 })).length
              = ns0.length := by rw [length_modifyIdx]; exact hbr.2
          have hpath : NextPath ns0 s i ((specLevel ns0 i - 1) + 1) := by
            have : (specLevel ns0 i - 1) + 1 = specLevel ns0 i := by omega
            rw [this]
            exact hs3
          have hdes := ccnl_descends ns0 hwf0 (specLevel ns0 i - 1)
            ((modifyIdx S.1 s (fun m => { m with level := 0 })).length)
            (by rw [hlen1]; omega) _ S.2 s 1 i hbr1 hlen1 hs1 hpath
          constructor
          · have h1 := hdes.1
            omega
          · have h2 := hdes.2
            omega
        · rename_i hnp
          exact absurd (by rw [← (hbr.1 s).prevs]; exact hs2) hnp
      · have hsn : s < n := by omega
        obtain ⟨hl1, hl2⟩ := ihn hsn (by omega)
        constructor
        · exact le_trans hl1 (levels_step_keeps_level ns0 _ n i hbr.1 hns)
        · exact levels_step_keeps_mx_lb _ n _ hl2
  exact hclaim ns0.length (by omega) (le_refl _)

theorem calculate_node_levels_spec (ns : List Node) (mx : Int) (hwf : WF ns)
    (hle : ∀ j, j < ns.length → (nth ns j).level ≤ (specLevel ns j : Int))
    (hmx : 0 ≤ mx) :
    (∀ j, SameExceptLevel (nth ns j) (nth (calculate_node_levels ns mx).1 j)) ∧
    (calculate_node_levels ns mx).1.length = ns.length ∧
    (∀ j, j < ns.length →
      (nth (calculate_node_levels ns mx).1 j).level = (specLevel ns j : Int)) ∧
    (calculate_node_levels ns mx).2 = max mx (specMaxI ns) := by
  rw [calculate_node_levels_eq]
  have hbr := pfx_bridge ns mx ns.length
  have hup := pfx_upper ns hwf mx (max mx (specMaxI ns))
    (fun j hj => le_trans (specLevel_le_specMaxI ns j hj) (le_max_right _ _))
    (le_max_left _ _) hle ns.length (le_refl _)
  refine ⟨hbr.1, hbr.2, ?_, ?_⟩
  · intro j hj
    by_cases hsrc : (nth ns j).prev = []
    · rw [pfx_sources ns hwf mx j hj hsrc ns.length hj]
      rw [specLevel_source ns j hsrc]
      rfl
    · refine le_antisymm (hup.1 j hj) ?_
      exact (pfx_nonsource_lower ns hwf mx j hj hsrc).1
  · refine le_antisymm hup.2 ?_
    refine max_le (pfx_mx_mono ns mx ns.length) ?_
    refine foldMax_le _ _ _ _ (le_trans hmx (pfx_mx_mono ns mx ns.length)) ?_
    intro x hx
    have hxl : x < ns.length := List.mem_range.mp hx
    by_cases hsrc : (nth ns x).prev = []
    · rw [specLevel_source ns x hsrc]
      exact le_trans hmx (pfx_mx_mono ns mx ns.length)
    · exact (pfx_nonsource_lower ns hwf mx x hxl hsrc).2

/- The two collection phases: grouping indices by level into the dicts,
and extracting the critical path as a stable sort by level of the
zero-float indices. -/

theorem dictGet_set_eq {α : Type} (d : List (Int × α)) (k : Int) (v : α) (dflt : α) :
    dictGet (dictSet d k v) k dflt = v := by
  induction d with
  | nil => simp [dictGet, dictSet, List.find?]
  | cons kv rest ih =>
    simp only [dictSet]
    by_cases h : kv.1 = k
    · rw [if_pos (by exact beq_iff_eq.mpr h)]
      simp [dictGet, List.find?]
    · rw [if_neg (by simp [h])]
      simp only [dictGet, List.find?]
      rw [show (kv.1 == k) = false from beq_eq_false_iff_ne.mpr h]
      exact ih

theorem dictGet_set_ne {α : Type} (d : List (Int × α)) (k k' : Int) (v : α) (dflt : α)
    (h : k' ≠ k) : dictGet (dictSet d k v) k' dflt = dictGet d k' dflt := by
  induction d with
  | nil =>
    simp only [dictSet, dictGet, List.find?]
    rw [show (k == k') = false from beq_eq_false_iff_ne.mpr (fun he => h he.symm)]
  | cons kv rest ih =>
    simp only [dictSet]
    by_cases hk : kv.1 = k
    · rw [if_pos (by exact beq_iff_eq.mpr hk)]
      simp only [dictGet, List.find?]
      rw [show (k == k') = false from beq_eq_false_iff_ne.mpr (fun he => h he.symm)]
      rw [show (kv.1 == k') = false from beq_eq_false_iff_ne.mpr (by rw [hk]; exact fun he => h he.symm)]
    · rw [if_neg (by simp [hk])]
      simp only [dictGet, List.find?]
      by_cases hk2 : kv.1 = k'
      · rw [show (kv.1 == k') = true from beq_iff_eq.mpr hk2]
      · rw [show (kv.1 == k') = false from beq_eq_false_iff_ne.mpr hk2]
        exact ih

/-- The loop body of collect_level_nodes, named for the proofs. -/
def collect_step (q : Plan) (i : Nat) : Plan :=
  let lv := (nth q.nodes i).level
  let l := dictGet q.level_nodes lv []
  { q with
    level_nodes := dictSet q.level_nodes lv (l ++ [i]),
    nodes_per_level := dictSet q.nodes_per_level lv (dictGet q.nodes_per_level lv 0 + 1) }

theorem collect_level_nodes_eq (p : Plan) :
    collect_level_nodes p = (List.range p.nodes.length).foldl collect_step p := rfl

theorem collect_fold_spec (l : List Nat) : ∀ q : Plan,
    ((l.foldl collect_step q).nodes = q.nodes ∧
     (l.foldl collect_step q).critical_path_nodes = q.critical_path_nodes ∧
     (l.foldl collect_step q).node_id = q.node_id ∧
     (l.foldl collect_step q).max_node_level = q.max_node_level) ∧
    (∀ L, dictGet (l.foldl collect_step q).level_nodes L []
      = dictGet q.level_nodes L [] ++ l.filter (fun i => (nth q.nodes i).level == L)) ∧
    (∀ L, dictGet (l.foldl collect_step q).nodes_per_level L 0
      = dictGet q.nodes_per_level L 0
        + (l.filter (fun i => (nth q.nodes i).level == L)).length) := by
  induction l with
  | nil => intro q; exact ⟨⟨rfl, rfl, rfl, rfl⟩, fun L => by simp, fun L => by simp⟩
  | cons i t ih =>
    intro q
    have hstep : (collect_step q i).nodes = q.nodes := rfl
    obtain ⟨⟨e1, e2, e3, e4⟩, e5, e6⟩ := ih (collect_step q i)
    refine ⟨⟨by rw [List.foldl_cons, e1, hstep],
      by rw [List.foldl_cons, e2]; exact rfl,
      by rw [List.foldl_cons, e3]; exact rfl,
      by rw [List.foldl_cons, e4]; exact rfl⟩, ?_, ?_⟩
    · intro L
      rw [List.foldl_cons, e5 L, hstep]
      by_cases hL : (nth q.nodes i).level = L
      · have hset : dictGet (collect_step q i).level_nodes L []
            = dictGet q.level_nodes L [] ++ [i] := by
          simp only [collect_step]
          rw [← hL, dictGet_set_eq]
        rw [hset, List.filter_cons, if_pos (by exact beq_iff_eq.mpr hL)]
        simp
      · have hset : dictGet (collect_step q i).level_nodes L []
            = dictGet q.level_nodes L [] := by
          simp only [collect_step]
          rw [dictGet_set_ne _ _ _ _ _ (fun h => hL h.symm)]
        rw [hset, List.filter_cons, if_neg (by simp [hL])]
    · intro L
      rw [List.foldl_cons, e6 L, hstep]
      by_cases hL : (nth q.nodes i).level = L
      · have hset : dictGet (collect_step q i).nodes_per_level L 0
            = dictGet q.nodes_per_level L 0 + 1 := by
          simp only [collect_step]
          rw [← hL, dictGet_set_eq]
        rw [hset, List.filter_cons, if_pos (by exact beq_iff_eq.mpr hL)]
        simp only [List.length_cons]
        omega
      · have hset : dictGet (collect_step q i).nodes_per_level L 0
            = dictGet q.nodes_per_level L 0 := by
          simp only [collect_step]
          rw [dictGet_set_ne _ _ _ _ _ (fun h => hL h.symm)]
        rw [hset, List.filter_cons, if_neg (by simp [hL])]

theorem foldl_filter_append (Q : Nat → Prop) [DecidablePred Q] (l : List Nat) :
    ∀ acc, (l.foldl (fun acc i => if Q i then acc ++ [i] else acc) acc)
      = acc ++ l.filter (fun i => decide (Q i)) := by
  induction l with
  | nil => intro acc; simp
  | cons i t ih =>
    intro acc
    rw [List.foldl_cons, ih, List.filter_cons]
    by_cases h : Q i
    · rw [if_pos h, if_pos (by exact decide_eq_true h)]
      simp
    · rw [if_neg h, if_neg (by simp [h])]

/-- The order realised by the critical path: level ascending with ties in
insertion (index) order. -/
def CPOrd (ns : List Node) (a b : Nat) : Prop :=
  (nth ns a).level < (nth ns b).level ∨
  ((nth ns a).level = (nth ns b).level ∧ a < b)

theorem mem_insert_by_level (ns : List Node) (i x : Nat) (l : List Nat) :
    x ∈ insert_by_level ns i l ↔ (x = i ∨ x ∈ l) := by
  induction l with
  | nil => simp [insert_by_level]
  | cons j t ih =>
    simp only [insert_by_level]
    split
    · simp
    · simp only [List.mem_cons, ih]
      tauto

theorem pairwise_insert_by_level (ns : List Node) (i : Nat) (l : List Nat)
    (hp : l.Pairwise (CPOrd ns)) (hlt : ∀ x ∈ l, x < i) :
    (insert_by_level ns i l).Pairwise (CPOrd ns) := by
  induction l with
  | nil => simp [insert_by_level]
  | cons j t ih =>
    rw [List.pairwise_cons] at hp
    simp only [insert_by_level]
    split
    · rename_i hij
      rw [List.pairwise_cons]
      constructor
      · intro x hx
        rcases List.mem_cons.mp hx with he | hm
        · subst he
          exact Or.inl hij
        · rcases hp.1 x hm with hcase | hcase
          · exact Or.inl (lt_trans hij hcase)
          · exact Or.inl (by rw [← hcase.1]; exact hij)
      · exact List.pairwise_cons.mpr hp
    · rename_i hij
      rw [List.pairwise_cons]
      constructor
      · intro x hx
        rcases (mem_insert_by_level ns i x t).mp hx with he | hm
        · subst he
          rcases lt_or_eq_of_le (not_lt.mp hij) with hcase | hcase
          · exact Or.inl hcase
          · exact Or.inr ⟨hcase, hlt j (List.mem_cons_self j t)⟩
        · exact hp.1 x hm
      · exact ih hp.2 (fun x hx => hlt x (List.mem_cons_of_mem j hx))

theorem sort_fold_spec (ns : List Node) : ∀ (l acc : List Nat),
    l.Pairwise (fun a b => a < b) → acc.Pairwise (CPOrd ns) →
    (∀ x ∈ acc, ∀ y ∈ l, x < y) →
    (∀ x, x ∈ l.foldl (fun acc i => insert_by_level ns i acc) acc ↔ (x ∈ acc ∨ x ∈ l)) ∧
    (l.foldl (fun acc i => insert_by_level ns i acc) acc).Pairwise (CPOrd ns) := by
  intro l
  induction l with
  | nil =>
    intro acc _ hacc _
    exact ⟨fun x => by simp, hacc⟩
  | cons i t ih =>
    intro acc hl hacc hcross
    rw [List.pairwise_cons] at hl
    have hmem : ∀ x ∈ insert_by_level ns i acc, x = i ∨ x ∈ acc :=
      fun x hx => (mem_insert_by_level ns i x acc).mp hx
    obtain ⟨m1, m2⟩ := ih (insert_by_level ns i acc) hl.2
      (pairwise_insert_by_level ns i acc hacc
        (fun x hx => hcross x hx i (List.mem_cons_self i t)))
      (by
        intro x hx y hy
        rcases hmem x hx with he | hm
        · subst he
          exact hl.1 y hy
        · exact hcross x hm y (List.mem_cons_of_mem i hy))
    constructor
    · intro x
      rw [List.foldl_cons, m1 x]
      simp only [mem_insert_by_level, List.mem_cons]
      tauto
    · rw [List.foldl_cons]
      exact m2

theorem collect_critical_spec (p : Plan) :
    (collect_critical_path_nodes p).nodes = p.nodes ∧
    (collect_critical_path_nodes p).node_id = p.node_id ∧
    (collect_critical_path_nodes p).max_node_level = p.max_node_level ∧
    (collect_critical_path_nodes p).level_nodes = p.level_nodes ∧
    (collect_critical_path_nodes p).nodes_per_level = p.nodes_per_level ∧
    (∀ x, x ∈ (collect_critical_path_nodes p).critical_path_nodes ↔
      (x < p.nodes.length ∧ (nth p.nodes x).total_float = 0)) ∧
    (collect_critical_path_nodes p).critical_path_nodes.Pairwise (CPOrd p.nodes) := by
  have hbase : ((List.range p.nodes.length).foldl
      (fun acc i => if (nth p.nodes i).total_float = 0 then acc ++ [i] else acc) [])
      = (List.range p.nodes.length).filter
        (fun i => decide ((nth p.nodes i).total_float = 0)) := by
    rw [foldl_filter_append (fun i => (nth p.nodes i).total_float = 0)]
    simp
  have hpair : ((List.range p.nodes.length).filter
      (fun i => decide ((nth p.nodes i).total_float = 0))).Pairwise
        (fun a b => a < b) :=
    List.Pairwise.sublist (List.filter_sublist _) (List.pairwise_lt_range _)
  obtain ⟨s1, s2⟩ := sort_fold_spec p.nodes
    ((List.range p.nodes.length).filter (fun i => decide ((nth p.nodes i).total_float = 0)))
    [] hpair (by simp) (by simp)
  refine ⟨rfl, rfl, rfl, rfl, rfl, ?_, ?_⟩
  · intro x
    show x ∈ sort_by_level p.nodes _ ↔ _
    unfold sort_by_level
    rw [hbase, s1 x]
    simp only [List.mem_filter, List.mem_range, List.not_mem_nil, false_or]
    constructor
    · intro h
      exact ⟨h.1, of_decide_eq_true h.2⟩
    · intro h
      exact ⟨h.1, decide_eq_true h.2⟩
  · show (sort_by_level p.nodes _).Pairwise (CPOrd p.nodes)
    unfold sort_by_level
    rw [hbase]
    exact s2

/- The forward pass writes only the two early-time fields; every other
mutable field survives it.  This is recorded pointwise by LateEq and is
needed to carry the level precondition of the levels phase across the
earlier phases. -/

structure LateEq (a b : Node) : Prop where
  ffs : a.free_float = b.free_float
  tfs : a.total_float = b.total_float
  lss : a.late_start_time = b.late_start_time
  lfs : a.late_finish_time = b.late_finish_time
  levels : a.level = b.level

theorem lateEq_refl (a : Node) : LateEq a a := ⟨rfl, rfl, rfl, rfl, rfl⟩

theorem lateEq_trans {a b c : Node} (h1 : LateEq a b) (h2 : LateEq b c) :
    LateEq a c :=
  ⟨h1.ffs.trans h2.ffs, h1.tfs.trans h2.tfs, h1.lss.trans h2.lss,
   h1.lfs.trans h2.lfs, h1.levels.trans h2.levels⟩

theorem lateEq_modify (ns : List Node) (p : Nat) (f : Node → Node)
    (hf : ∀ n, LateEq n (f n)) (j : Nat) :
    LateEq (nth ns j) (nth (modifyIdx ns p f) j) := by
  by_cases hjp : j = p
  · subst hjp
    by_cases hl : j < ns.length
    · rw [nth_modifyIdx_self ns j f hl]; exact hf _
    · rw [modifyIdx_oob ns j f (by omega)]; exact lateEq_refl _
  · rw [nth_modifyIdx_ne ns p j f hjp]; exact lateEq_refl _

theorem lateEq_foldl (g : List Node → Nat → List Node) (l : List Nat)
    (hg : ∀ ms x j, LateEq (nth ms j) (nth (g ms x) j)) :
    ∀ (ns : List Node) (j : Nat), LateEq (nth ns j) (nth (l.foldl g ns) j) := by
  induction l with
  | nil => intro ns j; exact lateEq_refl _
  | cons a t ih =>
    intro ns j
    exact lateEq_trans (hg ns a j) (ih (g ns a) j)

theorem lateEq_fwd_parents_loop (ps : List Nat) : ∀ (ns : List Node) (m : Int) (j : Nat),
    LateEq (nth ns j) (nth (fwd_parents_loop ns ps m).1 j) := by
  induction ps with
  | nil => intro ns m j; exact lateEq_refl _
  | cons p t ih =>
    intro ns m j
    exact lateEq_trans
      (lateEq_modify ns p _ (by exact fun n => ⟨rfl, rfl, rfl, rfl, rfl⟩) j)
      (ih _ _ j)

theorem lateEq_fwd_root (ns : List Node) (i : Nat) (j : Nat) :
    LateEq (nth ns j) (nth (fwd_root ns i) j) := by
  simp only [fwd_root]
  split
  · exact lateEq_trans
      (lateEq_modify ns i _ (by exact fun n => ⟨rfl, rfl, rfl, rfl, rfl⟩) j)
      (lateEq_modify _ i _ (by exact fun n => ⟨rfl, rfl, rfl, rfl, rfl⟩) j)
  · refine lateEq_trans
      (lateEq_modify ns i _ (by exact fun n => ⟨rfl, rfl, rfl, rfl, rfl⟩) j)
      (lateEq_trans
        (lateEq_modify _ i _ (by exact fun n => ⟨rfl, rfl, rfl, rfl, rfl⟩) j)
        (lateEq_trans (lateEq_fwd_parents_loop _ _ _ j)
          (lateEq_trans
            (lateEq_modify _ i _ (by exact fun n => ⟨rfl, rfl, rfl, rfl, rfl⟩) j)
            (lateEq_modify _ i _ (by exact fun n => ⟨rfl, rfl, rfl, rfl, rfl⟩) j))))

theorem lateEq_cffn (fuel : Nat) : ∀ (ns : List Node) (i : Nat) (j : Nat),
    LateEq (nth ns j) (nth (calculate_forward_from_node fuel ns i) j) := by
  induction fuel with
  | zero => intro ns i j; exact lateEq_refl _
  | succ fuel ih =>
    intro ns i j
    simp only [calculate_forward_from_node]
    split
    · exact lateEq_fwd_root ns i j
    · exact lateEq_trans (lateEq_fwd_root ns i j)
        (lateEq_foldl _ _ (fun ms x k => ih ms x k) _ j)

theorem lateEq_calculate_forward (ns : List Node) (j : Nat) :
    LateEq (nth ns j) (nth (calculate_forward ns) j) :=
  lateEq_foldl _ _ (fun ms x k => lateEq_cffn ms.length ms x k) ns j

/- Transport of the phase relations across the later phases, which leave
every field the relations mention untouched. -/

theorem fwdRel_sameExceptFloat {ns ns' : List Node}
    (hs : ∀ j, SameExceptFloat (nth ns j) (nth ns' j)) (j : Nat)
    (h : FwdRel ns j) : FwdRel ns' j :=
  fwdRel_congr j (hs j).ess.symm (hs j).efs.symm (hs j).prevs.symm
    (hs j).durations.symm (fun q _ => (hs q).efs.symm) h

theorem fwdRel_sameExceptLevel {ns ns' : List Node}
    (hs : ∀ j, SameExceptLevel (nth ns j) (nth ns' j)) (j : Nat)
    (h : FwdRel ns j) : FwdRel ns' j :=
  fwdRel_congr j (hs j).ess.symm (hs j).efs.symm (hs j).prevs.symm
    (hs j).durations.symm (fun q _ => (hs q).efs.symm) h

theorem bwdRel_sameExceptFloat {ns ns' : List Node}
    (hs : ∀ j, SameExceptFloat (nth ns j) (nth ns' j)) (j : Nat)
    (h : BwdRel ns j) : BwdRel ns' j :=
  bwdRel_congr j (hs j).nexts.symm (hs j).lfs.symm (hs j).lss.symm
    (hs j).efs.symm (hs j).durations.symm (fun c _ => (hs c).lss.symm) h

theorem bwdRel_sameExceptLevel {ns ns' : List Node}
    (hs : ∀ j, SameExceptLevel (nth ns j) (nth ns' j)) (j : Nat)
    (h : BwdRel ns j) : BwdRel ns' j :=
  bwdRel_congr j (hs j).nexts.symm (hs j).lfs.symm (hs j).lss.symm
    (hs j).efs.symm (hs j).durations.symm (fun c _ => (hs c).lss.symm) h

theorem bufRel_sameExceptLevel {ns ns' : List Node}
    (hs : ∀ j, SameExceptLevel (nth ns j) (nth ns' j)) (j : Nat)
    (h : BufRel ns j) : BufRel ns' j := by
  obtain ⟨h1, h2, h3⟩ := h
  refine ⟨by rw [← (hs j).tfs, ← (hs j).lss, ← (hs j).ess]; exact h1, ?_, ?_⟩
  · intro hn
    rw [← (hs j).nexts] at hn
    rw [← (hs j).ffs]
    exact h2 hn
  · intro c t hct
    rw [← (hs j).nexts] at hct
    rw [← (hs j).ffs, ← (hs j).nexts, ← (hs j).efs, ← (hs c).ess, h3 c t hct]
    have : minES ns' ((nth ns j).next) ((nth ns c).early_start_time)
        = minES ns ((nth ns j).next) ((nth ns c).early_start_time) :=
      foldMin_congr _ _ _ _ (fun q _ => ((hs q).ess).symm)
    rw [this]

theorem collect_critical_cpn (p : Plan) :
    (collect_critical_path_nodes p).critical_path_nodes
      = sort_by_level p.nodes ((List.range p.nodes.length).filter
          (fun i => decide ((nth p.nodes i).total_float = 0))) := by
  show sort_by_level p.nodes _ = _
  rw [foldl_filter_append (fun i => (nth p.nodes i).total_float = 0), List.nil_append]

/- Assembly: the effect of Plan.build on a plan whose nodes are well
formed, whose sources carry zero early start and whose levels do not
exceed the specification levels (which add_node guarantees with value 0,
and which a previous build leaves in place with the exact value). -/

theorem build_spec (p : Plan) (hwf : WF p.nodes) (hsz : SourcesZero p.nodes)
    (hle : ∀ j, j < p.nodes.length → (nth p.nodes j).level ≤ (specLevel p.nodes j : Int))
    (hmx : 0 ≤ p.max_node_level) :
    StaticEq p.nodes (build p).nodes ∧
    (∀ i, i < p.nodes.length → FwdRel (build p).nodes i) ∧
    (∀ i, i < p.nodes.length → BwdRel (build p).nodes i) ∧
    (∀ i, i < p.nodes.length → BufRel (build p).nodes i) ∧
    (∀ i, i < p.nodes.length →
      (nth (build p).nodes i).level = (specLevel p.nodes i : Int)) ∧
    (build p).max_node_level = max p.max_node_level (specMaxI p.nodes) ∧
    (build p).node_id = p.node_id ∧
    (build p).critical_path_nodes = sort_by_level (build p).nodes
      ((List.range p.nodes.length).filter
        (fun i => decide ((nth (build p).nodes i).total_float = 0))) ∧
    (∀ x, x ∈ (build p).critical_path_nodes ↔
      (x < p.nodes.length ∧ (nth (build p).nodes x).total_float = 0)) ∧
    (build p).critical_path_nodes.Pairwise (CPOrd (build p).nodes) ∧
    (∀ L, dictGet (build p).level_nodes L []
      = dictGet p.level_nodes L []
        ++ (List.range p.nodes.length).filter
          (fun i => (nth (build p).nodes i).level == L)) ∧
    (∀ L, dictGet (build p).nodes_per_level L 0
      = dictGet p.nodes_per_level L 0
        + ((List.range p.nodes.length).filter
          (fun i => (nth (build p).nodes i).level == L)).length) := by
  have hb : build p = collect_critical_path_nodes (collect_level_nodes
      { p with
        nodes := (calculate_node_levels
          (calculate_buffers (calculate_backward (calculate_forward p.nodes)))
          p.max_node_level).1,
        max_node_level := (calculate_node_levels
          (calculate_buffers (calculate_backward (calculate_forward p.nodes)))
          p.max_node_level).2 }) := rfl
  obtain ⟨hstF, hF, hszF⟩ := calculate_forward_spec p.nodes hwf hsz
  set n1 := calculate_forward p.nodes with hn1
  have hwf1 : WF n1 := wf_staticEq hstF hwf
  obtain ⟨hsB, hB⟩ := calculate_backward_spec n1 hwf1
  have hstB : StaticEq n1 (calculate_backward n1) := staticEq_calculate_backward n1
  set n2 := calculate_backward n1 with hn2
  have hwf2 : WF n2 := wf_staticEq hstB hwf1
  obtain ⟨hsU, hU⟩ := calculate_buffers_spec n2 hwf2
  have hstU : StaticEq n2 (calculate_buffers n2) := staticEq_calculate_buffers n2
  set n3 := calculate_buffers n2 with hn3
  have hwf3 : WF n3 := wf_staticEq hstU hwf2
  have hst03 : StaticEq p.nodes n3 := staticEq_trans hstF (staticEq_trans hstB hstU)
  have hlvl03 : ∀ j, (nth n3 j).level = (nth p.nodes j).level := by
    intro j
    rw [← (hsU j).levels, ← (hsB j).levels, ← (lateEq_calculate_forward p.nodes j).levels]
  have hle3 : ∀ j, j < n3.length → (nth n3 j).level ≤ (specLevel n3 j : Int) := by
    intro j hj
    have hj0 : j < p.nodes.length := by rw [hst03.len]; exact hj
    rw [hlvl03 j, ← specLevel_congr hst03 j]
    exact hle j hj0
  obtain ⟨hsL, hlenL, hlvlL, hmxL⟩ :=
    calculate_node_levels_spec n3 p.max_node_level hwf3 hle3 hmx
  set n4 := (calculate_node_levels n3 p.max_node_level).1 with hn4
  set mx4 := (calculate_node_levels n3 p.max_node_level).2 with hmx4
  have hst04 : StaticEq p.nodes n4 :=
    staticEq_trans hst03 (staticEq_calculate_node_levels n3 p.max_node_level)
  have hlen40 : n4.length = p.nodes.length := by rw [hst04.len]
  have hFwd4 : ∀ i, i < p.nodes.length → FwdRel n4 i := by
    intro i hi
    exact fwdRel_sameExceptLevel hsL i
      (fwdRel_sameExceptFloat hsU i (fwdRel_sameExceptLate hsB i (hF i hi)))
  have hBwd4 : ∀ i, i < p.nodes.length → BwdRel n4 i := by
    intro i hi
    have hi1 : i < n1.length := by rw [← hstF.len]; exact hi
    exact bwdRel_sameExceptLevel hsL i (bwdRel_sameExceptFloat hsU i (hB i hi1))
  have hBuf4 : ∀ i, i < p.nodes.length → BufRel n4 i := by
    intro i hi
    have hi2 : i < n2.length := by
      rw [← hstB.len, ← hstF.len]; exact hi
    exact bufRel_sameExceptLevel hsL i (hU i hi2)
  have hLvl4 : ∀ i, i < p.nodes.length →
      (nth n4 i).level = (specLevel p.nodes i : Int) := by
    intro i hi
    have hi3 : i < n3.length := by rw [← hst03.len]; exact hi
    rw [hlvlL i hi3, ← specLevel_congr hst03 i]
  have hmx4v : mx4 = max p.max_node_level (specMaxI p.nodes) := by
    rw [hmxL, specMaxI_congr hst03]
  rw [hb]
  set q4 : Plan := { p with nodes := n4, max_node_level := mx4 } with hq4
  have hq4n : q4.nodes = n4 := rfl
  obtain ⟨⟨c1, c2, c3, c4⟩, c5, c6⟩ :=
    collect_fold_spec (List.range q4.nodes.length) q4
  have hq5 : collect_level_nodes q4 = (List.range q4.nodes.length).foldl collect_step q4 :=
    collect_level_nodes_eq q4
  set q5 := collect_level_nodes q4 with hq5d
  rw [hq5] at *
  obtain ⟨d1, d2, d3, d4, d5, d6, d7⟩ :=
    collect_critical_spec ((List.range q4.nodes.length).foldl collect_step q4)
  have hrange : List.range ((List.range q4.nodes.length).foldl collect_step q4).nodes.length
      = List.range p.nodes.length := by
    rw [c1, hq4n, hlen40]
  have hn5 : ((List.range q4.nodes.length).foldl collect_step q4).nodes = n4 := by
    rw [c1, hq4n]
  have hrange4 : List.range q4.nodes.length = List.range p.nodes.length := by
    rw [hq4n, hlen40]
  refine ⟨?_, ?_, ?_, ?_, ?_, ?_, ?_, ?_, ?_, ?_, ?_, ?_⟩
  · rw [d1, hn5]; exact hst04
  · intro i hi; rw [d1, hn5]; exact hFwd4 i hi
  · intro i hi; rw [d1, hn5]; exact hBwd4 i hi
  · intro i hi; rw [d1, hn5]; exact hBuf4 i hi
  · intro i hi; rw [d1, hn5]; exact hLvl4 i hi
  · rw [d3, c4]; exact hmx4v
  · rw [d2, c3]
  · rw [collect_critical_cpn, d1, hn5, hlen40]
  · intro x
    rw [d6 x, hn5, d1, hn5]
    constructor
    · intro h
      exact ⟨by rw [← hlen40]; exact h.1, h.2⟩
    · intro h
      exact ⟨by rw [hlen40]; exact h.1, h.2⟩
  · rw [d1, hn5]
    have := d7
    rw [hn5] at this
    exact this
  · intro L
    rw [d4, c5 L, d1, hn5, hq4n, hlen40]
  · intro L
    rw [d5, c6 L, d1, hn5, hq4n, hlen40]

/- Consequences of the phase relations: positivity of the early times,
the seed 0 of the parent maximum is never the winner for a non-source,
slack is non-negative, and the relations pin every scheduled field down
uniquely (used for the idempotence of build). -/

theorem es_nonneg (ns : List Node) (hwf : WF ns)
    (hF : ∀ i, i < ns.length → FwdRel ns i) (i : Nat) (hi : i < ns.length) :
    0 ≤ (nth ns i).early_start_time ∧ 0 < (nth ns i).early_finish_time := by
  obtain ⟨h1, h2⟩ := hF i hi
  have hes : 0 ≤ (nth ns i).early_start_time := by
    rw [h1]; exact foldMax_ge_seed _ _ 0
  have hdur := (hwf i hi).2.2.2.2
  exact ⟨hes, by omega⟩

theorem fwd_pure_max (ns : List Node) (hwf : WF ns)
    (hF : ∀ i, i < ns.length → FwdRel ns i) (i : Nat) (hi : i < ns.length)
    (c : Nat) (t : List Nat) (hct : (nth ns i).prev = c :: t) :
    (nth ns i).early_start_time
      = foldMax (fun p => (nth ns p).early_finish_time) (nth ns i).prev
        ((nth ns c).early_finish_time) := by
  have hcmem : c ∈ (nth ns i).prev := by rw [hct]; exact List.mem_cons_self c t
  have hcl : c < ns.length := lt_trans ((hwf i hi).1 c hcmem) hi
  have hcpos := (es_nonneg ns hwf hF c hcl).2
  rw [(hF i hi).1]
  show maxEF ns (nth ns i).prev 0 = _
  unfold maxEF
  rw [hct, foldMax_cons, foldMax_cons]
  congr 1
  omega

theorem es_le_ls (ns : List Node) (hwf : WF ns)
    (hF : ∀ i, i < ns.length → FwdRel ns i)
    (hBw : ∀ i, i < ns.length → BwdRel ns i) :
    ∀ k i, i < ns.length → ns.length ≤ i + k →
      (nth ns i).early_start_time ≤ (nth ns i).late_start_time ∧
      (nth ns i).early_finish_time ≤ (nth ns i).late_finish_time := by
  intro k
  induction k with
  | zero => intro i hi hk; omega
  | succ k ih =>
    intro i hi hk
    obtain ⟨hf1, hf2⟩ := hF i hi
    obtain ⟨hb1, hb2⟩ := hBw i hi
    have hdur := (hwf i hi).2.2.2.2
    rcases hnext : (nth ns i).next with _ | ⟨c, t⟩
    · obtain ⟨e1, e2⟩ := hb1 hnext
      constructor
      · rw [e2]; omega
      · rw [e1]
    · obtain ⟨e1, e2⟩ := hb2 c t hnext
      have hbound : ∀ x ∈ (nth ns i).next,
          (nth ns i).early_finish_time ≤ (nth ns x).late_start_time := by
        intro x hx
        have hxi : i < x := ((hwf i hi).2.1 x hx).1
        have hxl : x < ns.length := ((hwf i hi).2.1 x hx).2
        have hmut : i ∈ (nth ns x).prev := (hwf i hi).2.2.2.1 x hx
        have hesx : (nth ns i).early_finish_time ≤ (nth ns x).early_start_time := by
          rw [(hF x hxl).1]
          exact foldMax_ge_mem _ _ 0 i hmut
        have := (ih x hxl (by omega)).1
        omega
      have hlf : (nth ns i).early_finish_time ≤ (nth ns i).late_finish_time := by
        rw [e1]
        refine foldMin_ge _ _ _ _ ?_ ?_
        · exact hbound c (by rw [hnext]; exact List.mem_cons_self c t)
        · exact hbound
      refine ⟨?_, hlf⟩
      rw [e2]
      omega

theorem tf_nonneg (ns : List Node) (hwf : WF ns)
    (hF : ∀ i, i < ns.length → FwdRel ns i)
    (hBw : ∀ i, i < ns.length → BwdRel ns i)
    (hBu : ∀ i, i < ns.length → BufRel ns i) :
    ∀ i, i < ns.length → 0 ≤ (nth ns i).total_float := by
  intro i hi
  have h1 := (es_le_ls ns hwf hF hBw ns.length i hi (by omega)).1
  rw [(hBu i hi).1]
  omega

theorem node_ext (a b : Node) (h1 : a.id = b.id) (h2 : a.name = b.name)
    (h3 : a.duration = b.duration) (h4 : a.prev = b.prev) (h5 : a.next = b.next)
    (h6 : a.free_float = b.free_float) (h7 : a.total_float = b.total_float)
    (h8 : a.early_start_time = b.early_start_time)
    (h9 : a.early_finish_time = b.early_finish_time)
    (h10 : a.late_start_time = b.late_start_time)
    (h11 : a.late_finish_time = b.late_finish_time)
    (h12 : a.level = b.level) : a = b := by
  cases a
  cases b
  simp_all

theorem early_unique {ns ms : List Node} (hst : StaticEq ns ms) (hwf : WF ns)
    (h1 : ∀ i, i < ns.length → FwdRel ns i)
    (h2 : ∀ i, i < ms.length → FwdRel ms i) :
    ∀ i, i < ns.length →
      (nth ns i).early_start_time = (nth ms i).early_start_time ∧
      (nth ns i).early_finish_time = (nth ms i).early_finish_time := by
  intro i
  induction i using Nat.strong_induction_on with
  | _ i ih =>
    intro hi
    have hi2 : i < ms.length := by rw [← hst.len]; exact hi
    have hes : (nth ns i).early_start_time = (nth ms i).early_start_time := by
      rw [(h1 i hi).1, (h2 i hi2).1]
      show maxEF ns (nth ns i).prev 0 = maxEF ms (nth ms i).prev 0
      rw [hst.prev_eq i]
      refine foldMax_congr _ _ _ _ ?_
      intro q hq
      have hqi : q < i := (hwf i hi).1 q hq
      exact (ih q hqi (by omega)).2
    refine ⟨hes, ?_⟩
    rw [(h1 i hi).2, (h2 i hi2).2, hes, hst.duration_eq i]

theorem late_unique {ns ms : List Node} (hst : StaticEq ns ms) (hwf : WF ns)
    (hef : ∀ i, i < ns.length →
      (nth ns i).early_finish_time = (nth ms i).early_finish_time)
    (h1 : ∀ i, i < ns.length → BwdRel ns i)
    (h2 : ∀ i, i < ms.length → BwdRel ms i) :
    ∀ k i, i < ns.length → ns.length ≤ i + k →
      (nth ns i).late_start_time = (nth ms i).late_start_time ∧
      (nth ns i).late_finish_time = (nth ms i).late_finish_time := by
  intro k
  induction k with
  | zero => intro i hi hk; omega
  | succ k ih =>
    intro i hi hk
    have hi2 : i < ms.length := by rw [← hst.len]; exact hi
    obtain ⟨ha1, ha2⟩ := h1 i hi
    obtain ⟨hb1, hb2⟩ := h2 i hi2
    rcases hnext : (nth ns i).next with _ | ⟨c, t⟩
    · have hnext2 : (nth ms i).next = [] := by rw [hst.next_eq i]; exact hnext
      obtain ⟨e1, e2⟩ := ha1 hnext
      obtain ⟨f1, f2⟩ := hb1 hnext2
      refine ⟨?_, ?_⟩
      · rw [e2, f2, hef i hi, hst.duration_eq i]
      · rw [e1, f1, hef i hi]
    · have hnext2 : (nth ms i).next = c :: t := by rw [hst.next_eq i]; exact hnext
      obtain ⟨e1, e2⟩ := ha2 c t hnext
      obtain ⟨f1, f2⟩ := hb2 c t hnext2
      have hchild : ∀ x ∈ (nth ns i).next,
          (nth ns x).late_start_time = (nth ms x).late_start_time := by
        intro x hx
        have hxi : i < x := ((hwf i hi).2.1 x hx).1
        have hxl : x < ns.length := ((hwf i hi).2.1 x hx).2
        exact (ih x hxl (by omega)).1
      have hlf : (nth ns i).late_finish_time = (nth ms i).late_finish_time := by
        rw [e1, f1]
        show minLS ns (nth ns i).next ((nth ns c).late_start_time)
          = minLS ms (nth ms i).next ((nth ms c).late_start_time)
        rw [hst.next_eq i,
          ← hchild c (by rw [hnext]; exact List.mem_cons_self c t)]
        exact foldMin_congr _ _ _ _ (fun q hq => hchild q hq)
      refine ⟨?_, hlf⟩
      rw [e2, f2, hlf, hst.duration_eq i]

theorem float_unique {ns ms : List Node} (hst : StaticEq ns ms) (hwf : WF ns)
    (hes : ∀ i, i < ns.length →
      (nth ns i).early_start_time = (nth ms i).early_start_time)
    (hef : ∀ i, i < ns.length →
      (nth ns i).early_finish_time = (nth ms i).early_finish_time)
    (hls : ∀ i, i < ns.length →
      (nth ns i).late_start_time = (nth ms i).late_start_time)
    (h1 : ∀ i, i < ns.length → BufRel ns i)
    (h2 : ∀ i, i < ms.length → BufRel ms i) :
    ∀ i, i < ns.length →
      (nth ns i).total_float = (nth ms i).total_float ∧
      (nth ns i).free_float = (nth ms i).free_float := by
  intro i hi
  have hi2 : i < ms.length := by rw [← hst.len]; exact hi
  obtain ⟨ha1, ha2, ha3⟩ := h1 i hi
  obtain ⟨hb1, hb2, hb3⟩ := h2 i hi2
  refine ⟨?_, ?_⟩
  · rw [ha1, hb1, hes i hi, hls i hi]
  · rcases hnext : (nth ns i).next with _ | ⟨c, t⟩
    · have hnext2 : (nth ms i).next = [] := by rw [hst.next_eq i]; exact hnext
      rw [ha2 hnext, hb2 hnext2]
    · have hnext2 : (nth ms i).next = c :: t := by rw [hst.next_eq i]; exact hnext
      rw [ha3 c t hnext, hb3 c t hnext2]
      have hchild : ∀ x ∈ (nth ns i).next,
          (nth ns x).early_start_time = (nth ms x).early_start_time := by
        intro x hx
        have hxl : x < ns.length := ((hwf i hi).2.1 x hx).2
        exact hes x hxl
      rw [hef i hi]
      have : minES ns (nth ns i).next ((nth ns c).early_start_time)
          = minES ms (nth ms i).next ((nth ms c).early_start_time) := by
        rw [hst.next_eq i,
          ← hchild c (by rw [hnext]; exact List.mem_cons_self c t)]
        exact foldMin_congr _ _ _ _ (fun q hq => hchild q hq)
      rw [this]

/- Construction never touches the level dictionaries, the critical path
list or the maximum level. -/

theorem add_rows_fields (rows : List (String × Int × List String)) :
    ∀ q p : Plan, add_rows q rows = .ok p →
      p.level_nodes = q.level_nodes ∧ p.nodes_per_level = q.nodes_per_level ∧
      p.critical_path_nodes = q.critical_path_nodes ∧
      p.max_node_level = q.max_node_level := by
  induction rows with
  | nil =>
    intro q p h
    have : q = p := by simpa [add_rows] using h
    rw [← this]
    exact ⟨rfl, rfl, rfl, rfl⟩
  | cons r rest ih =>
    intro q p h
    simp only [add_rows] at h
    split at h
    · rename_i p1 hadd
      obtain ⟨-, -, -, -, -, -, e7, -, e9, e10, e11⟩ :=
        (add_node_ok q r.1 r.2.1 r.2.2 p1 hadd).choose_spec
      obtain ⟨f1, f2, f3, f4⟩ := ih p1 p h
      exact ⟨f1.trans e9, f2.trans e10, f3.trans e11, f4.trans e7⟩
    · exact absurd h (by simp)

theorem wf_first_source (ns : List Node) (hwf : WF ns) (hne : ns ≠ []) :
    (nth ns 0).prev = [] := by
  have h0 : 0 < ns.length := List.length_pos.mpr hne
  refine List.eq_nil_iff_forall_not_mem.mpr (fun q hq => ?_)
  exact absurd ((hwf 0 h0).1 q hq) (Nat.not_lt_zero q)

/- Idempotence of build up to the two level dictionaries, which the
second run extends instead of rebuilding. -/

theorem build_idem (p : Plan) (hwf : WF p.nodes) (hsz : SourcesZero p.nodes)
    (hle : ∀ j, j < p.nodes.length → (nth p.nodes j).level ≤ (specLevel p.nodes j : Int))
    (hmx : 0 ≤ p.max_node_level) :
    (build (build p)).nodes = (build p).nodes ∧
    (build (build p)).max_node_level = (build p).max_node_level ∧
    (build (build p)).critical_path_nodes = (build p).critical_path_nodes ∧
    (build (build p)).node_id = (build p).node_id ∧
    (∀ L, dictGet (build (build p)).level_nodes L []
      = dictGet (build p).level_nodes L []
        ++ (List.range (build p).nodes.length).filter
          (fun i => (nth (build p).nodes i).level == L)) ∧
    (∀ L, dictGet (build (build p)).nodes_per_level L 0
      = dictGet (build p).nodes_per_level L 0
        + ((List.range (build p).nodes.length).filter
          (fun i => (nth (build p).nodes i).level == L)).length) := by
  obtain ⟨a1, a2, a3, a4, a5, a6, a7, a8, a9, a10, a11, a12⟩ :=
    build_spec p hwf hsz hle hmx
  have hlen1 : (build p).nodes.length = p.nodes.length := a1.len.symm
  have hwfb : WF (build p).nodes := wf_staticEq a1 hwf
  have hszb : SourcesZero (build p).nodes := by
    intro j hj hprev
    have hj0 : j < p.nodes.length := by rw [← hlen1]; exact hj
    rw [(a2 j hj0).1, hprev]
    rfl
  have hleb : ∀ j, j < (build p).nodes.length →
      (nth (build p).nodes j).level ≤ (specLevel (build p).nodes j : Int) := by
    intro j hj
    have hj0 : j < p.nodes.length := by rw [← hlen1]; exact hj
    rw [a5 j hj0, specLevel_congr a1 j]
  have hmxb : 0 ≤ (build p).max_node_level := by
    rw [a6]
    exact le_trans hmx (le_max_left _ _)
  obtain ⟨b1, b2, b3, b4, b5, b6, b7, b8, b9, b10, b11, b12⟩ :=
    build_spec (build p) hwfb hszb hleb hmxb
  have hF1 : ∀ i, i < (build p).nodes.length → FwdRel (build p).nodes i := by
    intro i hi
    exact a2 i (by rw [← hlen1]; exact hi)
  have hB1 : ∀ i, i < (build p).nodes.length → BwdRel (build p).nodes i := by
    intro i hi
    exact a3 i (by rw [← hlen1]; exact hi)
  have hU1 : ∀ i, i < (build p).nodes.length → BufRel (build p).nodes i := by
    intro i hi
    exact a4 i (by rw [← hlen1]; exact hi)
  have hF2 : ∀ i, i < (build (build p)).nodes.length → FwdRel (build (build p)).nodes i := by
    intro i hi
    exact b2 i (by rw [b1.len]; exact hi)
  have hB2 : ∀ i, i < (build (build p)).nodes.length → BwdRel (build (build p)).nodes i := by
    intro i hi
    exact b3 i (by rw [b1.len]; exact hi)
  have hU2 : ∀ i, i < (build (build p)).nodes.length → BufRel (build (build p)).nodes i := by
    intro i hi
    exact b4 i (by rw [b1.len]; exact hi)
  have hearly := early_unique b1 hwfb hF1 hF2
  have hlate := late_unique b1 hwfb (fun i hi => (hearly i hi).2) hB1 hB2
    (build p).nodes.length
  have hfloat := float_unique b1 hwfb (fun i hi => (hearly i hi).1)
    (fun i hi => (hearly i hi).2)
    (fun i hi => (hlate i hi (by omega)).1) hU1 hU2
  have hnodes : (build (build p)).nodes = (build p).nodes := by
    refine (list_node_ext _ _ b1.len (fun i hi => ?_)).symm
    have hi0 : i < p.nodes.length := by rw [← hlen1]; exact hi
    refine node_ext _ _ (b1.id_eq i).symm (b1.name_eq i).symm
      (b1.duration_eq i).symm (b1.prev_eq i).symm (b1.next_eq i).symm
      (hfloat i hi).2 (hfloat i hi).1 (hearly i hi).1 (hearly i hi).2
      (hlate i hi (by omega)).1 (hlate i hi (by omega)).2 ?_
    rw [b5 i hi, a5 i hi0, specLevel_congr a1 i]
  refine ⟨hnodes, ?_, ?_, b7, fun L => ?_, fun L => ?_⟩
  · rw [b6, a6, specMaxI_congr a1]
    exact max_eq_left (le_max_right _ _)
  · rw [b8, a8, hnodes, hlen1]
  · have := b11 L
    rw [hnodes] at this
    exact this
  · have := b12 L
    rw [hnodes] at this
    exact this

/- Support for the unknown-predecessor behaviour: find_node only reads
names, and the loop of _create_node only rewrites next lists, so a name
that is absent when add_node is called is still absent at the moment the
loop reaches it and Python dereferences None. -/

theorem name_modifyIdx (ns : List Node) (p : Nat) (f : Node → Node)
    (hf : ∀ n, (f n).name = n.name) (i : Nat) :
    (nth (modifyIdx ns p f) i).name = (nth ns i).name := by
  by_cases hip : i = p
  · subst hip
    by_cases hl : i < ns.length
    · rw [nth_modifyIdx_self ns i f hl]; exact hf _
    · rw [modifyIdx_oob ns i f (by omega)]
  · rw [nth_modifyIdx_ne ns p i f hip]

theorem find_node_from_congr (ns : List Node) : ∀ (ms : List Node),
    ns.length = ms.length →
    (∀ i, i < ns.length → (nth ns i).name = (nth ms i).name) →
    ∀ (nm : String) (k : Nat), find_node_from ns nm k = find_node_from ms nm k := by
  induction ns with
  | nil =>
    intro ms hlen _ nm k
    cases ms with
    | nil => rfl
    | cons b m => exact absurd hlen (by simp)
  | cons a l ih =>
    intro ms hlen hnm nm k
    cases ms with
    | nil => exact absurd hlen (by simp)
    | cons b m =>
      have h0 : a.name = b.name := hnm 0 (by simp)
      simp only [find_node_from]
      rw [h0]
      split
      · rfl
      · exact ih m (by simpa using hlen)
          (fun i hi => hnm (i + 1) (by simpa using hi)) nm (k + 1)

theorem find_node_congr (ns ms : List Node) (hlen : ns.length = ms.length)
    (hnm : ∀ i, i < ns.length → (nth ns i).name = (nth ms i).name) (nm : String) :
    find_node ns nm = find_node ms nm :=
  find_node_from_congr ns ms hlen hnm nm 0

theorem create_node_loop_err (pre : List String) : ∀ (ns : List Node)
    (newIdx : Nat) (acc : List Nat),
    (∃ nm ∈ pre, find_node ns nm = none) →
    ∃ ns', create_node_loop pre ns newIdx acc = .error (.attributeError, ns') ∧
      ns'.length = ns.length ∧
      (∀ i, i < ns.length → (nth ns' i).name = (nth ns i).name) := by
  induction pre with
  | nil =>
    intro ns newIdx acc h
    rcases h with ⟨nm, hm, -⟩
    exact absurd hm (List.not_mem_nil nm)
  | cons nm rest ih =>
    intro ns newIdx acc h
    rcases hf : find_node ns nm with - | p
    · refine ⟨ns, ?_, rfl, fun i hi => rfl⟩
      simp only [create_node_loop, hf]
    · rcases h with ⟨nm2, hm2, hnone⟩
      have hm2r : nm2 ∈ rest := by
        rcases List.mem_cons.mp hm2 with he | hr
        · subst he
          rw [hf] at hnone
          cases hnone
        · exact hr
      have hlen2 : (modifyIdx ns p
          (fun n => { n with next := n.next ++ [newIdx] })).length = ns.length :=
        length_modifyIdx ns p _
      have hnm2 : ∀ i, i < (modifyIdx ns p
          (fun n => { n with next := n.next ++ [newIdx] })).length →
          (nth (modifyIdx ns p (fun n => { n with next := n.next ++ [newIdx] })) i).name
            = (nth ns i).name := by
        intro i hi
        exact name_modifyIdx ns p
          (fun n => { n with next := n.next ++ [newIdx] }) (fun n => rfl) i
      have hfind2 : find_node (modifyIdx ns p
          (fun n => { n with next := n.next ++ [newIdx] })) nm2 = none := by
        rw [find_node_congr _ ns hlen2 hnm2 nm2]
        exact hnone
      obtain ⟨ns', e1, e2, e3⟩ := ih (modifyIdx ns p
        (fun n => { n with next := n.next ++ [newIdx] })) newIdx (acc ++ [p])
        ⟨nm2, hm2r, hfind2⟩
      refine ⟨ns', ?_, e2.trans hlen2, fun i hi => ?_⟩
      · simp only [create_node_loop, hf]
        exact e1
      · rw [e3 i (by omega), hnm2 i (by omega)]

/- The preconditions of build_spec hold for every plan produced by a run
of successful add_node calls from the empty plan. -/

theorem built_pre (rows : List (String × Int × List String)) (p : Plan)
    (h : add_rows Plan.empty rows = .ok p) :
    WF p.nodes ∧ SourcesZero p.nodes ∧
    (∀ j, j < p.nodes.length → (nth p.nodes j).level ≤ (specLevel p.nodes j : Int)) ∧
    0 ≤ p.max_node_level := by
  obtain ⟨hwf, hzero, hmx⟩ := built_inv0 rows p h
  refine ⟨hwf, fun j hj _ => (hzero j hj).1, fun j hj => ?_, le_of_eq hmx.symm⟩
  rw [(hzero j hj).2]
  exact Int.natCast_nonneg _

/- Concrete inputs used to instantiate the claims: the one-task table and
the diamond A -> B, C -> D. -/

def rowsA : List (String × Int × List String) := [("A", 1, [])]

def planA : Plan :=
  { nodes := [
      { id := 1, name := "A", duration := 1, prev := [], next := [],
        free_float := 0, total_float := 0, early_start_time := 0,
        early_finish_time := 0, late_start_time := 0, late_finish_time := 0,
        level := 0 }],
    critical_path_nodes := [], node_id := 1, nodes_per_level := [],
    level_nodes := [], max_node_level := 0 }

def rowsB : List (String × Int × List String) :=
  [("A", 3, []), ("B", 2, ["A"]), ("C", 4, ["A"]), ("D", 1, ["B", "C"])]

def planB : Plan :=
  { nodes := [
      { id := 1, name := "A", duration := 3, prev := [], next := [1, 2],
        free_float := 0, total_float := 0, early_start_time := 0,
        early_finish_time := 0, late_start_time := 0, late_finish_time := 0,
        level := 0 },
      { id := 2, name := "B", duration := 2, prev := [0], next := [3],
        free_float := 0, total_float := 0, early_start_time := 0,
        early_finish_time := 0, late_start_time := 0, late_finish_time := 0,
        level := 0 },
      { id := 3, name := "C", duration := 4, prev := [0], next := [3],
        free_float := 0, total_float := 0, early_start_time := 0,
        early_finish_time := 0, late_start_time := 0, late_finish_time := 0,
        level := 0 },
      { id := 4, name := "D", duration := 1, prev := [1, 2], next := [],
        free_float := 0, total_float := 0, early_start_time := 0,
        early_finish_time := 0, late_start_time := 0, late_finish_time := 0,
        level := 0 }],
    critical_path_nodes := [], node_id := 4, nodes_per_level := [],
    level_nodes := [], max_node_level := 0 }

/-- C1: after build() on a successfully constructed plan, every task's
early start time is the maximum of its predecessors' early finish times
(0 when the task has no predecessors), and its early finish time is its
early start time plus its duration. -/
theorem C1_forward_pass (rows : List (String × Int × List String)) (p : Plan)
    (h : add_rows Plan.empty rows = .ok p) :
    ∀ i, i < (build p).nodes.length →
      ((nth (build p).nodes i).prev = [] →
        (nth (build p).nodes i).early_start_time = 0) ∧
      (∀ c t, (nth (build p).nodes i).prev = c :: t →
        (nth (build p).nodes i).early_start_time
          = foldMax (fun q => (nth (build p).nodes q).early_finish_time)
            ((nth (build p).nodes i).prev)
            ((nth (build p).nodes c).early_finish_time)) ∧
      (nth (build p).nodes i).early_finish_time
        = (nth (build p).nodes i).early_start_time
          + (nth (build p).nodes i).duration := by
  obtain ⟨hwf, hsz, hle, hmx⟩ := built_pre rows p h
  obtain ⟨a1, a2, -, -, -, -, -, -, -, -, -, -⟩ := build_spec p hwf hsz hle hmx
  have hwfb : WF (build p).nodes := wf_staticEq a1 hwf
  have hFb : ∀ i, i < (build p).nodes.length → FwdRel (build p).nodes i :=
    fun i hi => a2 i (by rw [a1.len]; exact hi)
  intro i hi
  refine ⟨?_, ?_, (hFb i hi).2⟩
  · intro hprev
    rw [(hFb i hi).1, hprev]
    rfl
  · intro c t hct
    exact fwd_pure_max (build p).nodes hwfb hFb i hi c t hct

theorem C1_witness :
    (nth (build planB).nodes 3).early_finish_time
      = (nth (build planB).nodes 3).early_start_time
        + (nth (build planB).nodes 3).duration :=
  (C1_forward_pass rowsB planB rfl 3 (by decide)).2.2

/-- C2: after build() on a successfully constructed plan, every task's
late finish time is the minimum of its successors' late start times, or
its own early finish time when it has no successors (sink anchoring),
and its late start time is its late finish time minus its duration. -/
theorem C2_backward_pass (rows : List (String × Int × List String)) (p : Plan)
    (h : add_rows Plan.empty rows = .ok p) :
    ∀ i, i < (build p).nodes.length →
      ((nth (build p).nodes i).next = [] →
        (nth (build p).nodes i).late_finish_time
          = (nth (build p).nodes i).early_finish_time ∧
        (nth (build p).nodes i).late_start_time
          = (nth (build p).nodes i).late_finish_time
            - (nth (build p).nodes i).duration) ∧
      (∀ c t, (nth (build p).nodes i).next = c :: t →
        (nth (build p).nodes i).late_finish_time
          = minLS (build p).nodes ((nth (build p).nodes i).next)
              ((nth (build p).nodes c).late_start_time) ∧
        (nth (build p).nodes i).late_start_time
          = (nth (build p).nodes i).late_finish_time
            - (nth (build p).nodes i).duration) := by
  obtain ⟨hwf, hsz, hle, hmx⟩ := built_pre rows p h
  obtain ⟨a1, -, a3, -, -, -, -, -, -, -, -, -⟩ := build_spec p hwf hsz hle hmx
  have hBb : ∀ i, i < (build p).nodes.length → BwdRel (build p).nodes i :=
    fun i hi => a3 i (by rw [a1.len]; exact hi)
  intro i hi
  constructor
  · intro hnext
    obtain ⟨e1, e2⟩ := (hBb i hi).1 hnext
    refine ⟨e1, ?_⟩
    rw [e1, e2]
  · intro c t hct
    exact (hBb i hi).2 c t hct

theorem C2_witness :
    (nth (build planB).nodes 3).late_finish_time
      = (nth (build planB).nodes 3).early_finish_time :=
  (((C2_backward_pass rowsB planB rfl) 3 (by decide)).1 (by decide)).1

/-- C3: after build(), a task index is on the extracted critical path
exactly when its total float is zero, and the sequence is ordered by
level ascending with ties in original insertion (index) order. -/
theorem C3_critical_path (rows : List (String × Int × List String)) (p : Plan)
    (h : add_rows Plan.empty rows = .ok p) :
    (∀ x, x ∈ (build p).critical_path_nodes ↔
      (x < (build p).nodes.length ∧ (nth (build p).nodes x).total_float = 0)) ∧
    (build p).critical_path_nodes.Pairwise (CPOrd (build p).nodes) := by
  obtain ⟨hwf, hsz, hle, hmx⟩ := built_pre rows p h
  obtain ⟨a1, -, -, -, -, -, -, -, a9, a10, -, -⟩ := build_spec p hwf hsz hle hmx
  refine ⟨fun x => ?_, a10⟩
  rw [a9 x, a1.len]

theorem C3_witness :
    1 ∈ (build planB).critical_path_nodes ↔
      (1 < (build planB).nodes.length ∧
        (nth (build planB).nodes 1).total_float = 0) :=
  (C3_critical_path rowsB planB rfl).1 1

/-- C4: after build() every task's level is the specification level, the
longest predecessor-chain length back to a source (attained by some
chain, and an upper bound for every chain), and every direct successor's
level is strictly greater. -/
theorem C4_levels (rows : List (String × Int × List String)) (p : Plan)
    (h : add_rows Plan.empty rows = .ok p) :
    ∀ i, i < (build p).nodes.length →
      (nth (build p).nodes i).level = (specLevel (build p).nodes i : Int) ∧
      PrevChain (build p).nodes i (specLevel (build p).nodes i) ∧
      (∀ k, PrevChain (build p).nodes i k → k ≤ specLevel (build p).nodes i) ∧
      (∀ c ∈ (nth (build p).nodes i).next,
        (nth (build p).nodes i).level < (nth (build p).nodes c).level) := by
  obtain ⟨hwf, hsz, hle, hmx⟩ := built_pre rows p h
  obtain ⟨a1, -, -, -, a5, -, -, -, -, -, -, -⟩ := build_spec p hwf hsz hle hmx
  have hwfb : WF (build p).nodes := wf_staticEq a1 hwf
  have hlvl : ∀ j, j < (build p).nodes.length →
      (nth (build p).nodes j).level = (specLevel (build p).nodes j : Int) := by
    intro j hj
    rw [a5 j (by rw [a1.len]; exact hj), specLevel_congr a1 j]
  intro i hi
  refine ⟨hlvl i hi, prevChain_exists _ hwfb i hi,
    fun k hk => prevChain_le _ hwfb hk hi, ?_⟩
  intro c hc
  have hc1 : c < (build p).nodes.length := ((hwfb i hi).2.1 c hc).2
  have hedge := specLevel_edge (build p).nodes hwfb i c hi hc
  rw [hlvl i hi, hlvl c hc1]
  have : specLevel (build p).nodes i < specLevel (build p).nodes c := by omega
  exact_mod_cast this

theorem C4_witness :
    (nth (build planB).nodes 3).level = (specLevel (build planB).nodes 3 : Int) :=
  (C4_levels rowsB planB rfl 3 (by decide)).1

/-- C5: after build(), every task's total float is its late start minus
its early start, and its free float is the minimum early start of its
successors minus its own early finish, or 0 when it has no successors. -/
theorem C5_floats (rows : List (String × Int × List String)) (p : Plan)
    (h : add_rows Plan.empty rows = .ok p) :
    ∀ i, i < (build p).nodes.length →
      (nth (build p).nodes i).total_float
        = (nth (build p).nodes i).late_start_time
          - (nth (build p).nodes i).early_start_time ∧
      ((nth (build p).nodes i).next = [] →
        (nth (build p).nodes i).free_float = 0) ∧
      (∀ c t, (nth (build p).nodes i).next = c :: t →
        (nth (build p).nodes i).free_float
          = minES (build p).nodes ((nth (build p).nodes i).next)
              ((nth (build p).nodes c).early_start_time)
            - (nth (build p).nodes i).early_finish_time) := by
  obtain ⟨hwf, hsz, hle, hmx⟩ := built_pre rows p h
  obtain ⟨a1, -, -, a4, -, -, -, -, -, -, -, -⟩ := build_spec p hwf hsz hle hmx
  intro i hi
  exact a4 i (by rw [a1.len]; exact hi)

theorem C5_witness :
    (nth (build planB).nodes 1).total_float
      = (nth (build planB).nodes 1).late_start_time
        - (nth (build planB).nodes 1).early_start_time :=
  (C5_floats rowsB planB rfl 1 (by decide)).1

/-- C6: for every plan built from a sequence of successful add_node calls
(an acyclic graph with positive durations by construction), after build()
every task's total float is non-negative. -/
theorem C6_total_float_nonneg (rows : List (String × Int × List String)) (p : Plan)
    (h : add_rows Plan.empty rows = .ok p) :
    ∀ i, i < (build p).nodes.length → 0 ≤ (nth (build p).nodes i).total_float := by
  obtain ⟨hwf, hsz, hle, hmx⟩ := built_pre rows p h
  obtain ⟨a1, a2, a3, a4, -, -, -, -, -, -, -, -⟩ := build_spec p hwf hsz hle hmx
  have hwfb : WF (build p).nodes := wf_staticEq a1 hwf
  exact tf_nonneg (build p).nodes hwfb
    (fun i hi => a2 i (by rw [a1.len]; exact hi))
    (fun i hi => a3 i (by rw [a1.len]; exact hi))
    (fun i hi => a4 i (by rw [a1.len]; exact hi))

theorem C6_witness : 0 ≤ (nth (build planB).nodes 1).total_float :=
  C6_total_float_nonneg rowsB planB rfl 1 (by decide)

/-- C7: when add_node passes its own validations but a predecessor name
does not resolve, the mis-indented pn.add_next_node(pn = None) of
_create_node raises AttributeError, not the DiagramError the
specification calls UnknownPredecessorError; the task is still absent
from the node list afterwards. -/
theorem C7_unknown_predecessor (q : Plan) (name : String) (dur : Int)
    (prevs : List String) (hself : name ∉ prevs)
    (hdup : find_node q.nodes name = none) (hdur : 0 < dur)
    (hbad : ∃ nm ∈ prevs, find_node q.nodes nm = none) :
    ∃ ns', add_node q name dur prevs
        = .error (.attributeError, { q with nodes := ns' }) ∧
      ns'.length = q.nodes.length ∧ find_node ns' name = none := by
  obtain ⟨ns', e1, e2, e3⟩ := create_node_loop_err prevs q.nodes q.nodes.length [] hbad
  refine ⟨ns', ?_, e2, ?_⟩
  · simp only [add_node, if_neg hself, hdup, if_neg (not_le.mpr hdur),
      create_node, e1]
  · rw [find_node_congr ns' q.nodes e2
      (fun i hi => e3 i (by rw [← e2]; exact hi)) name]
    exact hdup

theorem C7_witness :
    ∃ ns', add_node Plan.empty "B" 1 ["A"]
        = .error (.attributeError, { Plan.empty with nodes := ns' }) ∧
      ns'.length = Plan.empty.nodes.length ∧ find_node ns' "B" = none :=
  C7_unknown_predecessor Plan.empty "B" 1 ["A"] (by decide) rfl (by decide)
    ⟨"A", by decide, rfl⟩

/-- C8: add_node raises the self-predecessor DiagramError when the name
appears in its own predecessor list, the already-defined DiagramError
when the name resolves in the plan, and the duration DiagramError when
the duration is not positive; in every case the plan carried by the
error is the unchanged input plan. -/
theorem C8_add_node_errors (q : Plan) (name : String) (dur : Int)
    (prevs : List String) :
    (name ∈ prevs →
      add_node q name dur prevs
        = .error (.diagramError
            ("Node \"" ++ name ++ "\" is its own predecessor."), q)) ∧
    (name ∉ prevs → ∀ j, find_node q.nodes name = some j →
      add_node q name dur prevs
        = .error (.diagramError ("Node \"" ++ name ++ "\" already defined."), q)) ∧
    (name ∉ prevs → find_node q.nodes name = none → dur ≤ 0 →
      add_node q name dur prevs
        = .error (.diagramError ("Duration of node " ++ name ++ " <= 0."), q)) := by
  refine ⟨fun hm => ?_, fun hm j hj => ?_, fun hm hn hd => ?_⟩
  · simp only [add_node, if_pos hm]
  · simp only [add_node, if_neg hm, hj]
  · simp only [add_node, if_neg hm, hn, if_pos hd]

theorem C8_witness :
    add_node planA "B" 2 ["B"]
      = .error (.diagramError "Node \"B\" is its own predecessor.", planA) ∧
    add_node planA "A" 2 []
      = .error (.diagramError "Node \"A\" already defined.", planA) ∧
    add_node planA "B" 0 []
      = .error (.diagramError "Duration of node B <= 0.", planA) :=
  ⟨(C8_add_node_errors planA "B" 2 ["B"]).1 (by decide),
   (C8_add_node_errors planA "A" 2 []).2.1 (by decide) 0 rfl,
   (C8_add_node_errors planA "B" 0 []).2.2 (by decide) rfl (by decide)⟩

/-- C9 (amended): rebuilding an unmodified successfully constructed plan
reproduces every task field, the maximum node level, the critical path
and the node counter, but the two per-level dictionaries are appended to
a second time instead of being rebuilt, so the literal claim of full
idempotence fails. -/
theorem C9_rebuild_stable (rows : List (String × Int × List String)) (p : Plan)
    (h : add_rows Plan.empty rows = .ok p) :
    (build (build p)).nodes = (build p).nodes ∧
    (build (build p)).max_node_level = (build p).max_node_level ∧
    (build (build p)).critical_path_nodes = (build p).critical_path_nodes ∧
    (build (build p)).node_id = (build p).node_id ∧
    (∀ L, dictGet (build (build p)).level_nodes L []
      = dictGet (build p).level_nodes L []
        ++ (List.range (build p).nodes.length).filter
          (fun i => (nth (build p).nodes i).level == L)) ∧
    (∀ L, dictGet (build (build p)).nodes_per_level L 0
      = dictGet (build p).nodes_per_level L 0
        + ((List.range (build p).nodes.length).filter
          (fun i => (nth (build p).nodes i).level == L)).length) := by
  obtain ⟨hwf, hsz, hle, hmx⟩ := built_pre rows p h
  exact build_idem p hwf hsz hle hmx

theorem C9_witness :
    (build (build planA)).nodes = (build planA).nodes ∧
    (build (build planA)).max_node_level = (build planA).max_node_level ∧
    (build (build planA)).critical_path_nodes = (build planA).critical_path_nodes ∧
    (build (build planA)).node_id = (build planA).node_id :=
  ⟨(C9_rebuild_stable rowsA planA rfl).1,
   (C9_rebuild_stable rowsA planA rfl).2.1,
   (C9_rebuild_stable rowsA planA rfl).2.2.1,
   (C9_rebuild_stable rowsA planA rfl).2.2.2.1⟩

/-- C9 (counterexample to the literal claim): on the one-task plan, the
second build() leaves every task field, the maximum level and the
critical path identical, yet doubles the per-level bookkeeping, so the
resulting Plan values differ. -/
theorem C9_counterexample :
    add_rows Plan.empty rowsA = Except.ok planA ∧
    build (build planA) ≠ build planA ∧
    dictGet (build (build planA)).nodes_per_level 0 0 = 2 ∧
    dictGet (build planA).nodes_per_level 0 0 = 1 ∧
    dictGet (build (build planA)).level_nodes 0 [] = [0, 0] ∧
    dictGet (build planA).level_nodes 0 [] = [0] :=
  ⟨rfl, by decide, by decide, by decide, by decide, by decide⟩

/-- C10: the first task of every successfully constructed non-empty plan
is a source (its predecessor list is empty, since nothing can resolve in
the empty plan), it stays a source through build(), and the level-0
group collected by build() is non-empty. -/
theorem C10_first_task_source (rows : List (String × Int × List String)) (p : Plan)
    (h : add_rows Plan.empty rows = .ok p) (hne : p.nodes ≠ []) :
    (nth p.nodes 0).prev = [] ∧
    (nth (build p).nodes 0).prev = [] ∧
    dictGet (build p).level_nodes 0 [] ≠ [] := by
  obtain ⟨hwf, hsz, hle, hmx⟩ := built_pre rows p h
  obtain ⟨a1, -, -, -, a5, -, -, -, -, -, a11, -⟩ := build_spec p hwf hsz hle hmx
  have h0 : (nth p.nodes 0).prev = [] := wf_first_source p.nodes hwf hne
  have hlen0 : 0 < p.nodes.length := List.length_pos.mpr hne
  obtain ⟨f1, -, -, -⟩ := add_rows_fields rows Plan.empty p h
  have hmem : 0 ∈ (List.range p.nodes.length).filter
      (fun i => (nth (build p).nodes i).level == (0 : Int)) := by
    rw [List.mem_filter]
    refine ⟨List.mem_range.mpr hlen0, ?_⟩
    have hl := a5 0 hlen0
    rw [specLevel_source p.nodes 0 h0] at hl
    simp [hl]
  refine ⟨h0, (a1.prev_eq 0).trans h0, ?_⟩
  intro hcontra
  rw [a11 0, f1] at hcontra
  have hd : dictGet Plan.empty.level_nodes 0 ([] : List Nat) = [] := rfl
  rw [hd, List.nil_append] at hcontra
  exact (List.ne_nil_of_mem hmem) hcontra

theorem C10_witness :
    (nth planA.nodes 0).prev = [] ∧
    (nth (build planA).nodes 0).prev = [] ∧
    dictGet (build planA).level_nodes 0 [] ≠ [] :=
  C10_first_task_source rowsA planA rfl (by decide)

end ND
